import Mathlib

/-
Verification of the regex syntax front end (lexer, Pratt parser, matcher
specialization) against its specification.

The embedding follows the Go sources:
  * `syntax/lexer.go`   : the context-aware byte lexer (`lexer.Init`).
  * the parser file with `ParserOptions`, `mergeChars` and `setValues`
    (`Parser.Parse`, `parseExpr`, the parselets, `precedenceOf`).
  * `reverse_reader.go` : the reverse UTF-8 reader and `suffixLitMatcher`.
  * the `reversedRegexp` AST reversal over the platform regexp AST.

Strings are modelled as lists of byte values (`Str`), positions as the
`uint16` pair from the source with the `% 2 ^ 16` truncation made explicit.
-/

namespace RegexFE

/-- A Go string: a list of byte values (each `< 256`). -/
abbrev Str := List Nat

/-- UTF-8 encoding of one code point, used to build byte strings from
Lean string literals. -/
def utf8EncodeChar (c : Nat) : List Nat :=
  if c < 128 then [c]
  else if c < 2048 then [192 + c / 64, 128 + c % 64]
  else if c < 65536 then [224 + c / 4096, 128 + c / 64 % 64, 128 + c % 64]
  else [240 + c / 262144, 128 + c / 4096 % 64, 128 + c / 64 % 64, 128 + c % 64]

/-- UTF-8 encode a list of characters. -/
def encodeChars : List Char → List Nat
  | [] => []
  | c :: cs => utf8EncodeChar c.toNat ++ encodeChars cs

/-- The bytes of a Lean string literal, as Go would see them. -/
def strBytes (s : String) : Str := encodeChars s.data

/-- Is a byte a UTF-8 continuation byte (`0x80..0xBF`)? -/
def isCont (b : Nat) : Bool := 128 ≤ b && b < 192

/-- Go `utf8.DecodeRuneInString`: decode the first rune of a byte string,
returning the code point and the number of bytes consumed.  Invalid input
decodes to `0xFFFD` with size 1, as in Go. -/
def decodeRune : Str → Nat × Nat
  | [] => (65533, 0)
  | b0 :: rest =>
    if b0 < 128 then (b0, 1)
    else if b0 < 194 then (65533, 1)
    else if b0 < 224 then
      match rest with
      | b1 :: _ =>
        if isCont b1 then ((b0 - 192) * 64 + (b1 - 128), 2) else (65533, 1)
      | [] => (65533, 1)
    else if b0 < 240 then
      match rest with
      | b1 :: b2 :: _ =>
        let lowOK :=
          if b0 = 224 then 160 ≤ b1 && b1 < 192
          else if b0 = 237 then 128 ≤ b1 && b1 < 160
          else isCont b1
        if lowOK && isCont b2 then
          ((b0 - 224) * 4096 + (b1 - 128) * 64 + (b2 - 128), 3)
        else (65533, 1)
      | _ => (65533, 1)
    else if b0 < 245 then
      match rest with
      | b1 :: b2 :: b3 :: _ =>
        let lowOK :=
          if b0 = 240 then 144 ≤ b1 && b1 < 192
          else if b0 = 244 then 128 ≤ b1 && b1 < 144
          else isCont b1
        if lowOK && isCont b2 && isCont b3 then
          ((b0 - 240) * 262144 + (b1 - 128) * 4096 + (b2 - 128) * 64 + (b3 - 128), 4)
        else (65533, 1)
      | _ => (65533, 1)
    else (65533, 1)

/-- `syntax/lexer.go` `Position`: a pair of `uint16` byte offsets.
The `uint16` truncation is applied explicitly where the source casts. -/
structure Position where
  Begin : Nat
  End : Nat
deriving DecidableEq

/-- Modelled from the spec (§3.1, missing position helper file):
combine two positions into the span from the first to the second. -/
def combinePos (x y : Position) : Position := ⟨x.Begin, y.End⟩

/-- `syntax/lexer.go` token kinds. -/
inductive tokenKind where
  | tokNone
  | tokChar
  | tokGroupFlags
  | tokPosixClass
  | tokConcat
  | tokRepeat
  | tokEscape
  | tokEscapeMeta
  | tokEscapeOctal
  | tokEscapeUni
  | tokEscapeUniFull
  | tokEscapeHex
  | tokEscapeHexFull
  | tokComment
  | tokQ
  | tokMinus
  | tokLbracket
  | tokLbracketCaret
  | tokRbracket
  | tokDollar
  | tokCaret
  | tokQuestion
  | tokDot
  | tokPlus
  | tokStar
  | tokPipe
  | tokLparen
  | tokLparenName
  | tokLparenFlags
  | tokLparenAtomic
  | tokLparenPositiveLookahead
  | tokLparenPositiveLookbehind
  | tokLparenNegativeLookahead
  | tokLparenNegativeLookbehind
  | tokRparen
deriving DecidableEq

/-- A single quote character as a string (used to spell the error
messages of the source without quote literals). -/
def q1 : String := (Char.ofNat 39).toString

/-- A backslash character as a string. -/
def bsl : String := (Char.ofNat 92).toString

/-- The `stringer`-generated display name of a token kind
(`-trimprefix=tok -linecomment=true`). -/
def tokenKindName : tokenKind → String
  | .tokNone => "None"
  | .tokChar => "Char"
  | .tokGroupFlags => "GroupFlags"
  | .tokPosixClass => "PosixClass"
  | .tokConcat => "Concat"
  | .tokRepeat => "Repeat"
  | .tokEscape => "Escape"
  | .tokEscapeMeta => "EscapeMeta"
  | .tokEscapeOctal => "EscapeOctal"
  | .tokEscapeUni => "EscapeUni"
  | .tokEscapeUniFull => "EscapeUniFull"
  | .tokEscapeHex => "EscapeHex"
  | .tokEscapeHexFull => "EscapeHexFull"
  | .tokComment => "Comment"
  | .tokQ => bsl ++ "Q"
  | .tokMinus => "-"
  | .tokLbracket => "["
  | .tokLbracketCaret => "[^"
  | .tokRbracket => "]"
  | .tokDollar => "$"
  | .tokCaret => "^"
  | .tokQuestion => "?"
  | .tokDot => "."
  | .tokPlus => "+"
  | .tokStar => "*"
  | .tokPipe => "|"
  | .tokLparen => "("
  | .tokLparenName => "(?P<name>"
  | .tokLparenFlags => "(?flags"
  | .tokLparenAtomic => "(?>"
  | .tokLparenPositiveLookahead => "(?="
  | .tokLparenPositiveLookbehind => "(?<="
  | .tokLparenNegativeLookahead => "(?!"
  | .tokLparenNegativeLookbehind => "(?<!"
  | .tokRparen => ")"

/-- `syntax/lexer.go` `token`. -/
structure token where
  kind : tokenKind
  pos : Position
deriving DecidableEq

/-- The zero token (`token{}` in Go): kind `tokNone` at position `[0,0)`. -/
def noneToken : token := ⟨.tokNone, ⟨0, 0⟩⟩

/-- Modelled from the spec (§1, §7; the error type file is absent from the
sources): a typed parse error carrying a byte position pair and a stable
message; `Error()` returns the message. -/
structure ParseError where
  Begin : Nat
  End : Nat
  Message : String
deriving DecidableEq

/-- `reMetachar` from `syntax/lexer.go`: meta characters outside a char
class (bytes of `\\ | * + ? . [ ] ^ $ ( )`). -/
def reMetachar (b : Nat) : Bool :=
  b = 92 || b = 124 || b = 42 || b = 43 || b = 63 || b = 46 ||
  b = 91 || b = 93 || b = 94 || b = 36 || b = 40 || b = 41

/-- `charClassMetachar` from `syntax/lexer.go`: meta characters inside a
char class (`-` and `]`). -/
def charClassMetachar (b : Nat) : Bool := b = 45 || b = 93

/-- `concatTable` from `syntax/lexer.go`: bit 1 = `concatX`
(cannot stand left of a synthesized concat), bit 2 = `concatY`
(cannot stand right of one). -/
def concatTable : tokenKind → Nat
  | .tokPipe => 3
  | .tokLparen => 1
  | .tokLparenFlags => 1
  | .tokLparenName => 1
  | .tokLparenAtomic => 1
  | .tokLbracket => 1
  | .tokLparenPositiveLookahead => 1
  | .tokLparenPositiveLookbehind => 1
  | .tokLparenNegativeLookahead => 1
  | .tokLparenNegativeLookbehind => 1
  | .tokRparen => 2
  | .tokRbracket => 2
  | .tokPlus => 2
  | .tokStar => 2
  | .tokQuestion => 2
  | .tokRepeat => 2
  | _ => 0

/-- `lexer.isConcatPos`: examined on the token vector after a push, via
its last two entries. -/
def isConcatPos (toks : List token) : Bool :=
  decide (2 ≤ toks.length) &&
  decide (concatTable (toks.getD (toks.length - 2) noneToken).kind % 2 = 0) &&
  decide (concatTable (toks.getD (toks.length - 1) noneToken).kind / 2 % 2 = 0)

/-- The concat-token synthesis of `lexer.Init`: rewrite the last pushed
token to `tokConcat` and append a copy of the original. -/
def insertConcat (toks : List token) : List token :=
  toks.dropLast ++
    [⟨.tokConcat, (toks.getLastD noneToken).pos⟩, toks.getLastD noneToken]

/-- `lexer.byteAt`: the byte at an index, `0` when out of bounds. -/
def byteAt (s : Str) (j : Nat) : Nat := s.getD j 0

/-- `strings.HasPrefix` over byte lists. -/
def hasPrefixList : Str → Str → Bool
  | [], _ => true
  | _ :: _, [] => false
  | p :: pr, b :: br => decide (p = b) && hasPrefixList pr br

/-- `strings.IndexByte` over byte lists (`none` for Go's `-1`). -/
def indexOfByte (b : Nat) : Str → Option Nat
  | [] => none
  | c :: rest =>
    if c = b then some 0 else (indexOfByte b rest).map (· + 1)

/-- `strings.Index` over byte lists (`none` for Go's `-1`). -/
def subIndex (pat : Str) : Str → Option Nat
  | [] => if pat.isEmpty then some 0 else none
  | c :: rest =>
    if hasPrefixList pat (c :: rest) then some 0
    else (subIndex pat rest).map (· + 1)

/-- `isDigit` (from the utility file of the lexer). -/
def isDigitB (b : Nat) : Bool := 48 ≤ b && b ≤ 57

/-- `isOctalDigit`. -/
def isOctalDigit (b : Nat) : Bool := 48 ≤ b && b ≤ 55

/-- `isHexDigit`: as used by the lexer for `\xHH` scanning. -/
def isHexDigit (b : Nat) : Bool :=
  (48 ≤ b && b ≤ 57) || (97 ≤ b && b ≤ 102) || (65 ≤ b && b ≤ 70)

/-- The length of the initial digit run of a byte string. -/
def countDigits : Str → Nat
  | [] => 0
  | b :: r => if isDigitB b then countDigits r + 1 else 0

/-- `lexer.captureNameWidth`: width of `?P<name>` from `pos`, if present. -/
def captureNameWidth (s : Str) (pos : Nat) : Option Nat :=
  if hasPrefixList (strBytes "?P<") (s.drop pos) then
    (indexOfByte 62 (s.drop pos)).map (· + 1)
  else none

/-- `lexer.groupFlagsWidth`: width of a `?flags` group head from `pos`. -/
def groupFlagsWidth (s : Str) (pos : Nat) : Option Nat :=
  if byteAt s pos ≠ 63 then none
  else
    match subIndex [41] (s.drop pos), subIndex [58] (s.drop pos) with
    | none, _ => none
    | some parenPos, some colonPos =>
      if colonPos < parenPos then some (colonPos + 1) else some parenPos
    | some parenPos, none => some parenPos

/-- `lexer.commentWidth`: width of a `?#...)` comment from `pos`. -/
def commentWidth (s : Str) (pos : Nat) : Option Nat :=
  if byteAt s pos = 63 && byteAt s (pos + 1) = 35 then
    (subIndex [41] (s.drop pos)).map (· + 1)
  else none

/-- `lexer.repeatWidth`: width of a `{m}`, `{m,}` or `{m,n}` body
starting right after the `{`. -/
def repeatWidth (s : Str) (pos : Nat) : Option Nat :=
  let j := pos + countDigits (s.drop pos)
  if j = pos then none
  else if byteAt s j = 125 then some (j + 1 - pos)
  else if byteAt s j ≠ 44 then none
  else
    let j2 := (j + 1) + countDigits (s.drop (j + 1))
    if byteAt s j2 = 125 then some (j2 + 1 - pos) else none

/-- A single scan step of `lexer.Init`: given the input, the byte index
and the char-class flag, produce the kind and byte size of the one token
pushed at this position, or the lexer error thrown here. -/
def lexScanBody (s : Str) (i : Nat) (inside : Bool) :
    Except ParseError (tokenKind × Nat) :=
  let d := decodeRune (s.drop i)
  let ch := d.1
  let size := d.2
  let pushMeta : tokenKind → tokenKind := fun k => if inside then .tokChar else k
  if ch = 46 then .ok (pushMeta .tokDot, size)
  else if ch = 43 then .ok (pushMeta .tokPlus, size)
  else if ch = 42 then .ok (pushMeta .tokStar, size)
  else if ch = 94 then .ok (pushMeta .tokCaret, size)
  else if ch = 36 then .ok (pushMeta .tokDollar, size)
  else if ch = 63 then .ok (pushMeta .tokQuestion, size)
  else if ch = 41 then .ok (pushMeta .tokRparen, size)
  else if ch = 124 then .ok (pushMeta .tokPipe, size)
  else if ch = 40 then
    if inside then .ok (.tokChar, size)
    else if byteAt s (i + 1) = 63 then
      if byteAt s (i + 2) = 62 then .ok (.tokLparenAtomic, size + 2)
      else if byteAt s (i + 2) = 61 then .ok (.tokLparenPositiveLookahead, size + 2)
      else if byteAt s (i + 2) = 33 then .ok (.tokLparenNegativeLookahead, size + 2)
      else if byteAt s (i + 2) = 60 && byteAt s (i + 3) = 61 then
        .ok (.tokLparenPositiveLookbehind, size + 3)
      else if byteAt s (i + 2) = 60 && byteAt s (i + 3) = 33 then
        .ok (.tokLparenNegativeLookbehind, size + 3)
      else
        match commentWidth s (i + 1) with
        | some j => .ok (.tokComment, size + j)
        | none =>
          match captureNameWidth s (i + 1) with
          | some j => .ok (.tokLparenName, size + j)
          | none =>
            match groupFlagsWidth s (i + 1) with
            | some j => .ok (.tokLparenFlags, size + j)
            | none => .error ⟨i, i + 1, "group token is incomplete"⟩
    else .ok (.tokLparen, size)
  else if ch = 123 then
    if inside then .ok (.tokChar, size)
    else
      match repeatWidth s (i + 1) with
      | some j => .ok (.tokRepeat, size + j)
      | none => .ok (.tokChar, size)
  else if ch = 45 then
    if inside then .ok (.tokMinus, size) else .ok (.tokChar, size)
  else if ch = 91 then
    if inside then
      if byteAt s (i + 1) = 58 && i + 2 < s.length then
        match subIndex [58, 93] (s.drop (i + 2)) with
        | some j => .ok (.tokPosixClass, size + j + 3)
        | none => .ok (.tokChar, size)
      else .ok (.tokChar, size)
    else
      if byteAt s (i + 1) = 94 then .ok (.tokLbracketCaret, size + 1)
      else .ok (.tokLbracket, size)
  else if ch = 93 then
    if inside then .ok (.tokRbracket, size) else .ok (.tokChar, size)
  else if ch = 92 then
    if i + 1 ≥ s.length then
      .error ⟨i, i + 1,
        "unexpected end of pattern: trailing " ++ q1 ++ bsl ++ q1⟩
    else if byteAt s (i + 1) = 112 || byteAt s (i + 1) = 80 then
      if i + 2 ≥ s.length then
        .error ⟨i, i + 2,
          "unexpected end of pattern: expected uni-class-short or " ++
            q1 ++ "\x7b" ++ q1⟩
      else if byteAt s (i + 2) = 123 then
        match indexOfByte 125 (s.drop (i + 2)) with
        | none =>
          .error ⟨i, i + 2,
            "can" ++ q1 ++ "t find closing " ++ q1 ++ "\x7d" ++ q1⟩
        | some j => .ok (.tokEscapeUniFull, size + j + 2)
      else .ok (.tokEscapeUni, size + 2)
    else if byteAt s (i + 1) = 120 then
      if i + 2 ≥ s.length then
        .error ⟨i, i + 2,
          "unexpected end of pattern: expected hex-digit or " ++
            q1 ++ "\x7b" ++ q1⟩
      else if byteAt s (i + 2) = 123 then
        match indexOfByte 125 (s.drop (i + 2)) with
        | none =>
          .error ⟨i, i + 2,
            "can" ++ q1 ++ "t find closing " ++ q1 ++ "\x7d" ++ q1⟩
        | some j => .ok (.tokEscapeHexFull, size + j + 2)
      else
        if isHexDigit (byteAt s (i + 3)) then .ok (.tokEscapeHex, size + 3)
        else .ok (.tokEscapeHex, size + 2)
    else if isOctalDigit (byteAt s (i + 1)) then
      let size1 := size + 1
      let size2 := if isOctalDigit (byteAt s (i + 2)) then size1 + 1 else size1
      let size3 := if isOctalDigit (byteAt s (i + 3)) then size2 + 1 else size2
      .ok (.tokEscapeOctal, size3)
    else if byteAt s (i + 1) = 81 then
      let j := if i + 2 < s.length then subIndex [92, 69] (s.drop (i + 2)) else none
      match j with
      | none => .ok (.tokQ, s.length - i)
      | some j => .ok (.tokQ, j + 4)
    else
      let meta :=
        if inside then charClassMetachar (byteAt s (i + 1))
        else reMetachar (byteAt s (i + 1))
      .ok (if meta then .tokEscapeMeta else .tokEscape, size + 1)
  else .ok (.tokChar, size)

/-- Failure of the lexer: either a thrown `ParseError` or fuel
exhaustion of the embedding (shown impossible below). -/
inductive LexFail where
  | fuelOut
  | err (e : ParseError)
deriving DecidableEq

/-- The scan loop of `lexer.Init`.  `uint16` truncation of positions
happens at each push, as in the source.  The char-class flag is updated
from the decoded rune after the concat synthesis, exactly as in the
source. -/
def lexScan (s : Str) : Nat → Nat → Bool → List token →
    Except LexFail (List token)
  | 0, _, _, _ => .error .fuelOut
  | fuel + 1, i, inside, toks =>
    if i < s.length then
      match lexScanBody s i inside with
      | .error e => .error (.err e)
      | .ok (kind, size) =>
        let toks1 : List token :=
          toks ++ [⟨kind, ⟨i % 65536, (i + size) % 65536⟩⟩]
        let toks2 :=
          if !inside && isConcatPos toks1 then insertConcat toks1 else toks1
        let ch := (decodeRune (s.drop i)).1
        let inside2 := if ch = 91 then true else if ch = 93 then false else inside
        lexScan s fuel (i + size) inside2 toks2
    else .ok toks

/-- `lexer.Init`: tokenize a pattern. -/
def lexInit (s : Str) : Except LexFail (List token) :=
  lexScan s (s.length + 1) 0 false []

end RegexFE

namespace RegexFE

/-- The AST operations used by the parser under verification
(the generation with `OpChar`/`OpString` and char merging). -/
inductive Operation where
  | OpNone
  | OpCaret
  | OpDollar
  | OpDot
  | OpChar
  | OpLiteral
  | OpString
  | OpQuote
  | OpEscape
  | OpEscapeMeta
  | OpEscapeOctal
  | OpEscapeHex
  | OpEscapeHexFull
  | OpEscapeUni
  | OpEscapeUniFull
  | OpCharClass
  | OpNegCharClass
  | OpCharRange
  | OpPosixClass
  | OpRepeat
  | OpCapture
  | OpNamedCapture
  | OpGroup
  | OpGroupWithFlags
  | OpFlagOnlyGroup
  | OpConcat
  | OpAlt
  | OpStar
  | OpPlus
  | OpQuestion
  | OpNonGreedy
deriving DecidableEq

/-- `syntax/ast.go` `Expr`: operation, position, ordered children and the
materialized source text (bytes). -/
inductive Expr where
  | mk (Op : Operation) (Pos : Position) (Args : List Expr) (Value : Str)

/-- The operation of an expression. -/
def Expr.Op : Expr → Operation
  | .mk op _ _ _ => op

/-- The position of an expression. -/
def Expr.Pos : Expr → Position
  | .mk _ pos _ _ => pos

/-- The child list of an expression. -/
def Expr.Args : Expr → List Expr
  | .mk _ _ args _ => args

/-- The materialized value of an expression. -/
def Expr.Value : Expr → Str
  | .mk _ _ _ v => v

/-- `syntax/ast.go` `Regexp`: source plus root expression. -/
structure Regexp where
  Source : Str
  Expr : Expr

/-- `tok2op` from the parser: the elementary prefix table. -/
def tok2op : tokenKind → Operation
  | .tokDollar => .OpDollar
  | .tokCaret => .OpCaret
  | .tokDot => .OpDot
  | .tokChar => .OpChar
  | .tokMinus => .OpChar
  | .tokEscape => .OpEscape
  | .tokEscapeMeta => .OpEscapeMeta
  | .tokEscapeHex => .OpEscapeHex
  | .tokEscapeHexFull => .OpEscapeHexFull
  | .tokEscapeOctal => .OpEscapeOctal
  | .tokEscapeUni => .OpEscapeUni
  | .tokEscapeUniFull => .OpEscapeUniFull
  | .tokPosixClass => .OpPosixClass
  | .tokQ => .OpQuote
  | _ => .OpNone

/-- Whether a token kind has a registered prefix parselet
(`tok2op` entries plus the group and char-class openers). -/
def hasPrefixParselet (k : tokenKind) : Bool :=
  (tok2op k ≠ .OpNone : Bool) ||
  k = .tokLparen || k = .tokLparenName || k = .tokLparenFlags ||
  k = .tokLbracket || k = .tokLbracketCaret

/-- `Parser.precedenceOf`. -/
def precedenceOf (tok : token) : Nat :=
  match tok.kind with
  | .tokPipe => 1
  | .tokConcat => 2
  | .tokMinus => 2
  | .tokPlus => 3
  | .tokStar => 3
  | .tokQuestion => 3
  | .tokRepeat => 3
  | _ => 0

/-- Parser state: the token vector with the cursor of the lexer, plus the
shared `charClass` element buffer of the parser. -/
structure PState where
  tokens : List token
  tpos : Nat
  charClass : List Expr

/-- `lexer.NextToken`: return the token under the cursor and advance;
the zero token once exhausted. -/
def nextToken (st : PState) : token × PState :=
  if st.tpos < st.tokens.length then
    (st.tokens.getD st.tpos noneToken, { st with tpos := st.tpos + 1 })
  else (noneToken, st)

/-- `lexer.Peek`. -/
def peekToken (st : PState) : token :=
  if st.tpos < st.tokens.length then st.tokens.getD st.tpos noneToken
  else noneToken

/-- Parser failure: a thrown `ParseError`, a Go panic carrying a plain
error (as in `parseExpr` for a missing prefix parselet, or a slice bounds
violation), or fuel exhaustion of the embedding. -/
inductive PFail where
  | err (e : ParseError)
  | panicked (msg : String)
  | fuelOut
deriving DecidableEq

/-- `uint16` truncation. -/
def u16 (n : Nat) : Nat := n % 65536

/-- `uint16` subtraction (wrapping), for position arithmetic such as
`tok.pos.End - 1`. -/
def u16sub (a b : Nat) : Nat := (u16 a + 65536 - u16 b) % 65536

/-- Go string slicing `s[b:e]` over byte lists (caller must check
bounds; out-of-range slicing is modelled as a panic at call sites). -/
def sliceStr (s : Str) (b e : Nat) : Str := (s.take e).drop b

/-- `strings.HasSuffix` over byte lists. -/
def hasSuffixList (pat s : Str) : Bool :=
  hasPrefixList pat.reverse s.reverse

/-- The `tokPipe` infix parselet's flattening step: append to an
existing `OpAlt` (updating its end position) or build a binary one. -/
def altJoin (left right : Expr) : Expr :=
  if left.Op = .OpAlt then
    .mk .OpAlt ⟨left.Pos.Begin, right.Pos.End⟩ (left.Args ++ [right]) left.Value
  else
    .mk .OpAlt (combinePos left.Pos right.Pos) [left, right] []

/-- The `tokConcat` infix parselet's flattening step. -/
def concatJoin (left right : Expr) : Expr :=
  if left.Op = .OpConcat then
    .mk .OpConcat ⟨left.Pos.Begin, right.Pos.End⟩ (left.Args ++ [right]) left.Value
  else
    .mk .OpConcat (combinePos left.Pos right.Pos) [left, right] []

/-- `Parser.expect`: consume a token of the given kind or throw. -/
def expectKind (kind : tokenKind) (st : PState) :
    Except PFail (Position × PState) :=
  let n := nextToken st
  if n.1.kind = kind then .ok (n.1.pos, n.2)
  else .error (.err ⟨n.1.pos.Begin, n.1.pos.End,
    "expected " ++ q1 ++ tokenKindName kind ++ q1 ++ ", found " ++ q1 ++
      tokenKindName n.1.kind ++ q1⟩)

mutual

/-- `Parser.parseExpr`: consume one token, run its prefix parselet
(panicking like the source when none is registered), then run the infix
loop. -/
def parseExpr (s : Str) : Nat → Nat → PState → Except PFail (Expr × PState)
  | 0, _, _ => .error .fuelOut
  | fuel + 1, precedence, st =>
    let n := nextToken st
    if hasPrefixParselet n.1.kind then
      match applyPrefixParselet s fuel n.1 n.2 with
      | .error f => .error f
      | .ok (left, st2) => infixLoop s fuel precedence left st2
    else .error (.panicked ("unexpected token: " ++ tokenKindName n.1.kind))

/-- The infix loop of `Parser.parseExpr`. -/
def infixLoop (s : Str) : Nat → Nat → Expr → PState →
    Except PFail (Expr × PState)
  | 0, _, _, _ => .error .fuelOut
  | fuel + 1, precedence, left, st =>
    if precedence < precedenceOf (peekToken st) then
      let n := nextToken st
      match applyInfixParselet s fuel n.1 left n.2 with
      | .error f => .error f
      | .ok (left2, st2) => infixLoop s fuel precedence left2 st2
    else .ok (left, st)

/-- Dispatch of `prefixParselets`. -/
def applyPrefixParselet (s : Str) : Nat → token → PState →
    Except PFail (Expr × PState)
  | 0, _, _ => .error .fuelOut
  | fuel + 1, tok, st =>
    match tok.kind with
    | .tokLparen => parseCapture s fuel tok st
    | .tokLparenName => parseNamedCapture s fuel tok st
    | .tokLparenFlags => parseGroupWithFlags s fuel tok st
    | .tokLbracket => parseCharClass s fuel .OpCharClass tok st
    | .tokLbracketCaret => parseCharClass s fuel .OpNegCharClass tok st
    | k => .ok (.mk (tok2op k) tok.pos [] [], st)

/-- Dispatch of `infixParselets`. -/
def applyInfixParselet (s : Str) : Nat → token → Expr → PState →
    Except PFail (Expr × PState)
  | 0, _, _, _ => .error .fuelOut
  | fuel + 1, tok, left, st =>
    match tok.kind with
    | .tokRepeat =>
      let repeatLit : Expr := .mk .OpString tok.pos [] []
      .ok (.mk .OpRepeat (combinePos left.Pos tok.pos) [left, repeatLit] [], st)
    | .tokPlus => .ok (.mk .OpPlus tok.pos [left] [], st)
    | .tokStar => .ok (.mk .OpStar tok.pos [left] [], st)
    | .tokPipe =>
      match (peekToken st).kind with
      | .tokRparen => .ok (altJoin left (.mk .OpConcat tok.pos [] []), st)
      | .tokNone => .ok (altJoin left (.mk .OpConcat tok.pos [] []), st)
      | _ =>
        match parseExpr s fuel 1 st with
        | .error f => .error f
        | .ok (right, st2) => .ok (altJoin left right, st2)
    | .tokConcat =>
      match parseExpr s fuel 2 st with
      | .error f => .error f
      | .ok (right, st2) => .ok (concatJoin left right, st2)
    | .tokMinus => parseMinus s fuel left tok st
    | .tokQuestion =>
      let opq : Operation :=
        match left.Op with
        | .OpPlus => .OpNonGreedy
        | .OpStar => .OpNonGreedy
        | .OpQuestion => .OpNonGreedy
        | .OpRepeat => .OpNonGreedy
        | _ => .OpQuestion
      .ok (.mk opq tok.pos [left] [], st)
    | _ => .error (.panicked "nil infix parselet")

/-- `Parser.parseMinus` (active inside char classes): build a
`CharRange`, or fold the left operand into the class buffer and yield a
literal hyphen char. -/
def parseMinus (s : Str) : Nat → Expr → token → PState →
    Except PFail (Expr × PState)
  | 0, _, _, _ => .error .fuelOut
  | fuel + 1, left, tok, st =>
    let isRangeLeft : Bool := left.Op = .OpEscapeMeta || left.Op = .OpChar
    let nk := (peekToken st).kind
    let isRangeNext : Bool :=
      nk = .tokChar || nk = .tokEscapeMeta || nk = .tokMinus
    if isRangeLeft && isRangeNext then
      match parseExpr s fuel 2 st with
      | .error f => .error f
      | .ok (right, st2) =>
        .ok (.mk .OpCharRange (combinePos left.Pos right.Pos) [left, right] [], st2)
    else
      .ok (.mk .OpChar tok.pos [] [],
        { st with charClass := st.charClass ++ [left] })

/-- `Parser.parseCharClass`. -/
def parseCharClass (s : Str) : Nat → Operation → token → PState →
    Except PFail (Expr × PState)
  | 0, _, _, _ => .error .fuelOut
  | fuel + 1, op, tok, st =>
    if (peekToken st).kind = .tokRbracket then
      let n := nextToken st
      .ok (.mk op (combinePos tok.pos n.1.pos) [] [], n.2)
    else
      match classLoop s fuel tok { st with charClass := [] } with
      | .error f => .error f
      | .ok (endPos, st2) =>
        .ok (.mk op (combinePos tok.pos endPos) st2.charClass [], st2)

/-- The element loop of `Parser.parseCharClass`. -/
def classLoop (s : Str) : Nat → token → PState →
    Except PFail (Position × PState)
  | 0, _, _ => .error .fuelOut
  | fuel + 1, tok, st =>
    match parseExpr s fuel 0 st with
    | .error f => .error f
    | .ok (e, st1) =>
      let st2 := { st1 with charClass := st1.charClass ++ [e] }
      let next := peekToken st2
      if next.kind = .tokRbracket then
        .ok (next.pos, (nextToken st2).2)
      else if next.kind = .tokNone then
        .error (.err ⟨tok.pos.Begin, tok.pos.End,
          "unterminated " ++ q1 ++ "[" ++ q1⟩)
      else classLoop s fuel tok st2

/-- `Parser.parseGroupItem`. -/
def parseGroupItem (s : Str) : Nat → token → PState →
    Except PFail (Expr × PState)
  | 0, _, _ => .error .fuelOut
  | fuel + 1, tok, st =>
    if (peekToken st).kind = .tokRparen then
      .ok (.mk .OpConcat tok.pos [] [], st)
    else parseExpr s fuel 0 st

/-- `Parser.parseCapture`. -/
def parseCapture (s : Str) : Nat → token → PState →
    Except PFail (Expr × PState)
  | 0, _, _ => .error .fuelOut
  | fuel + 1, tok, st =>
    match parseGroupItem s fuel tok st with
    | .error f => .error f
    | .ok (x, st1) =>
      match expectKind .tokRparen st1 with
      | .error f => .error f
      | .ok (rp, st2) => .ok (.mk .OpCapture ⟨tok.pos.Begin, rp.End⟩ [x] [], st2)

/-- `Parser.parseNamedCapture`. -/
def parseNamedCapture (s : Str) : Nat → token → PState →
    Except PFail (Expr × PState)
  | 0, _, _ => .error .fuelOut
  | fuel + 1, tok, st =>
    let name : Expr :=
      .mk .OpString ⟨u16 (tok.pos.Begin + 4), u16sub tok.pos.End 1⟩ [] []
    match parseGroupItem s fuel tok st with
    | .error f => .error f
    | .ok (x, st1) =>
      match expectKind .tokRparen st1 with
      | .error f => .error f
      | .ok (rp, st2) =>
        .ok (.mk .OpNamedCapture ⟨tok.pos.Begin, rp.End⟩ [x, name] [], st2)

/-- `Parser.parseGroupWithFlags`. -/
def parseGroupWithFlags (s : Str) : Nat → token → PState →
    Except PFail (Expr × PState)
  | 0, _, _ => .error .fuelOut
  | fuel + 1, tok, st =>
    if u16 (tok.pos.Begin + 1) ≤ tok.pos.End ∧ tok.pos.End ≤ s.length then
      let val := sliceStr s (u16 (tok.pos.Begin + 1)) tok.pos.End
      if ¬ hasSuffixList [58] val then
        let flags : Expr := .mk .OpString ⟨u16 (tok.pos.Begin + 1), tok.pos.End⟩ [] []
        match expectKind .tokRparen st with
        | .error f => .error f
        | .ok (rp, st1) =>
          .ok (.mk .OpFlagOnlyGroup ⟨tok.pos.Begin, rp.End⟩ [flags] [], st1)
      else if val = [63, 58] then
        match parseGroupItem s fuel tok st with
        | .error f => .error f
        | .ok (x, st1) =>
          match expectKind .tokRparen st1 with
          | .error f => .error f
          | .ok (rp, st2) => .ok (.mk .OpGroup ⟨tok.pos.Begin, rp.End⟩ [x] [], st2)
      else
        let flags : Expr :=
          .mk .OpString ⟨u16 (tok.pos.Begin + 1), u16sub tok.pos.End 1⟩ [] []
        match parseGroupItem s fuel tok st with
        | .error f => .error f
        | .ok (x, st1) =>
          match expectKind .tokRparen st1 with
          | .error f => .error f
          | .ok (rp, st2) =>
            .ok (.mk .OpGroupWithFlags ⟨tok.pos.Begin, rp.End⟩ [x, flags] [], st2)
    else .error (.panicked "slice bounds out of range")

end

/-- Build the merged node for a char run: a single char stays itself, two
or more become an `OpLiteral` spanning from the first to the last. -/
def runNode (first : Expr) (acc : List Expr) : Expr :=
  match acc.getLast? with
  | none => first
  | some last => .mk .OpLiteral (combinePos first.Pos last.Pos) (first :: acc) []

mutual

/-- The run-merging loop inside `mergeChars` for a concat's args. -/
def mergeRun : List Expr → List Expr
  | [] => []
  | e :: rest =>
    if e.Op = .OpChar then chompChars e [] rest
    else e :: mergeRun rest

/-- Accumulate a run of consecutive `OpChar` args. -/
def chompChars (first : Expr) (acc : List Expr) : List Expr → List Expr
  | [] => [runNode first acc]
  | e :: rest =>
    if e.Op = .OpChar then chompChars first (acc ++ [e]) rest
    else runNode first acc :: e :: mergeRun rest

end

mutual

/-- The char-merging pass `Parser.mergeChars`: in a concat of two or
more args, collapse runs of two or more `OpChar` args into an
`OpLiteral`; otherwise recurse into the children.  A concat reduced to a
single arg is replaced by it. -/
def mergeChars : Expr → Expr
  | .mk op pos args v =>
    if op = .OpConcat ∧ 2 ≤ args.length then
      match mergeRun args with
      | [single] => single
      | margs => .mk op pos margs v
    else .mk op pos (mergeList args) v

/-- `mergeChars` mapped over children. -/
def mergeList : List Expr → List Expr
  | [] => []
  | e :: rest => mergeChars e :: mergeList rest

end

mutual

/-- `Parser.setValues`: materialize `Value` as `source[Begin:End]` on
every node; Go slicing panics on invalid bounds, modelled as an error. -/
def setValues (s : Str) : Expr → Except PFail Expr
  | .mk op pos args _ =>
    match setValuesList s args with
    | .error f => .error f
    | .ok args2 =>
      if pos.Begin ≤ pos.End ∧ pos.End ≤ s.length then
        .ok (.mk op pos args2 (sliceStr s pos.Begin pos.End))
      else .error (.panicked "slice bounds out of range")

/-- `setValues` over a child list. -/
def setValuesList (s : Str) : List Expr → Except PFail (List Expr)
  | [] => .ok []
  | e :: rest =>
    match setValues s e, setValuesList s rest with
    | .ok e2, .ok rest2 => .ok (e2 :: rest2)
    | .error f, _ => .error f
    | _, .error f => .error f

end

/-- The fuel given to the parser for a token vector of length `n`
(shown sufficient below). -/
def parseFuel (n : Nat) : Nat := 8 * n + 8

/-- The body of `Parser.Parse` before the deferred recover: lex, parse,
merge chars, set values.  Returns the result together with the final
parser state (whose cursor tells how many tokens were consumed). -/
def ParseRawSt (s : Str) : Except PFail (Regexp × PState) :=
  match lexInit s with
  | .error (.err e) => .error (.err e)
  | .error .fuelOut => .error .fuelOut
  | .ok toks =>
    let st0 : PState := ⟨toks, 0, []⟩
    let parsed : Except PFail (Expr × PState) :=
      if s.length = 0 then .ok (.mk .OpConcat ⟨0, 0⟩ [] [], st0)
      else parseExpr s (parseFuel toks.length) 0 st0
    match parsed with
    | .error f => .error f
    | .ok (e, st1) =>
      match setValues s (mergeChars e) with
      | .error f => .error f
      | .ok e2 => .ok (⟨s, e2⟩, st1)

/-- The observable outcome of `Parser.Parse`: a parsed regexp, a typed
`ParseError` returned through the recover, or a panic that escapes
(a non-`ParseError` value is re-panicked by the recover). -/
inductive ParseOutcome where
  | ok (re : Regexp) (consumed : Nat) (total : Nat)
  | parseErr (e : ParseError)
  | panicked (msg : String)
  | fuelOut

/-- `Parser.Parse` including the deferred recover. -/
def Parse (s : Str) : ParseOutcome :=
  match ParseRawSt s with
  | .ok (re, st) => .ok re st.tpos st.tokens.length
  | .error (.err e) => .parseErr e
  | .error (.panicked m) => .panicked m
  | .error .fuelOut => .fuelOut

end RegexFE

namespace RegexFE

mutual

/-- The surface-form writer of the round-trip property.  This definition
follows the spec (§8) and the repository's own `writeExpr` test helper,
not the parser: each leaf node writes its `Value`, and each non-leaf node
reproduces its structural tokens from its op, recursing over its children
in order. -/
def emitExpr : Expr → Str
  | .mk op _ args v =>
    match op with
    | .OpConcat => emitList args
    | .OpLiteral => emitList args
    | .OpAlt => emitAlt args
    | .OpCharRange =>
      match args with
      | [lo, hi] => emitExpr lo ++ [45] ++ emitExpr hi
      | _ => []
    | .OpCharClass => [91] ++ emitList args ++ [93]
    | .OpNegCharClass => [91, 94] ++ emitList args ++ [93]
    | .OpRepeat => emitList args
    | .OpPlus => emitList args ++ [43]
    | .OpStar => emitList args ++ [42]
    | .OpQuestion => emitList args ++ [63]
    | .OpNonGreedy => emitList args ++ [63]
    | .OpCapture => [40] ++ emitList args ++ [41]
    | .OpNamedCapture =>
      match args with
      | [body, name] => strBytes "(?P<" ++ name.Value ++ [62] ++ emitExpr body ++ [41]
      | _ => []
    | .OpGroup => strBytes "(?:" ++ emitList args ++ [41]
    | .OpGroupWithFlags =>
      match args with
      | [body, flags] => [40] ++ flags.Value ++ [58] ++ emitExpr body ++ [41]
      | _ => []
    | .OpFlagOnlyGroup => [40] ++ emitList args ++ [41]
    | _ => v

/-- Children written in order. -/
def emitList : List Expr → Str
  | [] => []
  | e :: r => emitExpr e ++ emitList r

/-- Alternation children written with `|` separators. -/
def emitAlt : List Expr → Str
  | [] => []
  | [e] => emitExpr e
  | e :: r => emitExpr e ++ [124] ++ emitAlt r

end

/-! ### The platform regexp AST and `reversedRegexp` (heap model)

`reversedRegexp` operates on Go pointers and slices.  To capture the
sharing of `out := *re` (the copied struct keeps the same `Sub` backing
array), nodes and `Sub` backing arrays live in an explicit heap, and a
`Sub` slice is a view `(array id, start, length)` into it. -/

/-- The `regexp/syntax` operations distinguished by `reversedRegexp`. -/
inductive GoOp where
  | OpLiteral
  | OpCharClass
  | OpConcat
  | OpAlternate
  | OpCapture
  | OpStar
  | OpPlus
  | OpQuest
  | OpRepeat
  | OpOther
deriving DecidableEq

/-- A heap node of the platform `syntax.Regexp`. -/
structure RNode where
  Op : GoOp
  Rune : List Nat
  SubArr : Nat
  SubStart : Nat
  SubLen : Nat
  Flags : Nat
deriving DecidableEq

/-- The heap: regexp nodes and `Sub` backing arrays, both addressed by
index.  Element values of arrays are node addresses. -/
structure RHeap where
  nodes : List RNode
  arrays : List (List Nat)
deriving DecidableEq

/-- Read a node (the zero node for a dangling address). -/
def readNode (h : RHeap) (id : Nat) : RNode :=
  h.nodes.getD id ⟨.OpOther, [], 0, 0, 0, 0⟩

/-- Read one element of a backing array. -/
def readArrElem (h : RHeap) (arr idx : Nat) : Nat :=
  (h.arrays.getD arr []).getD idx 0

/-- Overwrite one element of a backing array in place. -/
def writeArrElem (h : RHeap) (arr idx v : Nat) : RHeap :=
  ⟨h.nodes, h.arrays.set arr ((h.arrays.getD arr []).set idx v)⟩

/-- Allocate a node, returning its address. -/
def allocNode (h : RHeap) (n : RNode) : RHeap × Nat :=
  (⟨h.nodes ++ [n], h.arrays⟩, h.nodes.length)

/-- Allocate a fresh backing array, returning its id. -/
def allocArray (h : RHeap) (elems : List Nat) : RHeap × Nat :=
  (⟨h.nodes, h.arrays ++ [elems]⟩, h.arrays.length)

mutual

/-- `reversedRegexp` from the source, over the heap model.  `out := *re`
is the record copy `n` below; for `OpCapture`/`OpStar`/`OpPlus`/
`OpQuest`/`OpRepeat` the source writes `out.Sub[0]`, which lands in the
backing array shared with the argument.  Returns `none` only on fuel
exhaustion. -/
def reversedRegexp (h : RHeap) (id : Nat) (fuel : Nat) : Option (RHeap × Nat) :=
  match fuel with
  | 0 => none
  | fuel + 1 =>
    let n := readNode h id
    match n.Op with
    | .OpAlternate =>
      match reversedSubsInOrder h n.SubArr n.SubStart n.SubLen fuel with
      | none => none
      | some (h1, elems) =>
        let a := allocArray h1 elems
        let out : RNode := { n with SubArr := a.2, SubStart := 0 }
        some (allocNode a.1 out)
    | .OpConcat =>
      match reversedSubsBackward h n.SubArr n.SubStart n.SubLen fuel with
      | none => none
      | some (h1, elems) =>
        let a := allocArray h1 elems
        let out : RNode := { n with SubArr := a.2, SubStart := 0 }
        some (allocNode a.1 out)
    | .OpCapture => reversedInPlace h n fuel
    | .OpStar => reversedInPlace h n fuel
    | .OpPlus => reversedInPlace h n fuel
    | .OpQuest => reversedInPlace h n fuel
    | .OpRepeat => reversedInPlace h n fuel
    | .OpLiteral => some (allocNode h { n with Rune := n.Rune.reverse })
    | _ => some (allocNode h n)
termination_by structural fuel

/-- The `out.Sub[0] = reversedRegexp(re.Sub[0])` case: the write goes to
the backing array shared between `out` and the argument. -/
def reversedInPlace (h : RHeap) (n : RNode) (fuel : Nat) : Option (RHeap × Nat) :=
  match fuel with
  | 0 => none
  | fuel + 1 =>
    match reversedRegexp h (readArrElem h n.SubArr n.SubStart) fuel with
    | none => none
    | some (h1, rid) =>
      let h2 := writeArrElem h1 n.SubArr n.SubStart rid
      some (allocNode h2 n)
termination_by structural fuel

/-- `for i, sub := range re.Sub` with `out.Sub[i] = reversedRegexp(sub)`
(the `OpAlternate` case): reverse each child in order. -/
def reversedSubsInOrder (h : RHeap) (arr start len fuel : Nat) :
    Option (RHeap × List Nat) :=
  match fuel with
  | 0 => none
  | fuel + 1 =>
    match len with
    | 0 => some (h, [])
    | len + 1 =>
      match reversedRegexp h (readArrElem h arr start) fuel with
      | none => none
      | some (h1, rid) =>
        match reversedSubsInOrder h1 arr (start + 1) len fuel with
        | none => none
        | some (h2, rest) => some (h2, rid :: rest)
termination_by structural fuel

/-- `reversedSub` (the `OpConcat` case): children reversed back to
front. -/
def reversedSubsBackward (h : RHeap) (arr start len fuel : Nat) :
    Option (RHeap × List Nat) :=
  match fuel with
  | 0 => none
  | fuel + 1 =>
    match len with
    | 0 => some (h, [])
    | len + 1 =>
      match reversedRegexp h (readArrElem h arr (start + len)) fuel with
      | none => none
      | some (h1, rid) =>
        match reversedSubsBackward h1 arr start len fuel with
        | none => none
        | some (h2, rest) => some (h2, rid :: rest)
termination_by structural fuel

end

/-- The pure tree reachable from a heap node, for stating structural
(non-)identity of the argument before and after `reversedRegexp`. -/
inductive RTree where
  | node (op : GoOp) (runes : List Nat) (flags : Nat) (children : List RTree)

mutual

/-- Structural equality of platform AST trees. -/
def RTree.beq : RTree → RTree → Bool
  | .node o1 r1 f1 c1, .node o2 r2 f2 c2 =>
    decide (o1 = o2) && decide (r1 = r2) && decide (f1 = f2) && RTree.beqList c1 c2

/-- Structural equality of lists of platform AST trees. -/
def RTree.beqList : List RTree → List RTree → Bool
  | [], [] => true
  | t1 :: r1, t2 :: r2 => RTree.beq t1 t2 && RTree.beqList r1 r2
  | _, _ => false

end

/-- The child node addresses of a heap node's `Sub` view. -/
def subAddrs (h : RHeap) (n : RNode) : List Nat :=
  (List.range n.SubLen).map (fun k => readArrElem h n.SubArr (n.SubStart + k))

/-- Read the tree reachable from a node address. -/
def readTree (h : RHeap) (id : Nat) : Nat → RTree
  | 0 => .node .OpOther [] 0 []
  | fuel + 1 =>
    let n := readNode h id
    .node n.Op n.Rune n.Flags ((subAddrs h n).map (fun a => readTree h a fuel))

/-! ### The suffix-literal matcher (`reverse_reader.go` and its caller) -/

/-- `reverseReader`: a string with the current (possibly `-1`) reading
index. -/
structure reverseReader where
  s : Str
  i : Int

/-- `newReverseReader`. -/
def newReverseReader (s : Str) : reverseReader := ⟨s, (s.length : Int) - 1⟩

/-- Go `utf8.DecodeLastRuneInString`: decode the final rune of a byte
string.  Scans back over at most three continuation bytes for a start
byte, then decodes forward; a mismatch yields `(0xFFFD, 1)`. -/
def decodeLastRune (s : Str) : Nat × Nat :=
  if s.length = 0 then (65533, 0)
  else
    let last := s.length - 1
    let back : Nat :=
      if ¬ isCont (byteAt s last) then 0
      else if 1 ≤ last ∧ ¬ isCont (byteAt s (last - 1)) then 1
      else if 2 ≤ last ∧ ¬ isCont (byteAt s (last - 2)) then 2
      else if 3 ≤ last ∧ ¬ isCont (byteAt s (last - 3)) then 3
      else 0
    let start := last - back
    let d := decodeRune (s.drop start)
    if d.2 = back + 1 then d else (65533, 1)

/-- `reverseReader.ReadRune`: `none` is `io.EOF`; otherwise the rune and
its byte size, with the index moved back by the size. -/
def reverseReaderRead (rr : reverseReader) : Option (Nat × Nat) × reverseReader :=
  if rr.i < 0 then (none, rr)
  else
    let idx := rr.i.toNat
    let c := byteAt rr.s idx
    if c < 128 then (some (c, 1), ⟨rr.s, rr.i - 1⟩)
    else
      let d := decodeLastRune (rr.s.take (idx + 1))
      (some d, ⟨rr.s, rr.i - (d.2 : Int)⟩)

/-- Modelled from the spec (§4.5; the platform regexp engine is an
external collaborator): the compiled reversed-head pattern `^[A-Z]+` of
`[A-Z]+_SUSPEND`, applied through `MatchReader` to a rune reader, matches
exactly when the first rune the reader yields is an ASCII uppercase
letter. -/
def matchCaretUpperPlus (rr : reverseReader) : Bool :=
  match (reverseReaderRead rr).1 with
  | some (c, _) => 65 ≤ c && c ≤ 90
  | none => false

/-- `suffixLitMatcher`: the literal suffix; the compiled reversed-head
pattern is the fixed model above. -/
structure suffixLitMatcher where
  suffix : Str
deriving DecidableEq

/-- The search loop of `suffixLitMatcher.MatchString`: find the suffix,
check the reversed prefix against the reversed head pattern, else skip
past the hit and continue. -/
def suffixMatchLoop (m : suffixLitMatcher) : Nat → Str → Bool
  | 0, _ => false
  | fuel + 1, s =>
    match subIndex m.suffix s with
    | none => false
    | some i =>
      if matchCaretUpperPlus (newReverseReader (s.take i)) then true
      else suffixMatchLoop m fuel (s.drop (i + m.suffix.length))

/-- `suffixLitMatcher.MatchString`. -/
def MatchString (m : suffixLitMatcher) (s : Str) : Bool :=
  suffixMatchLoop m (s.length + 1) s

/-- Modelled from the spec (§4.5 and the external `regexp/syntax.Parse`):
the platform AST of `[A-Z]+_SUSPEND` under `syntax.Perl`, laid out in the
heap model: node 0 is the root concat (children in array 0), node 1 the
`[A-Z]+` plus (child in array 1), node 2 the `A`-`Z` char class, node 3
the `_SUSPEND` literal. -/
def suspendHeap : RHeap :=
  ⟨[⟨.OpConcat, [], 0, 0, 2, 0⟩,
    ⟨.OpPlus, [], 1, 0, 1, 0⟩,
    ⟨.OpCharClass, [65, 90], 2, 0, 0, 0⟩,
    ⟨.OpLiteral, strBytes "_SUSPEND", 2, 0, 0, 0⟩],
   [[1, 3], [2], []]⟩

/-- `regexpData.suffixLitMatcher` over the heap model: the shape checks
of the source (`Flags != 0`, `Op != OpConcat`, last child not a literal
each yield `nil`); on success the matcher holds `string(last.Rune)` as
its suffix, and its compiled pattern is `"^" + reversedPattern(head)`
(the modelled `^[A-Z]+` above for the pattern of the claim). -/
def suffixLitMatcherCtor (h : RHeap) (id : Nat) : Option suffixLitMatcher :=
  let n := readNode h id
  if n.Flags ≠ 0 then none
  else if n.Op ≠ .OpConcat then none
  else if n.SubLen = 0 then none
  else
    let last := readNode h (readArrElem h n.SubArr (n.SubStart + n.SubLen - 1))
    if last.Op ≠ .OpLiteral then none
    else some ⟨last.Rune⟩

end RegexFE

namespace RegexFE

instance : Inhabited Expr := ⟨.mk .OpNone ⟨0, 0⟩ [] []⟩

/-! ### Concrete fixtures for the matcher and reversal claims -/

/-- The heap of the modelled `[A-Z]+` head wrapped in the truncated
concat `toReverse` (node 4), as built by `suffixLitMatcher` before
reversing: the concat view keeps the shared backing array but drops the
last element. -/
def suspendHeadHeap : RHeap :=
  ⟨suspendHeap.nodes ++ [⟨.OpConcat, [], 0, 0, 1, 0⟩], suspendHeap.arrays⟩

/-- `Star(Literal "ab")` in the heap model: node 0 is the star, its `Sub`
view is array 0, node 1 the literal. -/
def starHeap : RHeap :=
  ⟨[⟨.OpStar, [], 0, 0, 1, 0⟩, ⟨.OpLiteral, [97, 98], 1, 0, 0, 0⟩], [[1], []]⟩

/-- `Literal "ab"` alone in the heap model. -/
def litHeap : RHeap := ⟨[⟨.OpLiteral, [97, 98], 0, 0, 0, 0⟩], [[]]⟩

/-- `Concat(CharClass, CharClass)` in the heap model (no quantifier or
capture anywhere). -/
def ccConcatHeap : RHeap :=
  ⟨[⟨.OpConcat, [], 0, 0, 2, 0⟩,
    ⟨.OpCharClass, [65, 90], 1, 0, 0, 0⟩,
    ⟨.OpCharClass, [97, 122], 1, 0, 0, 0⟩],
   [[1, 2], []]⟩

/-! ### Claim theorems: concrete parts -/

/-- C1 (counterexample): the pattern `x)` is accepted by `Parse`
(it returns a result and no error, with one of two tokens consumed), but
re-emitting the surface form of the returned AST yields `x`, not the
original pattern `x)`. -/
theorem C1_roundtrip_counterexample :
    Parse (strBytes "x)") =
      .ok ⟨strBytes "x)", .mk .OpChar ⟨0, 1⟩ [] [120]⟩ 1 2 ∧
    emitExpr (.mk .OpChar ⟨0, 1⟩ [] [120]) = strBytes "x" ∧
    strBytes "x" ≠ strBytes "x)" :=
  ⟨rfl, rfl, by decide⟩

/-- The lexical fault conditions of the scanner, with the error each
one raises: the branch guards of `lexScanBody` that end in `.error`,
written out position by position (trailing backslash, `\\p`/`\\P` or
`\\x` at end of pattern, unclosed `\\p\x7b` / `\\x\x7b`, and an
incomplete `(?` group token). -/
def lexFaultAt (s : Str) (i : Nat) (inside : Bool) (e : ParseError) : Prop :=
  let ch := (decodeRune (s.drop i)).1
  (ch = 92 ∧ i + 1 ≥ s.length ∧
    e = ⟨i, i + 1,
      "unexpected end of pattern: trailing " ++ q1 ++ bsl ++ q1⟩) ∨
  (ch = 92 ∧ ¬ i + 1 ≥ s.length ∧
    (byteAt s (i + 1) = 112 ∨ byteAt s (i + 1) = 80) ∧ i + 2 ≥ s.length ∧
    e = ⟨i, i + 2,
      "unexpected end of pattern: expected uni-class-short or " ++
        q1 ++ "\x7b" ++ q1⟩) ∨
  (ch = 92 ∧ ¬ i + 1 ≥ s.length ∧
    (byteAt s (i + 1) = 112 ∨ byteAt s (i + 1) = 80) ∧ ¬ i + 2 ≥ s.length ∧
    byteAt s (i + 2) = 123 ∧ indexOfByte 125 (s.drop (i + 2)) = none ∧
    e = ⟨i, i + 2,
      "can" ++ q1 ++ "t find closing " ++ q1 ++ "\x7d" ++ q1⟩) ∨
  (ch = 92 ∧ ¬ i + 1 ≥ s.length ∧
    ¬ (byteAt s (i + 1) = 112 ∨ byteAt s (i + 1) = 80) ∧
    byteAt s (i + 1) = 120 ∧ i + 2 ≥ s.length ∧
    e = ⟨i, i + 2,
      "unexpected end of pattern: expected hex-digit or " ++
        q1 ++ "\x7b" ++ q1⟩) ∨
  (ch = 92 ∧ ¬ i + 1 ≥ s.length ∧
    ¬ (byteAt s (i + 1) = 112 ∨ byteAt s (i + 1) = 80) ∧
    byteAt s (i + 1) = 120 ∧ ¬ i + 2 ≥ s.length ∧
    byteAt s (i + 2) = 123 ∧ indexOfByte 125 (s.drop (i + 2)) = none ∧
    e = ⟨i, i + 2,
      "can" ++ q1 ++ "t find closing " ++ q1 ++ "\x7d" ++ q1⟩) ∨
  (ch = 40 ∧ inside = false ∧ byteAt s (i + 1) = 63 ∧
    ¬ byteAt s (i + 2) = 62 ∧ ¬ byteAt s (i + 2) = 61 ∧
    ¬ byteAt s (i + 2) = 33 ∧
    ¬ (byteAt s (i + 2) = 60 ∧ byteAt s (i + 3) = 61) ∧
    ¬ (byteAt s (i + 2) = 60 ∧ byteAt s (i + 3) = 33) ∧
    commentWidth s (i + 1) = none ∧ captureNameWidth s (i + 1) = none ∧
    groupFlagsWidth s (i + 1) = none ∧
    e = ⟨i, i + 1, "group token is incomplete"⟩)

/-- C4: for every pattern and scan position, the scanner aborts exactly
on the listed lexical faults, each with its stable message text and byte
position (`lexScanBody` errors iff `lexFaultAt`); the abort is
immediate once the scan reaches the fault; and the abort is returned
from `Parse` as a typed `ParseError`, with no AST. -/
theorem C4_lexical_fault_errors :
    (∀ (s : Str) (i : Nat) (inside : Bool) (e : ParseError),
      lexScanBody s i inside = .error e ↔ lexFaultAt s i inside e) ∧
    (∀ (s : Str) (fuel i : Nat) (inside : Bool) (toks : List token)
      (e : ParseError), i < s.length → lexScanBody s i inside = .error e →
      lexScan s (fuel + 1) i inside toks = .error (.err e)) ∧
    (∀ (s : Str) (e : ParseError), lexInit s = .error (.err e) →
      Parse s = .parseErr e) := by
  refine ⟨?_, ?_, ?_⟩
  · intro s i inside e
    constructor
    · intro h
      simp only [lexScanBody] at h
      by_cases c46 : (decodeRune (s.drop i)).1 = 46
      · rw [if_pos c46] at h
        cases h
      rw [if_neg c46] at h
      by_cases c43 : (decodeRune (s.drop i)).1 = 43
      · rw [if_pos c43] at h
        cases h
      rw [if_neg c43] at h
      by_cases c42 : (decodeRune (s.drop i)).1 = 42
      · rw [if_pos c42] at h
        cases h
      rw [if_neg c42] at h
      by_cases c94 : (decodeRune (s.drop i)).1 = 94
      · rw [if_pos c94] at h
        cases h
      rw [if_neg c94] at h
      by_cases c36 : (decodeRune (s.drop i)).1 = 36
      · rw [if_pos c36] at h
        cases h
      rw [if_neg c36] at h
      by_cases c63 : (decodeRune (s.drop i)).1 = 63
      · rw [if_pos c63] at h
        cases h
      rw [if_neg c63] at h
      by_cases c41 : (decodeRune (s.drop i)).1 = 41
      · rw [if_pos c41] at h
        cases h
      rw [if_neg c41] at h
      by_cases c124 : (decodeRune (s.drop i)).1 = 124
      · rw [if_pos c124] at h
        cases h
      rw [if_neg c124] at h
      by_cases c40 : (decodeRune (s.drop i)).1 = 40
      · rw [if_pos c40] at h
        by_cases ci : inside = true
        · rw [if_pos ci] at h
          cases h
        rw [if_neg ci] at h
        by_cases cq : byteAt s (i + 1) = 63
        · rw [if_pos cq] at h
          by_cases c62 : byteAt s (i + 2) = 62
          · rw [if_pos c62] at h
            cases h
          rw [if_neg c62] at h
          by_cases c61 : byteAt s (i + 2) = 61
          · rw [if_pos c61] at h
            cases h
          rw [if_neg c61] at h
          by_cases c33 : byteAt s (i + 2) = 33
          · rw [if_pos c33] at h
            cases h
          rw [if_neg c33] at h
          by_cases lb1 : (byteAt s (i + 2) = 60 && byteAt s (i + 3) = 61) = true
          · rw [if_pos lb1] at h
            cases h
          rw [if_neg lb1] at h
          by_cases lb2 : (byteAt s (i + 2) = 60 && byteAt s (i + 3) = 33) = true
          · rw [if_pos lb2] at h
            cases h
          rw [if_neg lb2] at h
          cases hcw : commentWidth s (i + 1) with
          | some j =>
            simp only [hcw] at h
            cases h
          | none =>
            simp only [hcw] at h
            cases hcn : captureNameWidth s (i + 1) with
            | some j =>
              simp only [hcn] at h
              cases h
            | none =>
              simp only [hcn] at h
              cases hgf : groupFlagsWidth s (i + 1) with
              | some j =>
                simp only [hgf] at h
                cases h
              | none =>
                simp only [hgf] at h
                cases h
                refine Or.inr (Or.inr (Or.inr (Or.inr (Or.inr
                  ⟨c40, by simpa using ci, cq, c62, c61, c33, ?_, ?_,
                    hcw, hcn, hgf, rfl⟩))))
                · intro hand
                  exact lb1 (by rw [hand.1, hand.2]; rfl)
                · intro hand
                  exact lb2 (by rw [hand.1, hand.2]; rfl)
        rw [if_neg cq] at h
        cases h
      rw [if_neg c40] at h
      by_cases c123 : (decodeRune (s.drop i)).1 = 123
      · rw [if_pos c123] at h
        by_cases ci : inside = true
        · rw [if_pos ci] at h
          cases h
        rw [if_neg ci] at h
        cases hrw : repeatWidth s (i + 1) with
        | some j =>
          simp only [hrw] at h
          cases h
        | none =>
          simp only [hrw] at h
          cases h
      rw [if_neg c123] at h
      by_cases c45 : (decodeRune (s.drop i)).1 = 45
      · rw [if_pos c45] at h
        by_cases ci : inside = true
        · rw [if_pos ci] at h
          cases h
        rw [if_neg ci] at h
        cases h
      rw [if_neg c45] at h
      by_cases c91 : (decodeRune (s.drop i)).1 = 91
      · rw [if_pos c91] at h
        by_cases ci : inside = true
        · rw [if_pos ci] at h
          by_cases cpx : (byteAt s (i + 1) = 58 && i + 2 < s.length) = true
          · rw [if_pos cpx] at h
            cases hsi : subIndex [58, 93] (s.drop (i + 2)) with
            | some j =>
              simp only [hsi] at h
              cases h
            | none =>
              simp only [hsi] at h
              cases h
          rw [if_neg cpx] at h
          cases h
        rw [if_neg ci] at h
        by_cases c94b : byteAt s (i + 1) = 94
        · rw [if_pos c94b] at h
          cases h
        rw [if_neg c94b] at h
        cases h
      rw [if_neg c91] at h
      by_cases c93 : (decodeRune (s.drop i)).1 = 93
      · rw [if_pos c93] at h
        by_cases ci : inside = true
        · rw [if_pos ci] at h
          cases h
        rw [if_neg ci] at h
        cases h
      rw [if_neg c93] at h
      by_cases c92 : (decodeRune (s.drop i)).1 = 92
      · rw [if_pos c92] at h
        by_cases l1 : i + 1 ≥ s.length
        · rw [if_pos l1] at h
          cases h
          exact Or.inl ⟨c92, l1, rfl⟩
        rw [if_neg l1] at h
        by_cases cp : (byteAt s (i + 1) = 112 || byteAt s (i + 1) = 80) = true
        · rw [if_pos cp] at h
          by_cases l2 : i + 2 ≥ s.length
          · rw [if_pos l2] at h
            cases h
            exact Or.inr (Or.inl ⟨c92, l1, by simpa using cp, l2, rfl⟩)
          rw [if_neg l2] at h
          by_cases cbr : byteAt s (i + 2) = 123
          · rw [if_pos cbr] at h
            cases hio : indexOfByte 125 (s.drop (i + 2)) with
            | some j =>
              simp only [hio] at h
              cases h
            | none =>
              simp only [hio] at h
              cases h
              exact Or.inr (Or.inr (Or.inl
                ⟨c92, l1, by simpa using cp, l2, cbr, hio, rfl⟩))
          rw [if_neg cbr] at h
          cases h
        rw [if_neg cp] at h
        by_cases cx : byteAt s (i + 1) = 120
        · rw [if_pos cx] at h
          by_cases l2 : i + 2 ≥ s.length
          · rw [if_pos l2] at h
            cases h
            exact Or.inr (Or.inr (Or.inr (Or.inl
              ⟨c92, l1, by simpa using cp, cx, l2, rfl⟩)))
          rw [if_neg l2] at h
          by_cases cbr : byteAt s (i + 2) = 123
          · rw [if_pos cbr] at h
            cases hio : indexOfByte 125 (s.drop (i + 2)) with
            | some j =>
              simp only [hio] at h
              cases h
            | none =>
              simp only [hio] at h
              cases h
              exact Or.inr (Or.inr (Or.inr (Or.inr (Or.inl
                ⟨c92, l1, by simpa using cp, cx, l2, cbr, hio, rfl⟩))))
          rw [if_neg cbr] at h
          by_cases chx : isHexDigit (byteAt s (i + 3)) = true
          · rw [if_pos chx] at h
            cases h
          rw [if_neg chx] at h
          cases h
        rw [if_neg cx] at h
        by_cases co : isOctalDigit (byteAt s (i + 1)) = true
        · rw [if_pos co] at h
          cases h
        rw [if_neg co] at h
        by_cases cQ : byteAt s (i + 1) = 81
        · rw [if_pos cQ] at h
          cases hj : (if i + 2 < s.length then subIndex [92, 69] (s.drop (i + 2))
              else none) with
          | some j =>
            simp only [hj] at h
            cases h
          | none =>
            simp only [hj] at h
            cases h
        rw [if_neg cQ] at h
        cases h
      rw [if_neg c92] at h
      cases h
    · intro hf
      rcases hf with ⟨hch, h1, he⟩ | ⟨hch, h1, hb, h2, he⟩ |
        ⟨hch, h1, hb, h2, h3, h4, he⟩ | ⟨hch, h1, hb, hx, h2, he⟩ |
        ⟨hch, h1, hb, hx, h2, h3, h4, he⟩ |
        ⟨hch, hin, h63, h62, h61, h33, hlb1, hlb2, hcw, hcn, hgf, he⟩
      · subst he
        simp [lexScanBody, hch, h1]
      · subst he
        rcases hb with hb | hb <;> simp [lexScanBody, hch, h1, hb, h2]
      · subst he
        rcases hb with hb | hb <;> simp [lexScanBody, hch, h1, hb, h2, h3, h4]
      · subst he
        simp [lexScanBody, hch, h1, hx, h2]
      · subst he
        simp [lexScanBody, hch, h1, hx, h2, h3, h4]
      · subst he
        simp [lexScanBody, hch, hin, h63, h62, h61, h33, hlb1, hlb2, hcw,
          hcn, hgf]
  · intro s fuel i inside toks e hi hb
    rw [lexScan, if_pos hi]
    simp only [hb]
  · intro s e h
    simp only [Parse, ParseRawSt, h]

/-- C4 (witness): all three parts of the characterization applied at
the concrete pattern `\x` (a `\x` standing at the end of the pattern):
the fault predicate holds at position 0, the scan aborts there, and
`Parse` returns the typed `ParseError` spanning bytes 0-2 with the
stable message, and no AST. -/
theorem C4_lexical_fault_errors_witness :
    lexFaultAt (strBytes (bsl ++ "x")) 0 false
      ⟨0, 2, "unexpected end of pattern: expected hex-digit or " ++
        q1 ++ "\x7b" ++ q1⟩ ∧
    lexScan (strBytes (bsl ++ "x")) 3 0 false [] = .error (.err
      ⟨0, 2, "unexpected end of pattern: expected hex-digit or " ++
        q1 ++ "\x7b" ++ q1⟩) ∧
    Parse (strBytes (bsl ++ "x")) = .parseErr
      ⟨0, 2, "unexpected end of pattern: expected hex-digit or " ++
        q1 ++ "\x7b" ++ q1⟩ :=
  ⟨(C4_lexical_fault_errors.1 (strBytes (bsl ++ "x")) 0 false _).mp rfl,
   C4_lexical_fault_errors.2.1 (strBytes (bsl ++ "x")) 2 0 false [] _
     (by decide) rfl,
   C4_lexical_fault_errors.2.2 (strBytes (bsl ++ "x")) _ rfl⟩

/-- C5 (counterexample): `Parse` of the pattern `)` fails by a panic
carrying the plain error `unexpected token: )` (a missing prefix
parselet), which the recover re-panics instead of returning a typed
`ParseError`. -/
theorem C5_error_propagation_counterexample :
    Parse (strBytes ")") = .panicked ("unexpected token: " ++ tokenKindName .tokRparen) :=
  rfl

/-- C5 (amended): failures thrown as `ParseError` are returned from
`Parse` as typed errors and no AST is returned; but a token without a
prefix parselet raises a non-`ParseError` panic that escapes `Parse`
(shown for `(?>x)`, whose atomic-group token has no handler in this
parser generation). -/
theorem C5_error_propagation_amended :
    (∀ s e, ParseRawSt s = .error (.err e) → Parse s = .parseErr e) ∧
    (∀ s m, ParseRawSt s = .error (.panicked m) → Parse s = .panicked m) ∧
    Parse (strBytes "[a") =
      .parseErr ⟨0, 1, "unterminated " ++ q1 ++ "[" ++ q1⟩ ∧
    Parse (strBytes "(?>x)") =
      .panicked ("unexpected token: " ++ tokenKindName .tokLparenAtomic) := by
  refine ⟨fun s e h => ?_, fun s m h => ?_, rfl, rfl⟩
  · simp only [Parse, h]
  · simp only [Parse, h]

/-- C5 (witness for the amended theorem): the typed-propagation part at
the concrete pattern `(abc` (unclosed group: `expected ')', found
'None'`). -/
theorem C5_error_propagation_witness :
    Parse (strBytes "(abc") = .parseErr ⟨0, 0,
      "expected " ++ q1 ++ ")" ++ q1 ++ ", found " ++ q1 ++ "None" ++ q1⟩ :=
  C5_error_propagation_amended.1 (strBytes "(abc") _ rfl

/-- C6: the compiled matcher for `[A-Z]+_SUSPEND` is the specialized
suffix-literal matcher with suffix `_SUSPEND`; reversing the `[A-Z]+`
head leaves it structurally unchanged (so the modelled compiled pattern
is `^[A-Z]+`); and `MatchString` answers exactly as the claim lists on
all eight scenario strings. -/
theorem C6_suffix_matcher_scenarios :
    suffixLitMatcherCtor suspendHeap 0 = some ⟨strBytes "_SUSPEND"⟩ ∧
    (reversedRegexp suspendHeadHeap 4 100).map (fun p => readTree p.1 p.2 10) =
      some (.node .OpConcat [] 0
        [.node .OpPlus [] 0 [.node .OpCharClass [65, 90] 0 []]]) ∧
    MatchString ⟨strBytes "_SUSPEND"⟩ (strBytes "A_SUSPEND") = true ∧
    MatchString ⟨strBytes "_SUSPEND"⟩ (strBytes " FOO_SUSPEND") = true ∧
    MatchString ⟨strBytes "_SUSPEND"⟩ (strBytes "FOO_SUSPEND ") = true ∧
    MatchString ⟨strBytes "_SUSPEND"⟩ (strBytes " A_SUSPENDED ") = true ∧
    MatchString ⟨strBytes "_SUSPEND"⟩ (strBytes "_SUSPEND") = false ∧
    MatchString ⟨strBytes "_SUSPEND"⟩ (strBytes "a_SUSPEND") = false ∧
    MatchString ⟨strBytes "_SUSPEND"⟩ (strBytes "A _SUSPEND") = false ∧
    MatchString ⟨strBytes "_SUSPEND"⟩ (strBytes "linux_suspend") = false :=
  ⟨rfl, rfl, rfl, rfl, rfl, rfl, rfl, rfl, rfl, rfl⟩

/-- C7: evaluating the parser at the failing input `x++` shows that a
`Plus` token whose left operand is already a `Plus` node produces a
nested `Plus(Plus(x))`, not `Possessive(Plus(x))` as the repository's
own parser test (and the claim) require. -/
theorem C7_plus_after_quantifier_behavior :
    Parse (strBytes "x++") = .ok ⟨strBytes "x++",
      .mk .OpPlus ⟨2, 3⟩
        [.mk .OpPlus ⟨1, 2⟩ [.mk .OpChar ⟨0, 1⟩ [] [120]] [43]]
        [43]⟩ 3 3 :=
  rfl

/-- C8 (counterexample): running `reversedRegexp` on `Star(Literal "ab")`
mutates the tree reachable from the argument: afterwards the argument's
`Sub[0]` slot holds the reversed literal, so its reachable tree reads
`Star(Literal "ba")`, not structurally identical to the original
`Star(Literal "ab")`. -/
theorem C8_reversed_frame_counterexample :
    readTree starHeap 0 10 =
      .node .OpStar [] 0 [.node .OpLiteral [97, 98] 0 []] ∧
    (reversedRegexp starHeap 0 100).map (fun p => readTree p.1 0 10) =
      some (.node .OpStar [] 0 [.node .OpLiteral [98, 97] 0 []]) ∧
    RTree.beq (.node .OpStar [] 0 [.node .OpLiteral [98, 97] 0 []])
      (.node .OpStar [] 0 [.node .OpLiteral [97, 98] 0 []]) = false :=
  ⟨rfl, rfl, rfl⟩

/-- The single-sub ops whose `reversedRegexp` case writes `out.Sub[0]`
into the backing array shared with the argument. -/
def inPlaceOps : List GoOp := [.OpCapture, .OpStar, .OpPlus, .OpQuest, .OpRepeat]

/-- One heap extends another: the same nodes and backing arrays with
fresh ones appended, no existing cell changed. -/
def heapExt (h h2 : RHeap) : Prop :=
  ∃ dn da, h2.nodes = h.nodes ++ dn ∧ h2.arrays = h.arrays ++ da

/-- Every address reachable from `id` within `fuel` steps is live, and
no reachable node carries an in-place (single-sub) op. -/
def frameSafe (h : RHeap) (id : Nat) : Nat → Prop
  | 0 => True
  | fuel + 1 =>
    id < h.nodes.length ∧ (readNode h id).Op ∉ inPlaceOps ∧
    ((readNode h id).SubLen ≠ 0 →
      (readNode h id).SubArr < h.arrays.length) ∧
    ∀ a ∈ subAddrs h (readNode h id), frameSafe h a fuel

theorem heapExt_refl (h : RHeap) : heapExt h h :=
  ⟨[], [], by simp, by simp⟩

theorem heapExt_trans {h1 h2 h3 : RHeap} (a : heapExt h1 h2)
    (b : heapExt h2 h3) : heapExt h1 h3 := by
  obtain ⟨dn, da, hn, ha⟩ := a
  obtain ⟨dn2, da2, hn2, ha2⟩ := b
  exact ⟨dn ++ dn2, da ++ da2, by rw [hn2, hn, List.append_assoc],
    by rw [ha2, ha, List.append_assoc]⟩

theorem heapExt_allocNode (h : RHeap) (n : RNode) :
    heapExt h (allocNode h n).1 :=
  ⟨[n], [], rfl, by simp [allocNode]⟩

theorem heapExt_allocArray (h : RHeap) (e : List Nat) :
    heapExt h (allocArray h e).1 :=
  ⟨[], [e], by simp [allocArray], rfl⟩

theorem heapExt_nodes_le {h h2 : RHeap} (e : heapExt h h2) :
    h.nodes.length ≤ h2.nodes.length := by
  obtain ⟨dn, da, hn, -⟩ := e
  rw [hn, List.length_append]
  omega

theorem heapExt_arrays_le {h h2 : RHeap} (e : heapExt h h2) :
    h.arrays.length ≤ h2.arrays.length := by
  obtain ⟨dn, da, -, ha⟩ := e
  rw [ha, List.length_append]
  omega

/-- Reading a live node is unchanged by a heap extension. -/
theorem readNode_ext {h h2 : RHeap} (e : heapExt h h2) {id : Nat}
    (hid : id < h.nodes.length) : readNode h2 id = readNode h id := by
  obtain ⟨dn, da, hn, -⟩ := e
  unfold readNode
  rw [hn, List.getD_append _ _ _ _ hid]

/-- Reading a live backing array is unchanged by a heap extension. -/
theorem readArrElem_ext {h h2 : RHeap} (e : heapExt h h2) {arr : Nat}
    (ha : arr < h.arrays.length) (idx : Nat) :
    readArrElem h2 arr idx = readArrElem h arr idx := by
  obtain ⟨dn, da, -, harr⟩ := e
  unfold readArrElem
  rw [harr, List.getD_append _ _ _ _ ha]

/-- The child addresses of a node with a live `Sub` view are unchanged
by a heap extension. -/
theorem subAddrs_ext {h h2 : RHeap} (e : heapExt h h2) {n : RNode}
    (hg : n.SubLen ≠ 0 → n.SubArr < h.arrays.length) :
    subAddrs h2 n = subAddrs h n := by
  unfold subAddrs
  cases hl : n.SubLen with
  | zero => rfl
  | succ m =>
    refine List.map_congr_left ?_
    intro k hk
    exact readArrElem_ext e (hg (by rw [hl]; omega)) _

/-- `frameSafe` is preserved by a heap extension. -/
theorem frameSafe_ext {h h2 : RHeap} (e : heapExt h h2) :
    ∀ fuel id, frameSafe h id fuel → frameSafe h2 id fuel := by
  intro fuel
  induction fuel with
  | zero => intro id hs; trivial
  | succ fuel ih =>
    intro id hs
    obtain ⟨hid, hop, hg, hch⟩ := hs
    have hrn : readNode h2 id = readNode h id := readNode_ext e hid
    refine ⟨lt_of_lt_of_le hid (heapExt_nodes_le e), ?_, ?_, ?_⟩
    · rw [hrn]
      exact hop
    · rw [hrn]
      intro hz
      exact lt_of_lt_of_le (hg hz) (heapExt_arrays_le e)
    · rw [hrn, subAddrs_ext e hg]
      intro a ha
      exact ih a (hch a ha)

/-- The tree reachable from a `frameSafe` address is unchanged by a
heap extension. -/
theorem readTree_ext {h h2 : RHeap} (e : heapExt h h2) :
    ∀ fuel id, frameSafe h id fuel →
      readTree h2 id fuel = readTree h id fuel := by
  intro fuel
  induction fuel with
  | zero => intro id hs; rfl
  | succ fuel ih =>
    intro id hs
    obtain ⟨hid, hop, hg, hch⟩ := hs
    have hrn : readNode h2 id = readNode h id := readNode_ext e hid
    simp only [readTree]
    rw [hrn, subAddrs_ext e hg]
    refine congrArg (RTree.node _ _ _) ?_
    refine List.map_congr_left ?_
    intro a ha
    exact ih a (hch a ha)

/-- On a `frameSafe` argument (no reachable in-place op, all reachable
addresses live), `reversedRegexp` and its two sub-list walks only
extend the heap: nothing already allocated is written. -/
theorem reversed_heapExt :
    ∀ fuel,
      (∀ h id h2 nid, reversedRegexp h id fuel = some (h2, nid) →
        (∀ j, frameSafe h id j) → heapExt h h2) ∧
      (∀ h arr start len h2 elems,
        reversedSubsInOrder h arr start len fuel = some (h2, elems) →
        (len ≠ 0 → arr < h.arrays.length) →
        (∀ k, k < len →
          ∀ j, frameSafe h (readArrElem h arr (start + k)) j) →
        heapExt h h2) ∧
      (∀ h arr start len h2 elems,
        reversedSubsBackward h arr start len fuel = some (h2, elems) →
        (len ≠ 0 → arr < h.arrays.length) →
        (∀ k, k < len →
          ∀ j, frameSafe h (readArrElem h arr (start + k)) j) →
        heapExt h h2) := by
  intro fuel
  induction fuel with
  | zero =>
    refine ⟨?_, ?_, ?_⟩
    · intro h id h2 nid hrev hsafe
      exact absurd hrev (by simp [reversedRegexp])
    · intro h arr start len h2 elems hrev hg hsafe
      exact absurd hrev (by simp [reversedSubsInOrder])
    · intro h arr start len h2 elems hrev hg hsafe
      exact absurd hrev (by simp [reversedSubsBackward])
  | succ fuel ih =>
    obtain ⟨ihP, ihQ, ihR⟩ := ih
    refine ⟨?_, ?_, ?_⟩
    · intro h id h2 nid hrev hsafe
      obtain ⟨hid, hop, hg, -⟩ := hsafe 1
      simp only [reversedRegexp] at hrev
      cases hopc : (readNode h id).Op with
      | OpAlternate =>
        simp only [hopc] at hrev
        cases hsub : reversedSubsInOrder h (readNode h id).SubArr
            (readNode h id).SubStart (readNode h id).SubLen fuel with
        | none => simp only [hsub] at hrev; cases hrev
        | some pr =>
          obtain ⟨h1, elems⟩ := pr
          simp only [hsub] at hrev
          have e1 : heapExt h h1 := by
            refine ihQ h _ _ _ h1 elems hsub hg ?_
            intro k hk j
            obtain ⟨-, -, -, hch⟩ := hsafe (j + 1)
            refine hch _ ?_
            unfold subAddrs
            exact List.mem_map.mpr ⟨k, List.mem_range.mpr hk, rfl⟩
          have hh2 : _ = h2 := congrArg Prod.fst (Option.some.inj hrev)
          rw [← hh2]
          exact heapExt_trans e1 (heapExt_trans
            (heapExt_allocArray h1 elems) (heapExt_allocNode _ _))
      | OpConcat =>
        simp only [hopc] at hrev
        cases hsub : reversedSubsBackward h (readNode h id).SubArr
            (readNode h id).SubStart (readNode h id).SubLen fuel with
        | none => simp only [hsub] at hrev; cases hrev
        | some pr =>
          obtain ⟨h1, elems⟩ := pr
          simp only [hsub] at hrev
          have e1 : heapExt h h1 := by
            refine ihR h _ _ _ h1 elems hsub hg ?_
            intro k hk j
            obtain ⟨-, -, -, hch⟩ := hsafe (j + 1)
            refine hch _ ?_
            unfold subAddrs
            exact List.mem_map.mpr ⟨k, List.mem_range.mpr hk, rfl⟩
          have hh2 : _ = h2 := congrArg Prod.fst (Option.some.inj hrev)
          rw [← hh2]
          exact heapExt_trans e1 (heapExt_trans
            (heapExt_allocArray h1 elems) (heapExt_allocNode _ _))
      | OpCapture => exact absurd (by rw [hopc]; decide) hop
      | OpStar => exact absurd (by rw [hopc]; decide) hop
      | OpPlus => exact absurd (by rw [hopc]; decide) hop
      | OpQuest => exact absurd (by rw [hopc]; decide) hop
      | OpRepeat => exact absurd (by rw [hopc]; decide) hop
      | OpLiteral =>
        simp only [hopc] at hrev
        have hh2 : _ = h2 := congrArg Prod.fst (Option.some.inj hrev)
        rw [← hh2]
        exact heapExt_allocNode h _
      | OpCharClass =>
        simp only [hopc] at hrev
        have hh2 : _ = h2 := congrArg Prod.fst (Option.some.inj hrev)
        rw [← hh2]
        exact heapExt_allocNode h _
      | OpOther =>
        simp only [hopc] at hrev
        have hh2 : _ = h2 := congrArg Prod.fst (Option.some.inj hrev)
        rw [← hh2]
        exact heapExt_allocNode h _
    · intro h arr start len h2 elems hrev hg hsafe
      cases len with
      | zero =>
        simp only [reversedSubsInOrder] at hrev
        have hh2 : _ = h2 := congrArg Prod.fst (Option.some.inj hrev)
        rw [← hh2]
        exact heapExt_refl h
      | succ len =>
        simp only [reversedSubsInOrder] at hrev
        cases hr1 : reversedRegexp h (readArrElem h arr start) fuel with
        | none => simp only [hr1] at hrev; cases hrev
        | some pr =>
          obtain ⟨h1, rid⟩ := pr
          simp only [hr1] at hrev
          have e1 : heapExt h h1 :=
            ihP h _ h1 rid hr1 (fun j => hsafe 0 (by omega) j)
          have harr : arr < h.arrays.length := hg (by omega)
          have harr1 : arr < h1.arrays.length :=
            lt_of_lt_of_le harr (heapExt_arrays_le e1)
          cases hr2 : reversedSubsInOrder h1 arr (start + 1) len fuel with
          | none => simp only [hr2] at hrev; cases hrev
          | some pr2 =>
            obtain ⟨h2x, rest⟩ := pr2
            simp only [hr2] at hrev
            have e2 : heapExt h1 h2x := by
              refine ihQ h1 arr (start + 1) len h2x rest hr2
                (fun hz => harr1) ?_
              intro k hk j
              have hre : readArrElem h1 arr (start + 1 + k) =
                  readArrElem h arr (start + (k + 1)) := by
                rw [readArrElem_ext e1 harr]
                have hs : start + 1 + k = start + (k + 1) := by omega
                rw [hs]
              rw [hre]
              exact frameSafe_ext e1 j _ (hsafe (k + 1) (by omega) j)
            have hh2 : _ = h2 := congrArg Prod.fst (Option.some.inj hrev)
            rw [← hh2]
            exact heapExt_trans e1 e2
    · intro h arr start len h2 elems hrev hg hsafe
      cases len with
      | zero =>
        simp only [reversedSubsBackward] at hrev
        have hh2 : _ = h2 := congrArg Prod.fst (Option.some.inj hrev)
        rw [← hh2]
        exact heapExt_refl h
      | succ len =>
        simp only [reversedSubsBackward] at hrev
        cases hr1 : reversedRegexp h (readArrElem h arr (start + len)) fuel with
        | none => simp only [hr1] at hrev; cases hrev
        | some pr =>
          obtain ⟨h1, rid⟩ := pr
          simp only [hr1] at hrev
          have e1 : heapExt h h1 :=
            ihP h _ h1 rid hr1 (fun j => hsafe len (by omega) j)
          have harr : arr < h.arrays.length := hg (by omega)
          have harr1 : arr < h1.arrays.length :=
            lt_of_lt_of_le harr (heapExt_arrays_le e1)
          cases hr2 : reversedSubsBackward h1 arr start len fuel with
          | none => simp only [hr2] at hrev; cases hrev
          | some pr2 =>
            obtain ⟨h2x, rest⟩ := pr2
            simp only [hr2] at hrev
            have e2 : heapExt h1 h2x := by
              refine ihR h1 arr start len h2x rest hr2
                (fun hz => harr1) ?_
              intro k hk j
              rw [readArrElem_ext e1 harr]
              exact frameSafe_ext e1 j _ (hsafe k (by omega) j)
            have hh2 : _ = h2 := congrArg Prod.fst (Option.some.inj hrev)
            rw [← hh2]
            exact heapExt_trans e1 e2

theorem litHeap_frameSafe : ∀ j, frameSafe litHeap 0 j
  | 0 => trivial
  | _ + 1 =>
    ⟨by decide, by decide, by decide,
      fun a ha => absurd ha (List.not_mem_nil a)⟩

/-- C8 (amended): whenever no node with an op in
`{Capture, Star, Plus, Quest, Repeat}` is reachable from the argument
(and every reachable address is live), `reversedRegexp` leaves the
whole tree reachable from the argument unchanged — it only allocates;
but when such an op occurs anywhere in the reachable tree the source
overwrites that node's `Sub[0]` slot in place (`out := *re` shares the
`Sub` backing array), shown on `Star(Literal "ab")`, whose argument
afterwards reads `Star(Literal "ba")`. -/
theorem C8_reversed_frame_amended :
    (∀ (h : RHeap) (id fuel : Nat) (h2 : RHeap) (nid k : Nat),
      reversedRegexp h id fuel = some (h2, nid) →
      (∀ j, frameSafe h id j) →
      readTree h2 id k = readTree h id k) ∧
    (reversedRegexp starHeap 0 100).map (fun p => readTree p.1 0 10) =
      some (.node .OpStar [] 0 [.node .OpLiteral [98, 97] 0 []]) := by
  refine ⟨?_, rfl⟩
  intro h id fuel h2 nid k hrev hsafe
  have hext : heapExt h h2 := (reversed_heapExt fuel).1 h id h2 nid hrev hsafe
  exact readTree_ext hext k id (hsafe k)

/-- C8 (witness for the amended theorem): the frame part applied at the
single-node heap holding `Literal "ab"`: after reversing, the tree
reachable from the argument is unchanged. -/
theorem C8_reversed_frame_witness :
    readTree (⟨[⟨.OpLiteral, [97, 98], 0, 0, 0, 0⟩,
        ⟨.OpLiteral, [98, 97], 0, 0, 0, 0⟩], [[]]⟩ : RHeap) 0 3 =
      readTree litHeap 0 3 :=
  C8_reversed_frame_amended.1 litHeap 0 100
    ⟨[⟨.OpLiteral, [97, 98], 0, 0, 0, 0⟩,
      ⟨.OpLiteral, [98, 97], 0, 0, 0, 0⟩], [[]]⟩ 1 3 rfl litHeap_frameSafe

end RegexFE

namespace RegexFE

mutual

/-- Every node of an expression tree satisfies `P`. -/
def allNodes (P : Expr → Prop) : Expr → Prop
  | .mk op pos args v => P (.mk op pos args v) ∧ allNodesList P args

/-- Every node of every tree in a list satisfies `P`. -/
def allNodesList (P : Expr → Prop) : List Expr → Prop
  | [] => True
  | e :: r => allNodes P e ∧ allNodesList P r

end

/-- The materialization invariant of C2: a node's `Value` is the source
slice at its position. -/
def valueOK (s : Str) (e : Expr) : Prop :=
  e.Value = sliceStr s e.Pos.Begin e.Pos.End

/-- The per-node sequence-position invariant of C3, restricted to the
ops for which it holds (`Literal`, `Concat`, `Alt`): begin and end equal
the first child's begin and the last child's end. -/
def seqPosOK (e : Expr) : Prop :=
  (e.Op = .OpLiteral ∨ e.Op = .OpConcat ∨ e.Op = .OpAlt) → e.Args ≠ [] →
    e.Pos.Begin = (e.Args.headI).Pos.Begin ∧
    e.Pos.End = (e.Args.getLastI).Pos.End

mutual

theorem setValues_allValuesOK (s : Str) :
    ∀ (e e' : Expr), setValues s e = .ok e' → allNodes (valueOK s) e'
  | .mk op pos args v, e', h => by
    simp only [setValues] at h
    cases hl : setValuesList s args with
    | error f => simp only [hl] at h; exact absurd h (by simp)
    | ok args2 =>
      simp only [hl] at h
      by_cases hb : pos.Begin ≤ pos.End ∧ pos.End ≤ s.length
      · rw [if_pos hb, Except.ok.injEq] at h
        subst h
        exact ⟨rfl, setValuesList_allValuesOK s args args2 hl⟩
      · rw [if_neg hb] at h; exact absurd h (by simp)

theorem setValuesList_allValuesOK (s : Str) :
    ∀ (l l' : List Expr), setValuesList s l = .ok l' → allNodesList (valueOK s) l'
  | [], l', h => by
    simp only [setValuesList, Except.ok.injEq] at h
    subst h; exact trivial
  | e :: r, l', h => by
    simp only [setValuesList] at h
    cases he : setValues s e with
    | error f => simp only [he] at h; exact absurd h (by simp)
    | ok e2 =>
      cases hr : setValuesList s r with
      | error f => simp only [he, hr] at h; exact absurd h (by simp)
      | ok r2 =>
        simp only [he, hr, Except.ok.injEq] at h
        subst h
        exact ⟨setValues_allValuesOK s e e2 he, setValuesList_allValuesOK s r r2 hr⟩

end

/-- C2: after every successful call `Parse(pattern)`, every node of the
returned AST satisfies `Value = pattern[Begin:End]` (the byte slice of
the pattern at the node's position). -/
theorem C2_value_materialization :
    ∀ (s : Str) (re : Regexp) (c t : Nat),
      Parse s = .ok re c t → allNodes (valueOK s) re.Expr := by
  intro s re c t h
  unfold Parse at h
  cases hr : ParseRawSt s with
  | error f => rw [hr] at h; cases f <;> cases h
  | ok p =>
    rw [hr] at h
    obtain ⟨re0, st⟩ := p
    simp only [ParseOutcome.ok.injEq] at h
    obtain ⟨h1, -, -⟩ := h
    subst h1
    unfold ParseRawSt at hr
    cases hlex : lexInit s with
    | error f => rw [hlex] at hr; cases f <;> simp at hr
    | ok toks =>
      rw [hlex] at hr
      simp only [] at hr
      cases hp : (if s.length = 0 then
          Except.ok ((Expr.mk .OpConcat ⟨0, 0⟩ [] []), (⟨toks, 0, []⟩ : PState))
        else parseExpr s (parseFuel toks.length) 0 ⟨toks, 0, []⟩) with
      | error f => rw [hp] at hr; cases hr
      | ok q =>
        rw [hp] at hr
        obtain ⟨e, st1⟩ := q
        cases hsv : setValues s (mergeChars e) with
        | error f => simp only [hsv] at hr; cases hr
        | ok e2 =>
          simp only [hsv, Except.ok.injEq] at hr
          have : re0.Expr = e2 := by
            have := congrArg (fun x => (Prod.fst x).Expr) hr.symm
            simpa using this
          rw [this]
          exact setValues_allValuesOK s (mergeChars e) e2 hsv

/-- C2 (witness): the materialization invariant instantiated at the
concrete parse of `ab`. -/
theorem C2_value_materialization_witness :
    allNodes (valueOK (strBytes "ab"))
      (Expr.mk .OpLiteral ⟨0, 2⟩
        [.mk .OpChar ⟨0, 1⟩ [] [97], .mk .OpChar ⟨1, 2⟩ [] [98]] [97, 98]) :=
  C2_value_materialization (strBytes "ab")
    ⟨strBytes "ab", .mk .OpLiteral ⟨0, 2⟩
      [.mk .OpChar ⟨0, 1⟩ [] [97], .mk .OpChar ⟨1, 2⟩ [] [98]] [97, 98]⟩
    3 3 rfl

end RegexFE

namespace RegexFE

/-! ### Lexer invariants -/

instance : Inhabited token := ⟨noneToken⟩

/-- Span bounds of a token. -/
def tokSpanOK (s : Str) (t : token) : Prop :=
  t.pos.Begin ≤ t.pos.End ∧ t.pos.End ≤ s.length

/-- The char-class mode transition induced by a token kind (mirrors the
flag updates of the scan loop). -/
def modeAfter (m : Bool) (k : tokenKind) : Bool :=
  if k = .tokLbracket ∨ k = .tokLbracketCaret then true
  else if k = .tokRbracket then false
  else m

/-- Fold the mode transition over a token list. -/
def foldMode (m : Bool) (F : List token) : Bool :=
  F.foldl (fun m t => modeAfter m t.kind) m

/-- The char-class mode in force at token index `j`. -/
def modeAt (T : List token) (j : Nat) : Bool := foldMode false (T.take j)

/-- The token kinds the lexer can emit in each mode. -/
def allowedIn (m : Bool) (k : tokenKind) : Prop :=
  if m then
    k = .tokChar ∨ k = .tokMinus ∨ k = .tokPosixClass ∨ k = .tokRbracket ∨
    k = .tokQ ∨ k = .tokEscape ∨ k = .tokEscapeMeta ∨ k = .tokEscapeOctal ∨
    k = .tokEscapeUni ∨ k = .tokEscapeUniFull ∨ k = .tokEscapeHex ∨
    k = .tokEscapeHexFull
  else
    ¬(k = .tokMinus ∨ k = .tokRbracket ∨ k = .tokPosixClass ∨
      k = .tokNone ∨ k = .tokGroupFlags)

/-- Mode-correct token list: each token's kind is allowed in the mode in
force before it. -/
def kindModeOK : Bool → List token → Prop
  | _, [] => True
  | m, t :: rest => allowedIn m t.kind ∧ kindModeOK (modeAfter m t.kind) rest

/-- Content facts per token kind, as consumed by the round-trip proof. -/
def tokContentOK (s : Str) (t : token) : Prop :=
  match t.kind with
  | .tokPipe => t.pos.End = t.pos.Begin + 1 ∧ byteAt s t.pos.Begin = 124
  | .tokMinus => t.pos.End = t.pos.Begin + 1 ∧ byteAt s t.pos.Begin = 45
  | .tokPlus => t.pos.End = t.pos.Begin + 1 ∧ byteAt s t.pos.Begin = 43
  | .tokStar => t.pos.End = t.pos.Begin + 1 ∧ byteAt s t.pos.Begin = 42
  | .tokQuestion => t.pos.End = t.pos.Begin + 1 ∧ byteAt s t.pos.Begin = 63
  | .tokLparen => t.pos.End = t.pos.Begin + 1 ∧ byteAt s t.pos.Begin = 40
  | .tokRparen => t.pos.End = t.pos.Begin + 1 ∧ byteAt s t.pos.Begin = 41
  | .tokLbracket => t.pos.End = t.pos.Begin + 1 ∧ byteAt s t.pos.Begin = 91
  | .tokRbracket => t.pos.End = t.pos.Begin + 1 ∧ byteAt s t.pos.Begin = 93
  | .tokLbracketCaret => t.pos.End = t.pos.Begin + 2 ∧
      byteAt s t.pos.Begin = 91 ∧ byteAt s (t.pos.Begin + 1) = 94
  | .tokLparenName => byteAt s t.pos.Begin = 40 ∧
      hasPrefixList (strBytes "?P<") (s.drop (t.pos.Begin + 1)) = true ∧
      t.pos.Begin + 5 ≤ t.pos.End ∧ byteAt s (t.pos.End - 1) = 62
  | .tokLparenFlags => byteAt s t.pos.Begin = 40 ∧ t.pos.Begin + 2 ≤ t.pos.End
  | _ => True

/-- All per-token facts. -/
def tokOK (s : Str) (t : token) : Prop :=
  tokSpanOK s t ∧ tokContentOK s t ∧ t.kind ≠ .tokNone ∧ t.kind ≠ .tokGroupFlags

/-- Relation between consecutive tokens: a synthesized `Concat` shares
the following token's position; otherwise the spans abut. -/
def tilePair (x y : token) : Prop :=
  if x.kind = .tokConcat then x.pos = y.pos else x.pos.End = y.pos.Begin

/-- All consecutive pairs are tiled. -/
def fwdChain : List token → Prop
  | [] => True
  | [_] => True
  | x :: y :: rest => tilePair x y ∧ fwdChain (y :: rest)

/-- After a synthesized `Concat` comes a real token that may stand right
of a concat boundary. -/
def concatNextOK : List token → Prop
  | [] => True
  | [t] => t.kind ≠ .tokConcat
  | x :: y :: rest =>
    (x.kind = .tokConcat → concatTable y.kind / 2 % 2 = 0 ∧ y.kind ≠ .tokConcat) ∧
    concatNextOK (y :: rest)

/-- The invariant bundle produced by a successful lexer run on a pattern
of `uint16`-addressable length. -/
structure LexOK (s : Str) (T : List token) : Prop where
  len_le : s.length ≤ 65535
  tok_mem : ∀ t ∈ T, tokOK s t
  chain : fwdChain T
  first_begin : T ≠ [] → (T.headI).pos.Begin = 0
  last_end : T ≠ [] → (T.getLastD noneToken).pos.End = s.length
  concat_next : concatNextOK T
  kind_mode : kindModeOK false T

end RegexFE

namespace RegexFE

/-! ### Byte, slice and search utilities -/

theorem byteAt_lt_length {s : Str} {j : Nat} (h : byteAt s j ≠ 0) :
    j < s.length := by
  by_contra hj
  apply h
  simp only [byteAt, List.getD_eq_getElem?_getD]
  rw [List.getElem?_eq_none (by omega)]
  rfl

theorem byteAt_eq_getElem {s : Str} {j : Nat} (h : j < s.length) :
    byteAt s j = s[j] := by
  simp [byteAt, List.getD_eq_getElem?_getD, List.getElem?_eq_getElem h]

theorem getD_drop (s : Str) (k j : Nat) :
    (s.drop k).getD j 0 = byteAt s (k + j) := by
  simp [byteAt, List.getD_eq_getElem?_getD, List.getElem?_drop]

theorem sliceStr_self (s : Str) (a : Nat) : sliceStr s a a = [] := by
  unfold sliceStr
  rw [List.drop_take]
  simp

theorem sliceStr_len {s : Str} {a b : Nat} (hab : a ≤ b) (hb : b ≤ s.length) :
    (sliceStr s a b).length = b - a := by
  unfold sliceStr
  rw [List.length_drop, List.length_take]
  omega

theorem sliceStr_glue {s : Str} {a m b : Nat} (h1 : a ≤ m) (h2 : m ≤ b)
    (hm : m ≤ s.length) :
    sliceStr s a m ++ sliceStr s m b = sliceStr s a b := by
  unfold sliceStr
  have hsplit : s.take b = s.take m ++ (s.take b).drop m := by
    conv_lhs => rw [← List.take_append_drop m (s.take b)]
    rw [List.take_take, Nat.min_eq_left h2]
  conv_rhs => rw [hsplit]
  rw [List.drop_append_of_le_length (by rw [List.length_take]; omega)]

theorem sliceStr_getD {s : Str} {a b k : Nat} (h1 : a + k < b) (h2 : b ≤ s.length) :
    (sliceStr s a b).getD k 0 = byteAt s (a + k) := by
  unfold sliceStr byteAt
  rw [List.getD_eq_getElem?_getD, List.getD_eq_getElem?_getD,
    List.getElem?_drop, List.getElem?_take]
  rw [if_pos (by omega)]

theorem sliceStr_single {s : Str} {a c : Nat} (h : byteAt s a = c)
    (ha : a < s.length) : sliceStr s a (a + 1) = [c] := by
  have hlen : (sliceStr s a (a + 1)).length = 1 := by
    have := @sliceStr_len s a (a + 1) (by omega) (by omega)
    omega
  have hget : (sliceStr s a (a + 1)).getD 0 0 = c := by
    rw [sliceStr_getD (by omega) (by omega)]
    simpa using h
  rcases he : sliceStr s a (a + 1) with - | ⟨x, - | ⟨y, r⟩⟩
  · rw [he] at hlen; cases hlen
  · rw [he] at hget
    simp only [List.getD, List.get?, Option.getD_some] at hget
    rw [hget]
  · rw [he] at hlen; simp at hlen

theorem hasPrefixList_take : ∀ {p l : Str}, hasPrefixList p l = true →
    l.take p.length = p
  | [], l, _ => by simp
  | a :: p, [], h => by simp [hasPrefixList] at h
  | a :: p, b :: l, h => by
    simp only [hasPrefixList, Bool.and_eq_true, decide_eq_true_eq] at h
    simp [h.1, hasPrefixList_take h.2]

theorem hasPrefixList_length {p l : Str} (h : hasPrefixList p l = true) :
    p.length ≤ l.length := by
  have h2 := congrArg List.length (hasPrefixList_take h)
  simp only [List.length_take] at h2
  omega

theorem prefix_slice {s p : Str} {k : Nat}
    (h : hasPrefixList p (s.drop k) = true) :
    sliceStr s k (k + p.length) = p := by
  unfold sliceStr
  rw [List.drop_take]
  have he : k + p.length - k = p.length := by omega
  rw [he]
  exact hasPrefixList_take h

theorem indexOfByte_spec : ∀ {l : Str} {b j : Nat}, indexOfByte b l = some j →
    j < l.length ∧ l.getD j 0 = b ∧ ∀ k < j, l.getD k 0 ≠ b := by
  intro l
  induction l with
  | nil => intro b j h; simp [indexOfByte] at h
  | cons c rest ih =>
    intro b j h
    simp only [indexOfByte] at h
    by_cases hc : c = b
    · rw [if_pos hc] at h
      cases h
      refine ⟨by simp, by simpa using hc, by omega⟩
    · rw [if_neg hc] at h
      cases hio : indexOfByte b rest with
      | none => rw [hio] at h; cases h
      | some j0 =>
        rw [hio] at h
        simp only [Option.map_some', Option.some.injEq] at h
        subst h
        obtain ⟨h1, h2, h3⟩ := ih hio
        refine ⟨by simpa using h1, by simpa using h2, ?_⟩
        intro k hk
        match k with
        | 0 => simpa using hc
        | k + 1 =>
          simp only [List.getD_cons_succ]
          exact h3 k (by omega)

theorem subIndex_spec : ∀ {l pat : Str} {j : Nat}, subIndex pat l = some j →
    hasPrefixList pat (l.drop j) = true ∧ j + pat.length ≤ l.length := by
  intro l
  induction l with
  | nil =>
    intro pat j h
    simp only [subIndex] at h
    by_cases hp : pat.isEmpty
    · rw [if_pos hp] at h
      cases h
      rcases pat with - | ⟨a, r⟩
      · simp [hasPrefixList]
      · simp [List.isEmpty] at hp
    · rw [if_neg hp] at h; cases h
  | cons c rest ih =>
    intro pat j h
    simp only [subIndex] at h
    by_cases hpre : hasPrefixList pat (c :: rest) = true
    · rw [if_pos hpre] at h
      cases h
      exact ⟨hpre, by simpa using hasPrefixList_length hpre⟩
    · rw [if_neg hpre] at h
      cases hio : subIndex pat rest with
      | none => rw [hio] at h; cases h
      | some j0 =>
        rw [hio] at h
        simp only [Option.map_some', Option.some.injEq] at h
        subst h
        obtain ⟨h1, h2⟩ := ih hio
        exact ⟨by simpa using h1, by simp; omega⟩

theorem hasSuffixList_single {b : Nat} {l : Str} :
    hasSuffixList [b] l = true ↔ l ≠ [] ∧ l.getLastD 0 = b := by
  unfold hasSuffixList
  rcases hrev : l.reverse with - | ⟨c, r⟩
  · have : l = [] := by simpa using congrArg List.reverse hrev
    subst this
    simp [hasPrefixList]
  · have hl : l ≠ [] := by
      intro he; rw [he] at hrev; simp at hrev
    have hlast : l.getLastD 0 = c := by
      rw [List.getLastD_eq_getLast?, ← List.head?_reverse, hrev]
      rfl
    simp only [List.reverse_cons, List.reverse_nil, List.nil_append,
      hasPrefixList, Bool.and_eq_true, decide_eq_true_eq, and_true]
    constructor
    · intro h
      exact ⟨hl, hlast.trans h.symm⟩
    · intro h
      exact h.2.symm.trans hlast

end RegexFE

namespace RegexFE

theorem decodeRune_size_pos {l : Str} (hl : l ≠ []) : 1 ≤ (decodeRune l).2 := by
  match l with
  | b0 :: rest =>
    rcases rest with - | ⟨b1, - | ⟨b2, - | ⟨b3, r⟩⟩⟩ <;>
      · simp only [decodeRune]
        split_ifs <;> simp

theorem decodeRune_size_le : ∀ {l : Str}, (decodeRune l).2 ≤ l.length := by
  intro l
  match l with
  | [] => simp [decodeRune]
  | b0 :: rest =>
    rcases rest with - | ⟨b1, - | ⟨b2, - | ⟨b3, r⟩⟩⟩ <;>
      · simp only [decodeRune]
        split_ifs <;> simp

set_option maxHeartbeats 1000000 in
theorem decodeRune_cases (b0 : Nat) (rest : Str) :
    (decodeRune (b0 :: rest) = (b0, 1) ∧ b0 < 128) ∨ 128 ≤ (decodeRune (b0 :: rest)).1 := by
  by_cases h0 : b0 < 128
  · left
    exact ⟨by simp [decodeRune, h0], h0⟩
  · right
    rcases rest with - | ⟨b1, - | ⟨b2, - | ⟨b3, r⟩⟩⟩ <;>
      · simp only [decodeRune, isCont, if_neg h0]
        split_ifs <;>
          (dsimp only) <;>
          (simp only [Bool.and_eq_true, decide_eq_true_eq] at *) <;>
          omega

end RegexFE

namespace RegexFE

theorem hasPrefixList_head {p0 : Nat} {pr m : Str}
    (h : hasPrefixList (p0 :: pr) m = true) : m.getD 0 0 = p0 := by
  rcases m with - | ⟨c, r⟩
  · simp [hasPrefixList] at h
  · simp only [hasPrefixList, Bool.and_eq_true, decide_eq_true_eq] at h
    simpa using h.1.symm

theorem subIndex_head {p0 : Nat} {pr l : Str} {j : Nat}
    (h : subIndex (p0 :: pr) l = some j) : l.getD j 0 = p0 := by
  obtain ⟨h1, -⟩ := subIndex_spec h
  have := hasPrefixList_head h1
  rw [getD_drop] at this
  simpa [byteAt, Nat.add_zero] using this

theorem isHexDigit_ne_zero {b : Nat} (h : isHexDigit b = true) : b ≠ 0 := by
  simp only [isHexDigit, Bool.or_eq_true, Bool.and_eq_true, decide_eq_true_eq] at h
  omega

theorem isOctalDigit_ne_zero {b : Nat} (h : isOctalDigit b = true) : b ≠ 0 := by
  simp only [isOctalDigit, Bool.and_eq_true, decide_eq_true_eq] at h
  omega

theorem byteAt_drop_getD (s : Str) (i : Nat) {b0 : Nat} {rest : Str}
    (h : s.drop i = b0 :: rest) : byteAt s i = b0 := by
  have := getD_drop s i 0
  rw [h] at this
  simpa using this.symm

end RegexFE

namespace RegexFE

theorem captureNameWidth_spec {s : Str} {p j : Nat}
    (h : captureNameWidth s p = some j) :
    hasPrefixList (strBytes "?P<") (s.drop p) = true ∧ 4 ≤ j ∧
    p + j ≤ s.length ∧ byteAt s (p + j - 1) = 62 := by
  unfold captureNameWidth at h
  by_cases hpre : hasPrefixList (strBytes "?P<") (s.drop p) = true
  · rw [if_pos hpre] at h
    cases hio : indexOfByte 62 (s.drop p) with
    | none => rw [hio] at h; cases h
    | some idx =>
      rw [hio] at h
      simp only [Option.map_some', Option.some.injEq] at h
      subst h
      obtain ⟨hlt, hat, hmin⟩ := indexOfByte_spec hio
      rw [List.length_drop] at hlt
      rw [getD_drop] at hat
      have hidx3 : 3 ≤ idx := by
        by_contra hc
        push_neg at hc
        have htake := hasPrefixList_take hpre
        have hb : (s.drop p).getD idx 0 = (strBytes "?P<").getD idx 0 := by
          rw [← htake]
          rw [List.getD_eq_getElem?_getD, List.getD_eq_getElem?_getD,
            List.getElem?_take]
          rw [if_pos (by simp [strBytes, encodeChars, utf8EncodeChar] at hc ⊢; omega)]
        rw [getD_drop] at hb
        rw [hat] at hb
        interval_cases idx <;> simp [strBytes, encodeChars, utf8EncodeChar] at hb
      refine ⟨hpre, by omega, by omega, ?_⟩
      have : p + (idx + 1) - 1 = p + idx := by omega
      rw [this, hat]
  · rw [if_neg hpre] at h; cases h

theorem groupFlagsWidth_spec {s : Str} {p j : Nat}
    (h : groupFlagsWidth s p = some j) :
    byteAt s p = 63 ∧ 1 ≤ j ∧ p + j ≤ s.length := by
  unfold groupFlagsWidth at h
  by_cases hq : byteAt s p ≠ 63
  · rw [if_pos hq] at h; cases h
  · rw [if_neg hq] at h
    push_neg at hq
    cases hpp : subIndex [41] (s.drop p) with
    | none => rw [hpp] at h; cases h
    | some pp =>
      have hpp1 : 1 ≤ pp := by
        by_contra hc
        push_neg at hc
        have := subIndex_head hpp
        rw [getD_drop] at this
        have hpp0 : pp = 0 := by omega
        rw [hpp0] at this
        simp at this
        rw [this] at hq
        cases hq
      obtain ⟨-, hlen⟩ := subIndex_spec hpp
      rw [List.length_drop] at hlen
      simp only [List.length_cons, List.length_nil] at hlen
      cases hcp : subIndex [58] (s.drop p) with
      | none =>
        simp only [hpp, hcp] at h
        cases h
        exact ⟨hq, hpp1, by omega⟩
      | some cp =>
        simp only [hpp, hcp] at h
        obtain ⟨-, hlen2⟩ := subIndex_spec hcp
        rw [List.length_drop] at hlen2
        simp only [List.length_cons, List.length_nil] at hlen2
        by_cases hcmp : cp < pp
        · rw [if_pos hcmp] at h
          cases h
          exact ⟨hq, by omega, by omega⟩
        · rw [if_neg hcmp] at h
          cases h
          exact ⟨hq, hpp1, by omega⟩

theorem commentWidth_spec {s : Str} {p j : Nat}
    (h : commentWidth s p = some j) : 1 ≤ j ∧ p + j ≤ s.length := by
  unfold commentWidth at h
  by_cases hg : (byteAt s p = 63 && byteAt s (p + 1) = 35) = true
  · rw [if_pos hg] at h
    cases hpp : subIndex [41] (s.drop p) with
    | none => rw [hpp] at h; cases h
    | some pp =>
      rw [hpp] at h
      simp only [Option.map_some', Option.some.injEq] at h
      subst h
      obtain ⟨-, hlen⟩ := subIndex_spec hpp
      rw [List.length_drop] at hlen
      simp only [List.length_cons, List.length_nil] at hlen
      exact ⟨by omega, by omega⟩
  · rw [if_neg hg] at h; cases h

theorem repeatWidth_spec {s : Str} {p j : Nat}
    (h : repeatWidth s p = some j) : 2 ≤ j ∧ p + j ≤ s.length := by
  unfold repeatWidth at h
  by_cases h0 : p + countDigits (s.drop p) = p
  · rw [if_pos h0] at h; cases h
  · rw [if_neg h0] at h
    by_cases h125 : byteAt s (p + countDigits (s.drop p)) = 125
    · rw [if_pos h125] at h
      cases h
      have hlt : p + countDigits (s.drop p) < s.length :=
        byteAt_lt_length (by rw [h125]; omega)
      constructor <;> omega
    · rw [if_neg h125] at h
      by_cases h44 : byteAt s (p + countDigits (s.drop p)) ≠ 44
      · rw [if_pos h44] at h; cases h
      · rw [if_neg h44] at h
        by_cases h125b : byteAt s
            (p + countDigits (s.drop p) + 1 +
              countDigits (s.drop (p + countDigits (s.drop p) + 1))) = 125
        · rw [if_pos h125b] at h
          cases h
          have hlt : p + countDigits (s.drop p) + 1 +
              countDigits (s.drop (p + countDigits (s.drop p) + 1)) < s.length :=
            byteAt_lt_length (by rw [h125b]; omega)
          constructor <;> omega
        · rw [if_neg h125b] at h; cases h

set_option maxHeartbeats 2000000 in
/-- All facts established by one successful push of the scan loop: the
token has positive size and stays inside the pattern, its content facts
hold, its kind is real and allowed in the current mode, and the
char-class flag update agrees with the mode transition of its kind. -/
theorem lexScanBody_ok {s : Str} {i : Nat} {inside : Bool} {kind : tokenKind}
    {size : Nat} (hi : i < s.length)
    (h : lexScanBody s i inside = .ok (kind, size)) :
    1 ≤ size ∧ i + size ≤ s.length ∧
    tokContentOK s ⟨kind, ⟨i, i + size⟩⟩ ∧
    kind ≠ .tokNone ∧ kind ≠ .tokGroupFlags ∧ kind ≠ .tokConcat ∧
    allowedIn inside kind ∧
    modeAfter inside kind =
      (if (decodeRune (s.drop i)).1 = 91 then true
       else if (decodeRune (s.drop i)).1 = 93 then false else inside) := by
  obtain ⟨b0, rest, hdrop⟩ : ∃ b0 rest, s.drop i = b0 :: rest := by
    cases hd : s.drop i with
    | nil =>
      exfalso
      have := congrArg List.length hd
      simp at this
      omega
    | cons a r => exact ⟨a, r, rfl⟩
  have hbyte : byteAt s i = b0 := byteAt_drop_getD s i hdrop
  have hrestlen : rest.length + 1 = s.length - i := by
    have := congrArg List.length hdrop
    simp only [List.length_drop, List.length_cons] at this
    omega
  simp only [lexScanBody] at h
  rw [hdrop] at h ⊢
  rcases decodeRune_cases b0 rest with ⟨hdec, hlt⟩ | hhigh
  · rw [hdec] at h ⊢
    dsimp only at h ⊢
    by_cases hc46 : b0 = 46
    · rw [if_pos hc46] at h
      by_cases hin : inside = true
      · rw [if_pos hin] at h
        cases h
        refine ⟨by omega, by omega, by simp [tokContentOK], by simp, by simp,
          by simp, by simp [allowedIn, hin], by simp [modeAfter, hc46, hin]⟩
      · rw [if_neg hin] at h
        cases h
        refine ⟨by omega, by omega, by simp [tokContentOK, hbyte, hc46], by simp,
          by simp, by simp, by simp [allowedIn, hin],
          by simp [modeAfter, hc46, hin]⟩
    · rw [if_neg hc46] at h
      by_cases hc43 : b0 = 43
      · rw [if_pos hc43] at h
        by_cases hin : inside = true
        · rw [if_pos hin] at h
          cases h
          refine ⟨by omega, by omega, by simp [tokContentOK], by simp, by simp,
            by simp, by simp [allowedIn, hin], by simp [modeAfter, hc43, hin]⟩
        · rw [if_neg hin] at h
          cases h
          refine ⟨by omega, by omega, by simp [tokContentOK, hbyte, hc43], by simp,
            by simp, by simp, by simp [allowedIn, hin],
            by simp [modeAfter, hc43, hin]⟩
      · rw [if_neg hc43] at h
        by_cases hc42 : b0 = 42
        · rw [if_pos hc42] at h
          by_cases hin : inside = true
          · rw [if_pos hin] at h
            cases h
            refine ⟨by omega, by omega, by simp [tokContentOK], by simp, by simp,
              by simp, by simp [allowedIn, hin], by simp [modeAfter, hc42, hin]⟩
          · rw [if_neg hin] at h
            cases h
            refine ⟨by omega, by omega, by simp [tokContentOK, hbyte, hc42], by simp,
              by simp, by simp, by simp [allowedIn, hin],
              by simp [modeAfter, hc42, hin]⟩
        · rw [if_neg hc42] at h
          by_cases hc94 : b0 = 94
          · rw [if_pos hc94] at h
            by_cases hin : inside = true
            · rw [if_pos hin] at h
              cases h
              refine ⟨by omega, by omega, by simp [tokContentOK], by simp, by simp,
                by simp, by simp [allowedIn, hin], by simp [modeAfter, hc94, hin]⟩
            · rw [if_neg hin] at h
              cases h
              refine ⟨by omega, by omega, by simp [tokContentOK, hbyte, hc94], by simp,
                by simp, by simp, by simp [allowedIn, hin],
                by simp [modeAfter, hc94, hin]⟩
          · rw [if_neg hc94] at h
            by_cases hc36 : b0 = 36
            · rw [if_pos hc36] at h
              by_cases hin : inside = true
              · rw [if_pos hin] at h
                cases h
                refine ⟨by omega, by omega, by simp [tokContentOK], by simp, by simp,
                  by simp, by simp [allowedIn, hin], by simp [modeAfter, hc36, hin]⟩
              · rw [if_neg hin] at h
                cases h
                refine ⟨by omega, by omega, by simp [tokContentOK, hbyte, hc36], by simp,
                  by simp, by simp, by simp [allowedIn, hin],
                  by simp [modeAfter, hc36, hin]⟩
            · rw [if_neg hc36] at h
              by_cases hc63 : b0 = 63
              · rw [if_pos hc63] at h
                by_cases hin : inside = true
                · rw [if_pos hin] at h
                  cases h
                  refine ⟨by omega, by omega, by simp [tokContentOK], by simp, by simp,
                    by simp, by simp [allowedIn, hin], by simp [modeAfter, hc63, hin]⟩
                · rw [if_neg hin] at h
                  cases h
                  refine ⟨by omega, by omega, by simp [tokContentOK, hbyte, hc63], by simp,
                    by simp, by simp, by simp [allowedIn, hin],
                    by simp [modeAfter, hc63, hin]⟩
              · rw [if_neg hc63] at h
                by_cases hc41 : b0 = 41
                · rw [if_pos hc41] at h
                  by_cases hin : inside = true
                  · rw [if_pos hin] at h
                    cases h
                    refine ⟨by omega, by omega, by simp [tokContentOK], by simp, by simp,
                      by simp, by simp [allowedIn, hin], by simp [modeAfter, hc41, hin]⟩
                  · rw [if_neg hin] at h
                    cases h
                    refine ⟨by omega, by omega, by simp [tokContentOK, hbyte, hc41], by simp,
                      by simp, by simp, by simp [allowedIn, hin],
                      by simp [modeAfter, hc41, hin]⟩
                · rw [if_neg hc41] at h
                  by_cases hc124 : b0 = 124
                  · rw [if_pos hc124] at h
                    by_cases hin : inside = true
                    · rw [if_pos hin] at h
                      cases h
                      refine ⟨by omega, by omega, by simp [tokContentOK], by simp, by simp,
                        by simp, by simp [allowedIn, hin], by simp [modeAfter, hc124, hin]⟩
                    · rw [if_neg hin] at h
                      cases h
                      refine ⟨by omega, by omega, by simp [tokContentOK, hbyte, hc124], by simp,
                        by simp, by simp, by simp [allowedIn, hin],
                        by simp [modeAfter, hc124, hin]⟩
                  · rw [if_neg hc124] at h
                    by_cases hc40 : b0 = 40
                    · rw [if_pos hc40] at h
                      by_cases hin : inside = true
                      · rw [if_pos hin] at h
                        cases h
                        refine ⟨by omega, by omega, by simp [tokContentOK], by simp, by simp,
                          by simp, by simp [allowedIn, hin], by simp [modeAfter, hc40, hin]⟩
                      · rw [if_neg hin] at h
                        by_cases hq63 : byteAt s (i + 1) = 63
                        · rw [if_pos hq63] at h
                          by_cases ha62 : byteAt s (i + 2) = 62
                          · rw [if_pos ha62] at h
                            cases h
                            have hlt2 : i + 2 < s.length := byteAt_lt_length (by rw [ha62]; omega)
                            refine ⟨by omega, by omega, by simp [tokContentOK], by simp, by simp,
                              by simp, by simp [allowedIn, hin], by simp [modeAfter, hc40, hin]⟩
                          · rw [if_neg ha62] at h
                            by_cases ha61 : byteAt s (i + 2) = 61
                            · rw [if_pos ha61] at h
                              cases h
                              have hlt2 : i + 2 < s.length := byteAt_lt_length (by rw [ha61]; omega)
                              refine ⟨by omega, by omega, by simp [tokContentOK], by simp, by simp,
                                by simp, by simp [allowedIn, hin], by simp [modeAfter, hc40, hin]⟩
                            · rw [if_neg ha61] at h
                              by_cases ha33 : byteAt s (i + 2) = 33
                              · rw [if_pos ha33] at h
                                cases h
                                have hlt2 : i + 2 < s.length :=
                                  byteAt_lt_length (by rw [ha33]; omega)
                                refine ⟨by omega, by omega, by simp [tokContentOK], by simp,
                                  by simp, by simp, by simp [allowedIn, hin],
                                  by simp [modeAfter, hc40, hin]⟩
                              · rw [if_neg ha33] at h
                                by_cases hlb1 : (decide (byteAt s (i + 2) = 60) &&
                                    decide (byteAt s (i + 3) = 61)) = true
                                · rw [if_pos hlb1] at h
                                  cases h
                                  simp only [Bool.and_eq_true, decide_eq_true_eq] at hlb1
                                  have hlt3 : i + 3 < s.length :=
                                    byteAt_lt_length (by rw [hlb1.2]; omega)
                                  refine ⟨by omega, by omega, by simp [tokContentOK], by simp,
                                    by simp, by simp, by simp [allowedIn, hin],
                                    by simp [modeAfter, hc40, hin]⟩
                                · rw [if_neg hlb1] at h
                                  by_cases hlb2 : (decide (byteAt s (i + 2) = 60) &&
                                      decide (byteAt s (i + 3) = 33)) = true
                                  · rw [if_pos hlb2] at h
                                    cases h
                                    simp only [Bool.and_eq_true, decide_eq_true_eq] at hlb2
                                    have hlt3 : i + 3 < s.length :=
                                      byteAt_lt_length (by rw [hlb2.2]; omega)
                                    refine ⟨by omega, by omega, by simp [tokContentOK], by simp,
                                      by simp, by simp, by simp [allowedIn, hin],
                                      by simp [modeAfter, hc40, hin]⟩
                                  · rw [if_neg hlb2] at h
                                    cases hcw : commentWidth s (i + 1) with
                                    | some j =>
                                      simp only [hcw] at h
                                      cases h
                                      obtain ⟨hj1, hj2⟩ := commentWidth_spec hcw
                                      refine ⟨by omega, by omega, by simp [tokContentOK], by simp,
                                        by simp, by simp, by simp [allowedIn, hin],
                                        by simp [modeAfter, hc40, hin]⟩
                                    | none =>
                                      simp only [hcw] at h
                                      cases hcn : captureNameWidth s (i + 1) with
                                      | some j =>
                                        simp only [hcn] at h
                                        cases h
                                        obtain ⟨hp1, hp2, hp3, hp4⟩ := captureNameWidth_spec hcn
                                        refine ⟨by omega, by omega, ?_, by simp, by simp, by simp,
                                          by simp [allowedIn, hin],
                                          by simp [modeAfter, hc40, hin]⟩
                                        refine ⟨by rw [hbyte, hc40], hp1, by dsimp only; omega, ?_⟩
                                        have he : i + (1 + j) - 1 = i + 1 + j - 1 := by omega
                                        rw [he, hp4]
                                      | none =>
                                        simp only [hcn] at h
                                        cases hgf : groupFlagsWidth s (i + 1) with
                                        | some j =>
                                          simp only [hgf] at h
                                          cases h
                                          obtain ⟨hg1, hg2, hg3⟩ := groupFlagsWidth_spec hgf
                                          refine ⟨by omega, by omega, ?_, by simp, by simp,
                                            by simp, by simp [allowedIn, hin],
                                            by simp [modeAfter, hc40, hin]⟩
                                          exact ⟨by rw [hbyte, hc40], by dsimp only; omega⟩
                                        | none =>
                                          simp only [hgf] at h
                                          cases h
                        · rw [if_neg hq63] at h
                          cases h
                          refine ⟨by omega, by omega, by simp [tokContentOK, hbyte, hc40], by simp,
                            by simp, by simp, by simp [allowedIn, hin],
                            by simp [modeAfter, hc40, hin]⟩
                    · rw [if_neg hc40] at h
                      by_cases hc123 : b0 = 123
                      · rw [if_pos hc123] at h
                        by_cases hin : inside = true
                        · rw [if_pos hin] at h
                          cases h
                          refine ⟨by omega, by omega, by simp [tokContentOK], by simp, by simp,
                            by simp, by simp [allowedIn, hin], by simp [modeAfter, hc123, hin]⟩
                        · rw [if_neg hin] at h
                          cases hrw : repeatWidth s (i + 1) with
                          | some j =>
                            simp only [hrw] at h
                            cases h
                            obtain ⟨hr1, hr2⟩ := repeatWidth_spec hrw
                            refine ⟨by omega, by omega, by simp [tokContentOK], by simp, by simp,
                              by simp, by simp [allowedIn, hin], by simp [modeAfter, hc123, hin]⟩
                          | none =>
                            simp only [hrw] at h
                            cases h
                            refine ⟨by omega, by omega, by simp [tokContentOK], by simp, by simp,
                              by simp, by simp [allowedIn, hin], by simp [modeAfter, hc123, hin]⟩
                      · rw [if_neg hc123] at h
                        by_cases hc45 : b0 = 45
                        · rw [if_pos hc45] at h
                          by_cases hin : inside = true
                          · rw [if_pos hin] at h
                            cases h
                            refine ⟨by omega, by omega, by simp [tokContentOK, hbyte, hc45], by simp,
                              by simp, by simp, by simp [allowedIn, hin],
                              by simp [modeAfter, hc45, hin]⟩
                          · rw [if_neg hin] at h
                            cases h
                            refine ⟨by omega, by omega, by simp [tokContentOK], by simp, by simp,
                              by simp, by simp [allowedIn, hin], by simp [modeAfter, hc45, hin]⟩
                        · rw [if_neg hc45] at h
                          by_cases hc91 : b0 = 91
                          · rw [if_pos hc91] at h
                            by_cases hin : inside = true
                            · rw [if_pos hin] at h
                              by_cases hpx : (decide (byteAt s (i + 1) = 58) &&
                                  decide (i + 2 < s.length)) = true
                              · rw [if_pos hpx] at h
                                cases hsi : subIndex [58, 93] (s.drop (i + 2)) with
                                | some j =>
                                  simp only [hsi] at h
                                  cases h
                                  obtain ⟨-, hlen⟩ := subIndex_spec hsi
                                  rw [List.length_drop] at hlen
                                  simp only [List.length_cons, List.length_nil] at hlen
                                  simp only [Bool.and_eq_true, decide_eq_true_eq] at hpx
                                  refine ⟨by omega, by omega, by simp [tokContentOK], by simp, by simp,
                                    by simp, by simp [allowedIn, hin], by simp [modeAfter, hc91, hin]⟩
                                | none =>
                                  simp only [hsi] at h
                                  cases h
                                  refine ⟨by omega, by omega, by simp [tokContentOK], by simp, by simp,
                                    by simp, by simp [allowedIn, hin], by simp [modeAfter, hc91, hin]⟩
                              · rw [if_neg hpx] at h
                                cases h
                                refine ⟨by omega, by omega, by simp [tokContentOK], by simp, by simp,
                                  by simp, by simp [allowedIn, hin], by simp [modeAfter, hc91, hin]⟩
                            · rw [if_neg hin] at h
                              by_cases hcar : byteAt s (i + 1) = 94
                              · rw [if_pos hcar] at h
                                cases h
                                have hlt1 : i + 1 < s.length := byteAt_lt_length (by rw [hcar]; omega)
                                refine ⟨by omega, by omega, ?_, by simp, by simp, by simp,
                                  by simp [allowedIn, hin], by simp [modeAfter, hc91, hin]⟩
                                exact ⟨rfl, by rw [hbyte, hc91], hcar⟩
                              · rw [if_neg hcar] at h
                                cases h
                                refine ⟨by omega, by omega, by simp [tokContentOK, hbyte, hc91], by simp,
                                  by simp, by simp, by simp [allowedIn, hin],
                                  by simp [modeAfter, hc91, hin]⟩
                          · rw [if_neg hc91] at h
                            by_cases hc93 : b0 = 93
                            · rw [if_pos hc93] at h
                              by_cases hin : inside = true
                              · rw [if_pos hin] at h
                                cases h
                                refine ⟨by omega, by omega, by simp [tokContentOK, hbyte, hc93], by simp,
                                  by simp, by simp, by simp [allowedIn, hin],
                                  by simp [modeAfter, hc93, hin]⟩
                              · rw [if_neg hin] at h
                                cases h
                                refine ⟨by omega, by omega, by simp [tokContentOK], by simp, by simp,
                                  by simp, by simp [allowedIn, hin], by simp [modeAfter, hc93, hin]⟩
                            · rw [if_neg hc93] at h
                              by_cases hc92 : b0 = 92
                              · rw [if_pos hc92] at h
                                by_cases hend1 : i + 1 ≥ s.length
                                · rw [if_pos hend1] at h
                                  cases h
                                · rw [if_neg hend1] at h
                                  by_cases hpP : (decide (byteAt s (i + 1) = 112) ||
                                      decide (byteAt s (i + 1) = 80)) = true
                                  · rw [if_pos hpP] at h
                                    by_cases hend2 : i + 2 ≥ s.length
                                    · rw [if_pos hend2] at h
                                      cases h
                                    · rw [if_neg hend2] at h
                                      by_cases hbr : byteAt s (i + 2) = 123
                                      · rw [if_pos hbr] at h
                                        cases hio : indexOfByte 125 (s.drop (i + 2)) with
                                        | some j =>
                                          simp only [hio] at h
                                          cases h
                                          obtain ⟨hjl, -, -⟩ := indexOfByte_spec hio
                                          rw [List.length_drop] at hjl
                                          refine ⟨by omega, by omega, by simp [tokContentOK], by simp,
                                            by simp, by simp, by simp [allowedIn], ?_⟩
                                          cases inside <;> simp [modeAfter, hc92]
                                        | none =>
                                          simp only [hio] at h
                                          cases h
                                      · rw [if_neg hbr] at h
                                        cases h
                                        refine ⟨by omega, by omega, by simp [tokContentOK], by simp, by simp,
                                          by simp, by simp [allowedIn], ?_⟩
                                        cases inside <;> simp [modeAfter, hc92]
                                  · rw [if_neg hpP] at h
                                    by_cases hx : byteAt s (i + 1) = 120
                                    · rw [if_pos hx] at h
                                      by_cases hend2 : i + 2 ≥ s.length
                                      · rw [if_pos hend2] at h
                                        cases h
                                      · rw [if_neg hend2] at h
                                        by_cases hbr : byteAt s (i + 2) = 123
                                        · rw [if_pos hbr] at h
                                          cases hio : indexOfByte 125 (s.drop (i + 2)) with
                                          | some j =>
                                            simp only [hio] at h
                                            cases h
                                            obtain ⟨hjl, -, -⟩ := indexOfByte_spec hio
                                            rw [List.length_drop] at hjl
                                            refine ⟨by omega, by omega, by simp [tokContentOK], by simp,
                                              by simp, by simp, by simp [allowedIn], ?_⟩
                                            cases inside <;> simp [modeAfter, hc92]
                                          | none =>
                                            simp only [hio] at h
                                            cases h
                                        · rw [if_neg hbr] at h
                                          by_cases hhd : isHexDigit (byteAt s (i + 3)) = true
                                          · rw [if_pos hhd] at h
                                            cases h
                                            have hlt3 : i + 3 < s.length :=
                                              byteAt_lt_length (isHexDigit_ne_zero hhd)
                                            refine ⟨by omega, by omega, by simp [tokContentOK], by simp,
                                              by simp, by simp, by simp [allowedIn], ?_⟩
                                            cases inside <;> simp [modeAfter, hc92]
                                          · rw [if_neg hhd] at h
                                            cases h
                                            refine ⟨by omega, by omega, by simp [tokContentOK], by simp,
                                              by simp, by simp, by simp [allowedIn], ?_⟩
                                            cases inside <;> simp [modeAfter, hc92]
                                    · rw [if_neg hx] at h
                                      by_cases hoc : isOctalDigit (byteAt s (i + 1)) = true
                                      · rw [if_pos hoc] at h
                                        by_cases ho2 : isOctalDigit (byteAt s (i + 2)) = true
                                        · rw [if_pos ho2] at h
                                          have hlt2 : i + 2 < s.length :=
                                            byteAt_lt_length (isOctalDigit_ne_zero ho2)
                                          by_cases ho3 : isOctalDigit (byteAt s (i + 3)) = true
                                          · rw [if_pos ho3] at h
                                            cases h
                                            have hlt3 : i + 3 < s.length :=
                                              byteAt_lt_length (isOctalDigit_ne_zero ho3)
                                            refine ⟨by omega, by omega, by simp [tokContentOK], by simp,
                                              by simp, by simp, by simp [allowedIn], ?_⟩
                                            cases inside <;> simp [modeAfter, hc92]
                                          · rw [if_neg ho3] at h
                                            cases h
                                            refine ⟨by omega, by omega, by simp [tokContentOK], by simp,
                                              by simp, by simp, by simp [allowedIn], ?_⟩
                                            cases inside <;> simp [modeAfter, hc92]
                                        · rw [if_neg ho2] at h
                                          by_cases ho3 : isOctalDigit (byteAt s (i + 3)) = true
                                          · rw [if_pos ho3] at h
                                            cases h
                                            have hlt3 : i + 3 < s.length :=
                                              byteAt_lt_length (isOctalDigit_ne_zero ho3)
                                            refine ⟨by omega, by omega, by simp [tokContentOK], by simp,
                                              by simp, by simp, by simp [allowedIn], ?_⟩
                                            cases inside <;> simp [modeAfter, hc92]
                                          · rw [if_neg ho3] at h
                                            cases h
                                            refine ⟨by omega, by omega, by simp [tokContentOK], by simp,
                                              by simp, by simp, by simp [allowedIn], ?_⟩
                                            cases inside <;> simp [modeAfter, hc92]
                                      · rw [if_neg hoc] at h
                                        by_cases hQ : byteAt s (i + 1) = 81
                                        · rw [if_pos hQ] at h
                                          by_cases hi2 : i + 2 < s.length
                                          · rw [if_pos hi2] at h
                                            cases hsi : subIndex [92, 69] (s.drop (i + 2)) with
                                            | some j =>
                                              simp only [hsi] at h
                                              cases h
                                              obtain ⟨-, hlen⟩ := subIndex_spec hsi
                                              rw [List.length_drop] at hlen
                                              simp only [List.length_cons, List.length_nil] at hlen
                                              refine ⟨by omega, by omega, by simp [tokContentOK], by simp,
                                                by simp, by simp, by simp [allowedIn], ?_⟩
                                              cases inside <;> simp [modeAfter, hc92]
                                            | none =>
                                              simp only [hsi] at h
                                              cases h
                                              refine ⟨by omega, by omega, by simp [tokContentOK], by simp,
                                                by simp, by simp, by simp [allowedIn], ?_⟩
                                              cases inside <;> simp [modeAfter, hc92]
                                          · rw [if_neg hi2] at h
                                            cases h
                                            refine ⟨by omega, by omega, by simp [tokContentOK], by simp,
                                              by simp, by simp, by simp [allowedIn], ?_⟩
                                            cases inside <;> simp [modeAfter, hc92]
                                        · rw [if_neg hQ] at h
                                          by_cases hmk : (if inside = true then
                                              charClassMetachar (byteAt s (i + 1))
                                            else reMetachar (byteAt s (i + 1))) = true
                                          · rw [if_pos hmk] at h
                                            cases h
                                            refine ⟨by omega, by omega, by simp [tokContentOK], by simp,
                                              by simp, by simp, by simp [allowedIn], ?_⟩
                                            cases inside <;> simp [modeAfter, hc92]
                                          · rw [if_neg hmk] at h
                                            cases h
                                            refine ⟨by omega, by omega, by simp [tokContentOK], by simp,
                                              by simp, by simp, by simp [allowedIn], ?_⟩
                                            cases inside <;> simp [modeAfter, hc92]
                              · rw [if_neg hc92] at h
                                cases h
                                refine ⟨by omega, by omega, by simp [tokContentOK], by simp, by simp,
                                  by simp, ?_, ?_⟩
                                · cases inside <;> simp [allowedIn]
                                · rw [if_neg hc91, if_neg hc93]
                                  cases inside <;> simp [modeAfter]
  · have hnot : ∀ c : Nat, c < 128 → ¬ ((decodeRune (b0 :: rest)).1 = c) := by
      intro c hc he
      omega
    rw [if_neg (hnot 46 (by omega)), if_neg (hnot 43 (by omega)),
      if_neg (hnot 42 (by omega)), if_neg (hnot 94 (by omega)),
      if_neg (hnot 36 (by omega)), if_neg (hnot 63 (by omega)),
      if_neg (hnot 41 (by omega)), if_neg (hnot 124 (by omega)),
      if_neg (hnot 40 (by omega)), if_neg (hnot 123 (by omega)),
      if_neg (hnot 45 (by omega)), if_neg (hnot 91 (by omega)),
      if_neg (hnot 93 (by omega)), if_neg (hnot 92 (by omega))] at h
    cases h
    have hsz1 : 1 ≤ (decodeRune (b0 :: rest)).2 := decodeRune_size_pos (by simp)
    have hsz2 : (decodeRune (b0 :: rest)).2 ≤ rest.length + 1 := by
      have := @decodeRune_size_le (b0 :: rest)
      simpa using this
    refine ⟨hsz1, by omega, by simp [tokContentOK], by simp, by simp, by simp,
      ?_, ?_⟩
    · cases inside <;> simp [allowedIn]
    · rw [if_neg (hnot 91 (by omega)), if_neg (hnot 93 (by omega))]
      cases inside <;> simp [modeAfter]

end RegexFE

namespace RegexFE

/-! ### Append preservation for the lexer invariants -/

theorem foldMode_cons (m : Bool) (t : token) (F : List token) :
    foldMode m (t :: F) = foldMode (modeAfter m t.kind) F := rfl

theorem foldMode_append (m : Bool) (T F : List token) :
    foldMode m (T ++ F) = foldMode (foldMode m T) F := by
  simp [foldMode, List.foldl_append]

theorem fwdChain_append_one {T : List token} {y : token}
    (h : fwdChain T) (hl : ∀ x, T.getLast? = some x → tilePair x y) :
    fwdChain (T ++ [y]) := by
  induction T with
  | nil => exact trivial
  | cons a rest ih =>
    cases rest with
    | nil => exact ⟨hl a rfl, trivial⟩
    | cons b rest2 =>
      obtain ⟨hab, hrest⟩ := h
      refine ⟨hab, ih hrest ?_⟩
      intro x hx
      exact hl x (by rw [List.getLast?_cons_cons]; exact hx)

theorem concatNextOK_append_one {T : List token} {y : token}
    (h : concatNextOK T) (hy : y.kind ≠ .tokConcat) :
    concatNextOK (T ++ [y]) := by
  induction T with
  | nil => exact hy
  | cons a rest ih =>
    cases rest with
    | nil => exact ⟨fun hc => absurd hc h, hy⟩
    | cons b rest2 =>
      obtain ⟨hab, hrest⟩ := h
      exact ⟨hab, ih hrest⟩

theorem concatNextOK_append_concat {T : List token} {c y : token}
    (h : concatNextOK T) (hc : c.kind = .tokConcat) (hy : y.kind ≠ .tokConcat)
    (htab : concatTable y.kind / 2 % 2 = 0) :
    concatNextOK (T ++ [c, y]) := by
  induction T with
  | nil => exact ⟨fun _ => ⟨htab, hy⟩, hy⟩
  | cons a rest ih =>
    cases rest with
    | nil => exact ⟨fun hac => absurd hac h, fun _ => ⟨htab, hy⟩, hy⟩
    | cons b rest2 =>
      obtain ⟨hab, hrest⟩ := h
      exact ⟨hab, ih hrest⟩

theorem kindModeOK_append {m : Bool} {T F : List token}
    (h1 : kindModeOK m T) (h2 : kindModeOK (foldMode m T) F) :
    kindModeOK m (T ++ F) := by
  induction T generalizing m with
  | nil => exact h2
  | cons t rest ih =>
    obtain ⟨ha, hr⟩ := h1
    exact ⟨ha, ih hr (by rw [← foldMode_cons]; exact h2)⟩

theorem getD_append_len (T : List token) (y : token) (d : token) :
    (T ++ [y]).getD T.length d = y := by
  rw [List.getD_eq_getElem?_getD, List.getElem?_concat_length]
  rfl

theorem getLast?_append_pair (T : List token) (c y : token) :
    (T ++ [c, y]).getLast? = some y := by
  have : T ++ [c, y] = (T ++ [c]) ++ [y] := by simp
  rw [this, List.getLast?_concat]


/-- The scan-loop invariant: from a state whose accumulated token list
satisfies the invariants, a successful run ends in a `LexOK` bundle. -/
theorem lexScan_inv {s : Str} (hlen : s.length ≤ 65535) :
    ∀ (fuel : Nat) {i : Nat} {inside : Bool} {toks T : List token},
      lexScan s fuel i inside toks = .ok T →
      i ≤ s.length →
      (∀ t ∈ toks, tokOK s t) →
      fwdChain toks →
      (toks = [] → i = 0) →
      (∀ x, toks.getLast? = some x → x.pos.End = i ∧ x.kind ≠ .tokConcat) →
      (toks ≠ [] → (toks.headI).pos.Begin = 0) →
      concatNextOK toks →
      kindModeOK false toks →
      foldMode false toks = inside →
      LexOK s T := by
  intro fuel
  induction fuel with
  | zero => intro i inside toks T h; cases h
  | succ fuel ih =>
    intro i inside toks T h hi htok hchain hemp hlast hhead hcn hkm hfm
    rw [lexScan] at h
    by_cases hilt : i < s.length
    · rw [if_pos hilt] at h
      cases hbody : lexScanBody s i inside with
      | error e => rw [hbody] at h; cases h
      | ok ks =>
        obtain ⟨kind, size⟩ := ks
        simp only [hbody] at h
        obtain ⟨hsz, hle, hcont, hkn, hkg, hkc, hallow, hmode⟩ :=
          lexScanBody_ok hilt hbody
        have hmod1 : i % 65536 = i := Nat.mod_eq_of_lt (by omega)
        have hmod2 : (i + size) % 65536 = i + size := Nat.mod_eq_of_lt (by omega)
        rw [hmod1, hmod2] at h
        set new : token := ⟨kind, ⟨i, i + size⟩⟩ with hnew
        have htok1 : ∀ t ∈ toks ++ [new], tokOK s t := by
          intro t ht
          rcases List.mem_append.mp ht with hmem | hmem
          · exact htok t hmem
          · have : t = new := by simpa using hmem
            subst this
            exact ⟨⟨by rw [hnew]; dsimp only; omega, hle⟩, hcont, hkn, hkg⟩
        have hchain1 : fwdChain (toks ++ [new]) := by
          refine fwdChain_append_one hchain ?_
          intro x hx
          obtain ⟨hxe, hxc⟩ := hlast x hx
          unfold tilePair
          rw [if_neg hxc, hxe]
        have hhead1 : (toks ++ [new]) ≠ [] → ((toks ++ [new]).headI).pos.Begin = 0 := by
          intro _
          cases hcs : toks with
          | nil =>
            have := hemp hcs
            simp [hcs, List.headI, hnew, this]
          | cons a r =>
            have := hhead (by rw [hcs]; exact List.cons_ne_nil a r)
            rw [hcs] at this
            simpa using this
        have hlast1 : ∀ x, (toks ++ [new]).getLast? = some x →
            x.pos.End = i + size ∧ x.kind ≠ .tokConcat := by
          intro x hx
          rw [List.getLast?_concat] at hx
          cases hx
          exact ⟨rfl, hkc⟩
        have hkm1 : kindModeOK false (toks ++ [new]) := by
          refine kindModeOK_append hkm ?_
          rw [hfm]
          exact ⟨hallow, trivial⟩
        have hfm1 : foldMode false (toks ++ [new]) = modeAfter inside kind := by
          rw [foldMode_append, hfm, foldMode_cons]
          rfl
        by_cases hcp : (!inside && isConcatPos (toks ++ [new])) = true
        · rw [if_pos hcp] at h
          simp only [Bool.and_eq_true, Bool.not_eq_true'] at hcp
          obtain ⟨hins, hicp⟩ := hcp
          have hne : toks ≠ [] := by
            intro habs
            rw [habs] at hicp
            simp [isConcatPos] at hicp
          have htab : concatTable new.kind / 2 % 2 = 0 := by
            simp only [isConcatPos, Bool.and_eq_true, decide_eq_true_eq] at hicp
            have hgd : (toks ++ [new]).getD ((toks ++ [new]).length - 1) noneToken = new := by
              have hl2 : (toks ++ [new]).length - 1 = toks.length := by simp
              rw [hl2]
              exact getD_append_len toks new noneToken
            rw [hgd] at hicp
            exact hicp.2
          have hic : insertConcat (toks ++ [new]) =
              toks ++ [⟨.tokConcat, new.pos⟩, new] := by
            unfold insertConcat
            rw [List.dropLast_concat]
            rw [List.getLastD_eq_getLast?, List.getLast?_concat]
            simp
          rw [hic] at h
          set ctok : token := ⟨.tokConcat, new.pos⟩ with hctok
          refine ih h (by omega) ?_ ?_ ?_ ?_ ?_ ?_ ?_ ?_
          · intro t ht
            rcases List.mem_append.mp ht with hmem | hmem
            · exact htok t hmem
            · simp only [List.mem_cons, List.mem_singleton,
                List.not_mem_nil, or_false] at hmem
              rcases hmem with hmem | hmem
              · subst hmem
                refine ⟨⟨?_, hle⟩, trivial, by simp, by simp⟩
                rw [hctok, hnew]
                dsimp only
                omega
              · have : t = new := by simpa using hmem
                subst this
                exact ⟨⟨by rw [hnew]; dsimp only; omega, hle⟩, hcont, hkn, hkg⟩
          · have h1 : fwdChain (toks ++ [ctok]) := by
              refine fwdChain_append_one hchain ?_
              intro x hx
              obtain ⟨hxe, hxc⟩ := hlast x hx
              unfold tilePair
              rw [if_neg hxc, hxe]
            have h2 : fwdChain ((toks ++ [ctok]) ++ [new]) := by
              refine fwdChain_append_one h1 ?_
              intro x hx
              rw [List.getLast?_concat] at hx
              cases hx
              unfold tilePair
              rw [if_pos rfl]
            rw [List.append_assoc] at h2
            exact h2
          · intro habs
            simp at habs
          · intro x hx
            rw [getLast?_append_pair] at hx
            cases hx
            exact ⟨rfl, hkc⟩
          · intro _
            cases hcs : toks with
            | nil => exact absurd hcs hne
            | cons a r =>
              have := hhead (by rw [hcs]; exact List.cons_ne_nil a r)
              rw [hcs] at this
              simpa using this
          · exact concatNextOK_append_concat hcn rfl hkc htab
          · refine kindModeOK_append hkm ?_
            rw [hfm, hins]
            refine ⟨by simp [allowedIn], ?_, trivial⟩
            have hma : modeAfter false .tokConcat = false := by simp [modeAfter]
            rw [hma]
            rw [hins] at hallow
            exact hallow
          · rw [foldMode_append, hfm, hins]
            have hstep : foldMode false [ctok, new] = modeAfter false kind := by
              rw [foldMode_cons, foldMode_cons]
              simp [modeAfter, foldMode]
            rw [hins] at hmode
            rw [hstep, hmode]
        · rw [if_neg hcp] at h
          refine ih h (by omega) htok1 hchain1 (by intro habs; simp at habs)
            hlast1 hhead1 (concatNextOK_append_one hcn hkc) hkm1 ?_
          rw [hfm1, hmode]
    · rw [if_neg hilt] at h
      cases h
      have hieq : i = s.length := by omega
      refine ⟨hlen, htok, hchain, hhead, ?_, hcn, hkm⟩
      intro hne
      cases hcs : toks with
      | nil => exact absurd hcs hne
      | cons a r =>
        have hsome : (a :: r).getLast? =
            some ((a :: r).getLast (List.cons_ne_nil a r)) :=
          List.getLast?_eq_getLast _ _
        have hx := hlast _ (by rw [hcs]; exact hsome)
        rw [List.getLastD_eq_getLast?, hsome]
        simpa [hieq] using hx.1

/-- A successful `lexer.Init` run on a `uint16`-addressable pattern
establishes the full invariant bundle. -/
theorem lexOK_of_lexInit {s : Str} {T : List token} (hlen : s.length ≤ 65535)
    (h : lexInit s = .ok T) : LexOK s T := by
  refine lexScan_inv hlen (s.length + 1) h (by omega) ?_ trivial ?_ ?_ ?_
    trivial trivial rfl
  · intro t ht
    cases ht
  · intro _
    rfl
  · intro x hx
    cases hx
  · intro habs
    exact absurd rfl habs


/-! ### 16-bit positions: bounds and overflow -/

theorem insertConcat_concat (T : List token) (y : token) :
    insertConcat (T ++ [y]) = T ++ [⟨.tokConcat, y.pos⟩, y] := by
  unfold insertConcat
  rw [List.dropLast_concat, List.getLastD_eq_getLast?, List.getLast?_concat]
  simp

/-- A `0x61` byte lexes as a one-byte `tokChar` in either mode. -/
theorem lexScanBody_char {s : Str} {i : Nat} {inside : Bool} {rest : Str}
    (hb : s.drop i = 97 :: rest) :
    lexScanBody s i inside = .ok (.tokChar, 1) := by
  simp only [lexScanBody, hb]
  rfl

/-- Tokens already accumulated survive to the end of the scan. -/
theorem lexScan_mem_mono {s : Str} : ∀ (fuel : Nat) {i : Nat} {inside : Bool}
    {toks T : List token}, lexScan s fuel i inside toks = .ok T →
    ∀ t ∈ toks, t ∈ T := by
  intro fuel
  induction fuel with
  | zero => intro i inside toks T h; cases h
  | succ fuel ih =>
    intro i inside toks T h t ht
    rw [lexScan] at h
    by_cases hilt : i < s.length
    · rw [if_pos hilt] at h
      cases hbody : lexScanBody s i inside with
      | error e => rw [hbody] at h; cases h
      | ok ks =>
        obtain ⟨kind, size⟩ := ks
        simp only [hbody] at h
        refine ih h t ?_
        by_cases hcp : (!inside && isConcatPos
            (toks ++ [⟨kind, ⟨i % 65536, (i + size) % 65536⟩⟩])) = true
        · rw [if_pos hcp, insertConcat_concat]
          exact List.mem_append_left _ ht
        · rw [if_neg hcp]
          exact List.mem_append_left _ ht
    · rw [if_neg hilt] at h
      cases h
      exact ht

/-- Over a run of `0x61` bytes the scan pushes a (truncated) one-byte
char token at every position. -/
theorem lexScan_arun {N : Nat} : ∀ (fuel : Nat) {i : Nat} {inside : Bool}
    {toks T : List token},
    lexScan (List.replicate N 97) fuel i inside toks = .ok T →
    ∀ j, i ≤ j → j < N →
      (⟨.tokChar, ⟨j % 65536, (j + 1) % 65536⟩⟩ : token) ∈ T := by
  intro fuel
  induction fuel with
  | zero => intro i inside toks T h; cases h
  | succ fuel ih =>
    intro i inside toks T h j hij hjN
    rw [lexScan] at h
    have hiN : i < N := by omega
    have hilt : i < (List.replicate N 97).length := by
      rw [List.length_replicate]; omega
    rw [if_pos hilt] at h
    have hdrop : (List.replicate N 97).drop i =
        97 :: List.replicate (N - i - 1) 97 := by
      rw [List.drop_replicate]
      have he : N - i = (N - i - 1) + 1 := by omega
      rw [he, List.replicate_succ]
      simp
    simp only [lexScanBody_char hdrop] at h
    rw [hdrop] at h
    norm_num [decodeRune] at h
    rcases Nat.lt_or_ge i j with hlt | hge
    · exact ih h j (by omega) hjN
    · have hj : j = i := by omega
      subst hj
      refine lexScan_mem_mono fuel h _ ?_
      by_cases hcp : inside = false ∧ isConcatPos
          (toks ++ [⟨.tokChar, ⟨j % 65536, (j + 1) % 65536⟩⟩]) = true
      · rw [if_pos hcp, insertConcat_concat]
        simp
      · rw [if_neg hcp]
        simp

/-- The scan of a `0x61` run always succeeds, with fuel one more than the
remaining length. -/
theorem lexScan_arun_ok {N : Nat} : ∀ (fuel : Nat) {i : Nat} {inside : Bool}
    {toks : List token}, N - i < fuel →
    ∃ T, lexScan (List.replicate N 97) fuel i inside toks = .ok T := by
  intro fuel
  induction fuel with
  | zero => intro i inside toks hf; omega
  | succ fuel ih =>
    intro i inside toks hf
    rw [lexScan]
    by_cases hilt : i < (List.replicate N 97).length
    · rw [if_pos hilt]
      have hiN : i < N := by rw [List.length_replicate] at hilt; exact hilt
      have hdrop : (List.replicate N 97).drop i =
          97 :: List.replicate (N - i - 1) 97 := by
        rw [List.drop_replicate]
        have he : N - i = (N - i - 1) + 1 := by omega
        rw [he, List.replicate_succ]
        simp
      rw [lexScanBody_char hdrop]
      exact ih (by omega)
    · rw [if_neg hilt]
      exact ⟨toks, rfl⟩


/-- C9: token and node positions are 16-bit byte offsets.  For patterns
of length at most `65535` every emitted token satisfies the positional
bounds `Begin ≤ End ≤ length`; the second part exhibits a longer pattern
(a run of `0x61` bytes) whose scan succeeds yet emits a token with
`End < Begin`, so the length bound is a necessary precondition. -/
theorem C9_position_bounds :
    (∀ (s : Str) (T : List token), s.length ≤ 65535 → lexInit s = .ok T →
      ∀ t ∈ T, t.pos.Begin ≤ t.pos.End ∧ t.pos.End ≤ s.length) ∧
    (∃ (s : Str) (T : List token), 65535 < s.length ∧ lexInit s = .ok T ∧
      ∃ t ∈ T, t.pos.End < t.pos.Begin) := by
  constructor
  · intro s T hlen h t ht
    exact ((lexOK_of_lexInit hlen h).tok_mem t ht).1
  · obtain ⟨T, hT⟩ := @lexScan_arun_ok 65536 65537 0 false [] (by omega)
    have hinit : lexInit (List.replicate 65536 97) =
        lexScan (List.replicate 65536 97) 65537 0 false [] := by
      unfold lexInit
      rw [List.length_replicate]
    refine ⟨List.replicate 65536 97, T, by rw [List.length_replicate]; omega,
      by rw [hinit]; exact hT, ?_⟩
    refine ⟨⟨.tokChar, ⟨65535 % 65536, (65535 + 1) % 65536⟩⟩, ?_, by norm_num⟩
    exact lexScan_arun 65537 hT 65535 (by omega) (by omega)

/-- C9 witness: the bounds part evaluated on the single-char pattern. -/
theorem C9_position_bounds_witness :
    (⟨.tokChar, ⟨0, 1⟩⟩ : token).pos.Begin ≤ (⟨.tokChar, ⟨0, 1⟩⟩ : token).pos.End ∧
    (⟨.tokChar, ⟨0, 1⟩⟩ : token).pos.End ≤ ([97] : Str).length :=
  C9_position_bounds.1 [97] [⟨.tokChar, ⟨0, 1⟩⟩] (by norm_num) (by rfl)
    ⟨.tokChar, ⟨0, 1⟩⟩ (by simp)


/-! ### Fuel sufficiency: the embedding's fuel never runs out -/

theorem lexScan_no_fuelOut {s : Str} : ∀ (fuel : Nat) {i : Nat}
    {inside : Bool} {toks : List token}, s.length - i < fuel →
    lexScan s fuel i inside toks ≠ .error .fuelOut := by
  intro fuel
  induction fuel with
  | zero => intro i inside toks hf; omega
  | succ fuel ih =>
    intro i inside toks hf
    rw [lexScan]
    by_cases hilt : i < s.length
    · rw [if_pos hilt]
      cases hbody : lexScanBody s i inside with
      | error e => intro habs; cases habs
      | ok ks =>
        obtain ⟨kind, size⟩ := ks
        have hsz := (lexScanBody_ok hilt hbody).1
        exact ih (by omega)
    · rw [if_neg hilt]
      intro habs
      cases habs

mutual

theorem setValues_no_fuelOut (s : Str) :
    ∀ (e : Expr), setValues s e ≠ .error .fuelOut
  | .mk op pos args v => by
    cases hl : setValuesList s args with
    | error f =>
      have hrec := setValuesList_no_fuelOut s args
      simp only [setValues, hl]
      intro habs
      cases habs
      rw [hl] at hrec
      exact hrec rfl
    | ok args2 =>
      simp only [setValues, hl]
      by_cases hb : pos.Begin ≤ pos.End ∧ pos.End ≤ s.length
      · rw [if_pos hb]
        intro habs
        cases habs
      · rw [if_neg hb]
        intro habs
        cases habs

theorem setValuesList_no_fuelOut (s : Str) :
    ∀ (l : List Expr), setValuesList s l ≠ .error .fuelOut
  | [] => by
    simp only [setValuesList]
    intro habs
    cases habs
  | e :: rest => by
    cases he : setValues s e with
    | error f =>
      have hrec := setValues_no_fuelOut s e
      rw [he] at hrec
      cases hr : setValuesList s rest <;>
        simp only [setValuesList, he, hr] <;>
        exact fun habs => by cases habs; exact hrec rfl
    | ok e2 =>
      cases hr : setValuesList s rest with
      | error f =>
        have hrec := setValuesList_no_fuelOut s rest
        simp only [setValuesList, he, hr]
        intro habs
        cases habs
        rw [hr] at hrec
        exact hrec rfl
      | ok rest2 =>
        simp only [setValuesList, he, hr]
        intro habs
        cases habs

end

/-- The per-result invariant of the parser fuel argument: the result is
not fuel exhaustion, and a successful result preserves the token vector
and moves the cursor forward within bounds (strictly, when flagged). -/
def resOK {α : Type} (strict : Bool) (st : PState) :
    Except PFail (α × PState) → Prop
  | .error .fuelOut => False
  | .error _ => True
  | .ok (_, st2) => st2.tokens = st.tokens ∧ st.tpos ≤ st2.tpos ∧
      st2.tpos ≤ st.tokens.length ∧ (strict = true → st.tpos < st2.tpos)

theorem resOK_error {α α2 : Type} {b b2 : Bool} {st st2 : PState} {f : PFail}
    (h : resOK (α := α) b st (.error f)) :
    resOK (α := α2) b2 st2 (.error f) := by
  cases f <;> simp [resOK] at h ⊢

theorem nextToken_lt {st : PState} (h : st.tpos < st.tokens.length) :
    nextToken st =
      (st.tokens.getD st.tpos noneToken, { st with tpos := st.tpos + 1 }) := by
  rw [nextToken, if_pos h]

theorem nextToken_ge {st : PState} (h : ¬ st.tpos < st.tokens.length) :
    nextToken st = (noneToken, st) := by
  rw [nextToken, if_neg h]

theorem peekToken_ge {st : PState} (h : ¬ st.tpos < st.tokens.length) :
    peekToken st = noneToken := by
  rw [peekToken, if_neg h]

theorem expectKind_ok {k : tokenKind} {st : PState} {rp : Position}
    {st2 : PState} (h : expectKind k st = .ok (rp, st2)) :
    st2.tokens = st.tokens ∧ st.tpos ≤ st2.tpos ∧
      (st.tpos ≤ st.tokens.length → st2.tpos ≤ st.tokens.length) ∧
      st2.charClass = st.charClass := by
  rw [expectKind] at h
  by_cases htp : st.tpos < st.tokens.length
  · rw [nextToken_lt htp] at h
    by_cases hk : (st.tokens.getD st.tpos noneToken).kind = k
    · rw [if_pos hk] at h
      cases h
      refine ⟨rfl, ?_, fun _ => ?_, rfl⟩
      · dsimp only
        omega
      · dsimp only
        omega
    · rw [if_neg hk] at h
      cases h
  · rw [nextToken_ge htp] at h
    by_cases hk : noneToken.kind = k
    · rw [if_pos hk] at h
      cases h
      exact ⟨rfl, le_refl _, fun hh => hh, rfl⟩
    · rw [if_neg hk] at h
      cases h



set_option maxHeartbeats 1600000 in
/-- Fuel sufficiency for the Pratt parser: with fuel at least eight times
the remaining token count plus a per-function constant, no function of
the mutual block exhausts its fuel, and every success keeps the token
vector, moving the cursor forward within bounds (strictly for
`parseExpr`). -/
theorem parserFuel_ok (s : Str) : ∀ (fuel : Nat),
    (∀ (prec : Nat) (st : PState), st.tpos ≤ st.tokens.length →
      8 * (st.tokens.length - st.tpos) + 2 ≤ fuel →
      resOK true st (parseExpr s fuel prec st)) ∧
    (∀ (prec : Nat) (left : Expr) (st : PState), st.tpos ≤ st.tokens.length →
      8 * (st.tokens.length - st.tpos) + 1 ≤ fuel →
      resOK false st (infixLoop s fuel prec left st)) ∧
    (∀ (tok : token) (st : PState), st.tpos ≤ st.tokens.length →
      8 * (st.tokens.length - st.tpos) + 5 ≤ fuel →
      resOK false st (applyPrefixParselet s fuel tok st)) ∧
    (∀ (tok : token) (left : Expr) (st : PState), st.tpos ≤ st.tokens.length →
      8 * (st.tokens.length - st.tpos) + 4 ≤ fuel →
      resOK false st (applyInfixParselet s fuel tok left st)) ∧
    (∀ (left : Expr) (tok : token) (st : PState), st.tpos ≤ st.tokens.length →
      8 * (st.tokens.length - st.tpos) + 3 ≤ fuel →
      resOK false st (parseMinus s fuel left tok st)) ∧
    (∀ (op : Operation) (tok : token) (st : PState),
      st.tpos ≤ st.tokens.length →
      8 * (st.tokens.length - st.tpos) + 4 ≤ fuel →
      resOK false st (parseCharClass s fuel op tok st)) ∧
    (∀ (tok : token) (st : PState), st.tpos ≤ st.tokens.length →
      8 * (st.tokens.length - st.tpos) + 3 ≤ fuel →
      resOK false st (classLoop s fuel tok st)) ∧
    (∀ (tok : token) (st : PState), st.tpos ≤ st.tokens.length →
      8 * (st.tokens.length - st.tpos) + 3 ≤ fuel →
      resOK false st (parseGroupItem s fuel tok st)) ∧
    (∀ (tok : token) (st : PState), st.tpos ≤ st.tokens.length →
      8 * (st.tokens.length - st.tpos) + 4 ≤ fuel →
      resOK false st (parseCapture s fuel tok st)) ∧
    (∀ (tok : token) (st : PState), st.tpos ≤ st.tokens.length →
      8 * (st.tokens.length - st.tpos) + 4 ≤ fuel →
      resOK false st (parseNamedCapture s fuel tok st)) ∧
    (∀ (tok : token) (st : PState), st.tpos ≤ st.tokens.length →
      8 * (st.tokens.length - st.tpos) + 4 ≤ fuel →
      resOK false st (parseGroupWithFlags s fuel tok st)) := by
  intro fuel
  induction fuel with
  | zero =>
    refine ⟨?_, ?_, ?_, ?_, ?_, ?_, ?_, ?_, ?_, ?_, ?_⟩ <;>
      · intros
        exfalso
        omega
  | succ fuel ih =>
    obtain ⟨ihPE, ihIL, ihAPP, ihAIP, ihPM, ihPCC, ihCL, ihPGI, ihPC,
      ihPNC, ihGWF⟩ := ih
    refine ⟨?_, ?_, ?_, ?_, ?_, ?_, ?_, ?_, ?_, ?_, ?_⟩
    · -- parseExpr
      intro prec st hle hf
      rw [parseExpr]
      by_cases htp : st.tpos < st.tokens.length
      · simp only [nextToken_lt htp]
        by_cases hpp :
            hasPrefixParselet (st.tokens.getD st.tpos noneToken).kind = true
        · rw [if_pos hpp]
          have happ := ihAPP (st.tokens.getD st.tpos noneToken)
            { st with tpos := st.tpos + 1 }
            (show st.tpos + 1 ≤ st.tokens.length by omega)
            (show 8 * (st.tokens.length - (st.tpos + 1)) + 5 ≤ fuel by omega)
          cases hsub : applyPrefixParselet s fuel
              (st.tokens.getD st.tpos noneToken)
              { st with tpos := st.tpos + 1 } with
          | error f =>
            rw [hsub] at happ
            simp only [hsub]
            exact resOK_error happ
          | ok pair =>
            obtain ⟨left, st2⟩ := pair
            rw [hsub] at happ
            obtain ⟨hto, hp1, hp2, -⟩ := happ
            have hto2 : st2.tokens = st.tokens := hto
            have hp12 : st.tpos + 1 ≤ st2.tpos := hp1
            have hp22 : st2.tpos ≤ st.tokens.length := hp2
            have hl2 : st2.tokens.length = st.tokens.length := by rw [hto2]
            simp only [hsub]
            have hil := ihIL prec left st2 (by omega) (by omega)
            cases hres : infixLoop s fuel prec left st2 with
            | error f =>
              rw [hres] at hil
              exact resOK_error hil
            | ok pair2 =>
              obtain ⟨e2, st3⟩ := pair2
              rw [hres] at hil
              obtain ⟨h3to, h3a, h3b, -⟩ := hil
              rw [hto2] at h3to
              rw [hl2] at h3b
              exact ⟨h3to, by omega, h3b, fun _ => by omega⟩
        · rw [if_neg hpp]
          trivial
      · simp only [nextToken_ge htp]
        rw [if_neg (by decide :
          ¬ hasPrefixParselet (noneToken).kind = true)]
        trivial
    · -- infixLoop
      intro prec left st hle hf
      rw [infixLoop]
      by_cases hlt : prec < precedenceOf (peekToken st)
      · rw [if_pos hlt]
        by_cases htp : st.tpos < st.tokens.length
        · simp only [nextToken_lt htp]
          have haip := ihAIP (st.tokens.getD st.tpos noneToken) left
            { st with tpos := st.tpos + 1 }
            (show st.tpos + 1 ≤ st.tokens.length by omega)
            (show 8 * (st.tokens.length - (st.tpos + 1)) + 4 ≤ fuel by omega)
          cases hsub : applyInfixParselet s fuel
              (st.tokens.getD st.tpos noneToken) left
              { st with tpos := st.tpos + 1 } with
          | error f =>
            rw [hsub] at haip
            simp only [hsub]
            exact resOK_error haip
          | ok pair =>
            obtain ⟨left2, st2⟩ := pair
            rw [hsub] at haip
            obtain ⟨hto, hp1, hp2, -⟩ := haip
            have hto2 : st2.tokens = st.tokens := hto
            have hp12 : st.tpos + 1 ≤ st2.tpos := hp1
            have hp22 : st2.tpos ≤ st.tokens.length := hp2
            have hl2 : st2.tokens.length = st.tokens.length := by rw [hto2]
            simp only [hsub]
            have hil := ihIL prec left2 st2 (by omega) (by omega)
            cases hres : infixLoop s fuel prec left2 st2 with
            | error f =>
              rw [hres] at hil
              exact resOK_error hil
            | ok pair2 =>
              obtain ⟨e2, st3⟩ := pair2
              rw [hres] at hil
              obtain ⟨h3to, h3a, h3b, -⟩ := hil
              rw [hto2] at h3to
              rw [hl2] at h3b
              exact ⟨h3to, by omega, h3b, by simp⟩
        · exfalso
          rw [peekToken_ge htp] at hlt
          simp [precedenceOf, noneToken] at hlt
      · rw [if_neg hlt]
        exact ⟨rfl, le_refl _, hle, by simp⟩
    · -- applyPrefixParselet
      intro tok st hle hf
      obtain ⟨k, kpos⟩ := tok
      rw [applyPrefixParselet]
      cases k
      case tokLparen =>
        exact ihPC _ st hle (by omega)
      case tokLparenName =>
        exact ihPNC _ st hle (by omega)
      case tokLparenFlags =>
        exact ihGWF _ st hle (by omega)
      case tokLbracket =>
        exact ihPCC _ _ st hle (by omega)
      case tokLbracketCaret =>
        exact ihPCC _ _ st hle (by omega)
      all_goals
        exact ⟨rfl, le_refl _, hle, by simp⟩
    · -- applyInfixParselet
      intro tok left st hle hf
      obtain ⟨k, kpos⟩ := tok
      rw [applyInfixParselet]
      cases k
      case tokPipe =>
        cases hpk : (peekToken st).kind
        case tokRparen =>
          simp only [hpk]
          exact ⟨rfl, le_refl _, hle, by simp⟩
        case tokNone =>
          simp only [hpk]
          exact ⟨rfl, le_refl _, hle, by simp⟩
        all_goals
          simp only [hpk]
          have hpe := ihPE 1 st hle (by omega)
          cases hres : parseExpr s fuel 1 st with
          | error f =>
            rw [hres] at hpe
            simp only [hres]
            exact resOK_error hpe
          | ok pair =>
            obtain ⟨right, st2⟩ := pair
            rw [hres] at hpe
            obtain ⟨hto, hp1, hp2, -⟩ := hpe
            simp only [hres]
            exact ⟨hto, by omega, hp2, by simp⟩
      case tokConcat =>
        have hpe := ihPE 2 st hle (by omega)
        cases hres : parseExpr s fuel 2 st with
        | error f =>
          rw [hres] at hpe
          simp only [hres]
          exact resOK_error hpe
        | ok pair =>
          obtain ⟨right, st2⟩ := pair
          rw [hres] at hpe
          obtain ⟨hto, hp1, hp2, -⟩ := hpe
          simp only [hres]
          exact ⟨hto, by omega, hp2, by simp⟩
      case tokMinus =>
        exact ihPM left _ st hle (by omega)
      case tokRepeat =>
        exact ⟨rfl, le_refl _, hle, by simp⟩
      case tokPlus =>
        exact ⟨rfl, le_refl _, hle, by simp⟩
      case tokStar =>
        exact ⟨rfl, le_refl _, hle, by simp⟩
      case tokQuestion =>
        exact ⟨rfl, le_refl _, hle, by simp⟩
      all_goals trivial
    · -- parseMinus
      intro left tok st hle hf
      simp only [parseMinus]
      by_cases hrg : ((left.Op = Operation.OpEscapeMeta ||
            left.Op = Operation.OpChar) &&
          ((peekToken st).kind = tokenKind.tokChar ||
            (peekToken st).kind = tokenKind.tokEscapeMeta ||
            (peekToken st).kind = tokenKind.tokMinus)) = true
      · rw [if_pos hrg]
        have hpe := ihPE 2 st hle (by omega)
        cases hres : parseExpr s fuel 2 st with
        | error f =>
          rw [hres] at hpe
          simp only [hres]
          exact resOK_error hpe
        | ok pair =>
          obtain ⟨right, st2⟩ := pair
          rw [hres] at hpe
          obtain ⟨hto, hp1, hp2, -⟩ := hpe
          simp only [hres]
          exact ⟨hto, by omega, hp2, by simp⟩
      · rw [if_neg hrg]
        exact ⟨rfl, le_refl _, hle, by simp⟩
    · -- parseCharClass
      intro op tok st hle hf
      rw [parseCharClass]
      by_cases hrb : (peekToken st).kind = tokenKind.tokRbracket
      · rw [if_pos hrb]
        by_cases htp : st.tpos < st.tokens.length
        · simp only [nextToken_lt htp]
          exact ⟨rfl, by show st.tpos ≤ st.tpos + 1; omega,
            by show st.tpos + 1 ≤ st.tokens.length; omega, by simp⟩
        · exfalso
          rw [peekToken_ge htp] at hrb
          simp [noneToken] at hrb
      · rw [if_neg hrb]
        have hcl := ihCL tok { st with charClass := [] }
          (show st.tpos ≤ st.tokens.length from hle)
          (show 8 * (st.tokens.length - st.tpos) + 3 ≤ fuel by omega)
        cases hres : classLoop s fuel tok { st with charClass := [] } with
        | error f =>
          rw [hres] at hcl
          simp only [hres]
          exact resOK_error hcl
        | ok pair =>
          obtain ⟨endPos, st2⟩ := pair
          rw [hres] at hcl
          obtain ⟨hto, hp1, hp2, -⟩ := hcl
          have hto2 : st2.tokens = st.tokens := hto
          have hp12 : st.tpos ≤ st2.tpos := hp1
          have hp22 : st2.tpos ≤ st.tokens.length := hp2
          simp only [hres]
          exact ⟨hto2, hp12, hp22, by simp⟩
    · -- classLoop
      intro tok st hle hf
      rw [classLoop]
      have hpe := ihPE 0 st hle (by omega)
      cases hres : parseExpr s fuel 0 st with
      | error f =>
        rw [hres] at hpe
        simp only [hres]
        exact resOK_error hpe
      | ok pair =>
        obtain ⟨e, st1⟩ := pair
        rw [hres] at hpe
        obtain ⟨hto, hp1, hp2, hstrict⟩ := hpe
        have hp3 := hstrict rfl
        simp only [hres]
        by_cases hrb : (peekToken
            { st1 with charClass := st1.charClass ++ [e] }).kind =
            tokenKind.tokRbracket
        · rw [if_pos hrb]
          by_cases htp : st1.tpos < st1.tokens.length
          · rw [nextToken_lt (show
              ({ st1 with charClass := st1.charClass ++ [e] } : PState).tpos <
              ({ st1 with charClass := st1.charClass ++ [e] } :
                PState).tokens.length from htp)]
            have hlen : st1.tokens.length = st.tokens.length := by rw [hto]
            refine ⟨?_, ?_, ?_, by simp⟩
            · show st1.tokens = st.tokens
              exact hto
            · show st.tpos ≤ st1.tpos + 1
              omega
            · show st1.tpos + 1 ≤ st.tokens.length
              omega
          · exfalso
            rw [peekToken_ge (show ¬ ({ st1 with
                charClass := st1.charClass ++ [e] } : PState).tpos <
                ({ st1 with charClass := st1.charClass ++ [e] } :
                  PState).tokens.length from htp)] at hrb
            simp [noneToken] at hrb
        · rw [if_neg hrb]
          by_cases hnn : (peekToken
              { st1 with charClass := st1.charClass ++ [e] }).kind =
              tokenKind.tokNone
          · rw [if_pos hnn]
            trivial
          · rw [if_neg hnn]
            have hlen : st1.tokens.length = st.tokens.length := by rw [hto]
            have harg1 : st1.tpos ≤ st1.tokens.length := by
              rw [hlen]
              exact hp2
            have harg2 : 8 * (st1.tokens.length - st1.tpos) + 3 ≤ fuel := by
              rw [hlen]
              omega
            have hcl := ihCL tok { st1 with charClass := st1.charClass ++ [e] }
              harg1 harg2
            cases hres2 : classLoop s fuel tok
                { st1 with charClass := st1.charClass ++ [e] } with
            | error f =>
              rw [hres2] at hcl
              exact resOK_error hcl
            | ok pair2 =>
              obtain ⟨p2, st3⟩ := pair2
              rw [hres2] at hcl
              obtain ⟨h3to, h3a, h3b, -⟩ := hcl
              have h3to2 : st3.tokens = st1.tokens := h3to
              have h3a2 : st1.tpos ≤ st3.tpos := h3a
              have h3b2 : st3.tpos ≤ st1.tokens.length := h3b
              rw [hlen] at h3b2
              refine ⟨by rw [h3to2, hto], by omega, by omega, by simp⟩
    · -- parseGroupItem
      intro tok st hle hf
      rw [parseGroupItem]
      by_cases hrp : (peekToken st).kind = tokenKind.tokRparen
      · rw [if_pos hrp]
        exact ⟨rfl, le_refl _, hle, by simp⟩
      · rw [if_neg hrp]
        have hpe := ihPE 0 st hle (by omega)
        cases hres : parseExpr s fuel 0 st with
        | error f =>
          rw [hres] at hpe
          exact resOK_error hpe
        | ok pair =>
          obtain ⟨e, st2⟩ := pair
          rw [hres] at hpe
          obtain ⟨hto, hp1, hp2, -⟩ := hpe
          exact ⟨hto, by omega, hp2, by simp⟩
    · -- parseCapture
      intro tok st hle hf
      rw [parseCapture]
      have hgi := ihPGI tok st hle (by omega)
      cases hres : parseGroupItem s fuel tok st with
      | error f =>
        rw [hres] at hgi
        simp only [hres]
        exact resOK_error hgi
      | ok pair =>
        obtain ⟨x, st1⟩ := pair
        rw [hres] at hgi
        obtain ⟨hto, hp1, hp2, -⟩ := hgi
        simp only [hres]
        cases hek : expectKind tokenKind.tokRparen st1 with
        | error f =>
          simp only [hek]
          cases f with
          | fuelOut =>
            exfalso
            rw [expectKind] at hek
            by_cases hk : (nextToken st1).1.kind = tokenKind.tokRparen
            · rw [if_pos hk] at hek
              cases hek
            · rw [if_neg hk] at hek
              cases hek
          | err e => trivial
          | panicked m => trivial
        | ok pair2 =>
          obtain ⟨rp, st2⟩ := pair2
          obtain ⟨h2to, h2a, h2b, -⟩ := expectKind_ok hek
          have hlen1 : st1.tokens.length = st.tokens.length := by rw [hto]
          have h2c : st2.tpos ≤ st1.tokens.length := h2b (by rw [hlen1]; omega)
          rw [hlen1] at h2c
          simp only [hek]
          rw [hto] at h2to
          exact ⟨h2to, by omega, h2c, by simp⟩
    · -- parseNamedCapture
      intro tok st hle hf
      rw [parseNamedCapture]
      have hgi := ihPGI tok st hle (by omega)
      cases hres : parseGroupItem s fuel tok st with
      | error f =>
        rw [hres] at hgi
        simp only [hres]
        exact resOK_error hgi
      | ok pair =>
        obtain ⟨x, st1⟩ := pair
        rw [hres] at hgi
        obtain ⟨hto, hp1, hp2, -⟩ := hgi
        simp only [hres]
        cases hek : expectKind tokenKind.tokRparen st1 with
        | error f =>
          simp only [hek]
          cases f with
          | fuelOut =>
            exfalso
            rw [expectKind] at hek
            by_cases hk : (nextToken st1).1.kind = tokenKind.tokRparen
            · rw [if_pos hk] at hek
              cases hek
            · rw [if_neg hk] at hek
              cases hek
          | err e => trivial
          | panicked m => trivial
        | ok pair2 =>
          obtain ⟨rp, st2⟩ := pair2
          obtain ⟨h2to, h2a, h2b, -⟩ := expectKind_ok hek
          have hlen1 : st1.tokens.length = st.tokens.length := by rw [hto]
          have h2c : st2.tpos ≤ st1.tokens.length := h2b (by rw [hlen1]; omega)
          rw [hlen1] at h2c
          simp only [hek]
          rw [hto] at h2to
          exact ⟨h2to, by omega, h2c, by simp⟩
    · -- parseGroupWithFlags
      intro tok st hle hf
      rw [parseGroupWithFlags]
      by_cases hbnd : u16 (tok.pos.Begin + 1) ≤ tok.pos.End ∧
          tok.pos.End ≤ s.length
      · rw [if_pos hbnd]
        by_cases hsfx : ¬ hasSuffixList [58]
            (sliceStr s (u16 (tok.pos.Begin + 1)) tok.pos.End) = true
        · rw [if_pos hsfx]
          cases hek : expectKind tokenKind.tokRparen st with
          | error f =>
            simp only [hek]
            cases f with
            | fuelOut =>
              exfalso
              rw [expectKind] at hek
              by_cases hk : (nextToken st).1.kind = tokenKind.tokRparen
              · rw [if_pos hk] at hek
                cases hek
              · rw [if_neg hk] at hek
                cases hek
            | err e => trivial
            | panicked m => trivial
          | ok pair =>
            obtain ⟨rp, st1⟩ := pair
            obtain ⟨h1to, h1a, h1b, -⟩ := expectKind_ok hek
            simp only [hek]
            exact ⟨h1to, h1a, h1b hle, by simp⟩
        · rw [if_neg hsfx]
          by_cases hval : sliceStr s (u16 (tok.pos.Begin + 1)) tok.pos.End =
              [63, 58]
          · rw [if_pos hval]
            have hgi := ihPGI tok st hle (by omega)
            cases hres : parseGroupItem s fuel tok st with
            | error f =>
              rw [hres] at hgi
              simp only [hres]
              exact resOK_error hgi
            | ok pair =>
              obtain ⟨x, st1⟩ := pair
              rw [hres] at hgi
              obtain ⟨hto, hp1, hp2, -⟩ := hgi
              simp only [hres]
              cases hek : expectKind tokenKind.tokRparen st1 with
              | error f =>
                simp only [hek]
                cases f with
                | fuelOut =>
                  exfalso
                  rw [expectKind] at hek
                  by_cases hk : (nextToken st1).1.kind = tokenKind.tokRparen
                  · rw [if_pos hk] at hek
                    cases hek
                  · rw [if_neg hk] at hek
                    cases hek
                | err e => trivial
                | panicked m => trivial
              | ok pair2 =>
                obtain ⟨rp, st2⟩ := pair2
                obtain ⟨h2to, h2a, h2b, -⟩ := expectKind_ok hek
                have hlen1 : st1.tokens.length = st.tokens.length := by rw [hto]
                have h2c : st2.tpos ≤ st1.tokens.length := h2b (by rw [hlen1]; omega)
                rw [hlen1] at h2c
                simp only [hek]
                rw [hto] at h2to
                exact ⟨h2to, by omega, h2c, by simp⟩
          · rw [if_neg hval]
            have hgi := ihPGI tok st hle (by omega)
            cases hres : parseGroupItem s fuel tok st with
            | error f =>
              rw [hres] at hgi
              simp only [hres]
              exact resOK_error hgi
            | ok pair =>
              obtain ⟨x, st1⟩ := pair
              rw [hres] at hgi
              obtain ⟨hto, hp1, hp2, -⟩ := hgi
              simp only [hres]
              cases hek : expectKind tokenKind.tokRparen st1 with
              | error f =>
                simp only [hek]
                cases f with
                | fuelOut =>
                  exfalso
                  rw [expectKind] at hek
                  by_cases hk : (nextToken st1).1.kind = tokenKind.tokRparen
                  · rw [if_pos hk] at hek
                    cases hek
                  · rw [if_neg hk] at hek
                    cases hek
                | err e => trivial
                | panicked m => trivial
              | ok pair2 =>
                obtain ⟨rp, st2⟩ := pair2
                obtain ⟨h2to, h2a, h2b, -⟩ := expectKind_ok hek
                have hlen1 : st1.tokens.length = st.tokens.length := by rw [hto]
                have h2c : st2.tpos ≤ st1.tokens.length := h2b (by rw [hlen1]; omega)
                rw [hlen1] at h2c
                simp only [hek]
                rw [hto] at h2to
                exact ⟨h2to, by omega, h2c, by simp⟩
      · rw [if_neg hbnd]
        trivial


theorem ParseRawSt_no_fuelOut (s : Str) : ParseRawSt s ≠ .error .fuelOut := by
  unfold ParseRawSt
  cases hlex : lexInit s with
  | error e =>
    cases e with
    | err pe =>
      intro habs
      cases habs
    | fuelOut =>
      exfalso
      exact lexScan_no_fuelOut (s.length + 1) (by omega) hlex
  | ok toks =>
    dsimp only
    by_cases hz : s.length = 0
    · rw [if_pos hz]
      dsimp only
      cases hsv : setValues s (mergeChars (.mk .OpConcat ⟨0, 0⟩ [] [])) with
      | error f =>
        cases f with
        | err pe =>
          intro habs
          cases habs
        | panicked m =>
          intro habs
          cases habs
        | fuelOut =>
          exact absurd hsv (setValues_no_fuelOut s _)
      | ok e2 =>
        intro habs
        cases habs
    · rw [if_neg hz]
      have hb1 : (0 : Nat) ≤ toks.length := by omega
      have hb2 : 8 * (toks.length - 0) + 2 ≤ parseFuel toks.length := by
        unfold parseFuel
        omega
      have hres := (parserFuel_ok s (parseFuel toks.length)).1 0
        ⟨toks, 0, []⟩ hb1 hb2
      cases hpe : parseExpr s (parseFuel toks.length) 0 ⟨toks, 0, []⟩ with
      | error f =>
        rw [hpe] at hres
        dsimp only
        cases f with
        | err pe =>
          intro habs
          cases habs
        | panicked m =>
          intro habs
          cases habs
        | fuelOut =>
          exact absurd hres (by simp [resOK])
      | ok pair =>
        obtain ⟨e, st1⟩ := pair
        dsimp only
        cases hsv : setValues s (mergeChars e) with
        | error f =>
          cases f with
          | err pe =>
            intro habs
            cases habs
          | panicked m =>
            intro habs
            cases habs
          | fuelOut =>
            exact absurd hsv (setValues_no_fuelOut s _)
        | ok e2 =>
          intro habs
          cases habs

/-- C10: `Parser.Parse` terminates on every input string.  The scan loop
advances the byte position by at least one per emitted token, so the
token vector is finite and lexing ends within its fuel; `parseExpr`
consumes at least one token per step and the exhausted stream yields the
`None` sentinel of precedence `0`, which ends the infix loop, so the
parser fuel `8·n + 8` always suffices.  The embedding's fuel-out sentinel
is therefore unreachable, for every input. -/
theorem C10_termination (s : Str) : Parse s ≠ .fuelOut := by
  unfold Parse
  cases hps : ParseRawSt s with
  | ok pair =>
    obtain ⟨re, st⟩ := pair
    intro habs
    cases habs
  | error f =>
    cases f with
    | err pe =>
      intro habs
      cases habs
    | panicked m =>
      intro habs
      cases habs
    | fuelOut =>
      exact absurd hps (ParseRawSt_no_fuelOut s)


/-! ### Indexed access to the lexer invariants -/

/-- Begin offset of the token at index `j`. -/
def tkB (T : List token) (j : Nat) : Nat := (T.getD j noneToken).pos.Begin

/-- End offset of the token at index `j`. -/
def tkE (T : List token) (j : Nat) : Nat := (T.getD j noneToken).pos.End

/-- Kind of the token at index `j`. -/
def tkK (T : List token) (j : Nat) : tokenKind := (T.getD j noneToken).kind

theorem getD_mem {T : List token} {j : Nat} (h : j < T.length) :
    T.getD j noneToken ∈ T := by
  rw [List.getD_eq_getElem?_getD, List.getElem?_eq_getElem h]
  exact List.getElem_mem h

theorem tilePair_concat {x y : token} (h : tilePair x y)
    (hk : x.kind = .tokConcat) : x.pos = y.pos := by
  unfold tilePair at h
  rwa [if_pos hk] at h

theorem tilePair_not {x y : token} (h : tilePair x y)
    (hk : x.kind ≠ .tokConcat) : x.pos.End = y.pos.Begin := by
  unfold tilePair at h
  rwa [if_neg hk] at h

theorem fwdChain_getD : ∀ (T : List token), fwdChain T →
    ∀ j, j + 1 < T.length →
    tilePair (T.getD j noneToken) (T.getD (j + 1) noneToken) := by
  intro T
  induction T with
  | nil =>
    intro h j hj
    simp at hj
  | cons x rest ih =>
    intro h j hj
    cases hres : rest with
    | nil =>
      rw [hres] at hj
      simp at hj
    | cons y rest2 =>
      subst hres
      obtain ⟨hxy, hr⟩ := h
      cases j with
      | zero =>
        simpa [List.getD_cons_zero, List.getD_cons_succ] using hxy
      | succ j =>
        rw [List.getD_cons_succ, List.getD_cons_succ]
        exact ih hr j (by simp at hj ⊢; omega)

theorem kindModeOK_getD : ∀ (T : List token) (m : Bool), kindModeOK m T →
    ∀ j, j < T.length →
    allowedIn (foldMode m (T.take j)) ((T.getD j noneToken).kind) := by
  intro T
  induction T with
  | nil =>
    intro m h j hj
    simp at hj
  | cons t rest ih =>
    intro m h j hj
    obtain ⟨ht, hr⟩ := h
    cases j with
    | zero => simpa [foldMode] using ht
    | succ j =>
      rw [List.getD_cons_succ, List.take_succ_cons, foldMode_cons]
      exact ih _ hr j (by simpa using hj)

theorem concatNextOK_getD : ∀ (T : List token), concatNextOK T →
    ∀ j, j + 1 < T.length → (T.getD j noneToken).kind = .tokConcat →
    concatTable (T.getD (j + 1) noneToken).kind / 2 % 2 = 0 ∧
      (T.getD (j + 1) noneToken).kind ≠ .tokConcat := by
  intro T
  induction T with
  | nil =>
    intro h j hj
    simp at hj
  | cons x rest ih =>
    intro h j hj
    cases hres : rest with
    | nil =>
      rw [hres] at hj
      simp at hj
    | cons y rest2 =>
      subst hres
      obtain ⟨hxy, hr⟩ := h
      cases j with
      | zero =>
        intro hk
        simp only [List.getD_cons_zero] at hk
        simpa [List.getD_cons_zero, List.getD_cons_succ] using hxy hk
      | succ j =>
        rw [List.getD_cons_succ, List.getD_cons_succ]
        exact ih hr j (by simp at hj ⊢; omega)

theorem concatNextOK_getLast : ∀ (T : List token), concatNextOK T →
    T ≠ [] → (T.getD (T.length - 1) noneToken).kind ≠ .tokConcat := by
  intro T
  induction T with
  | nil =>
    intro h habs
    exact absurd rfl habs
  | cons x rest ih =>
    intro h _
    cases hres : rest with
    | nil =>
      subst hres
      simpa using h
    | cons y rest2 =>
      subst hres
      obtain ⟨-, hr⟩ := h
      have := ih hr (List.cons_ne_nil y rest2)
      have hlen : (x :: y :: rest2).length - 1 = ((y :: rest2).length - 1) + 1 := by
        simp
      rw [hlen, List.getD_cons_succ]
      exact this

theorem modeAt_succ (T : List token) (j : Nat) (hj : j < T.length) :
    modeAt T (j + 1) = modeAfter (modeAt T j) (tkK T j) := by
  unfold modeAt tkK
  rw [List.take_succ, List.getElem?_eq_getElem hj]
  rw [foldMode_append]
  rw [List.getD_eq_getElem?_getD, List.getElem?_eq_getElem hj]
  rfl

theorem modeAt_zero (T : List token) : modeAt T 0 = false := rfl

theorem allowedIn_at {T : List token} (hkm : kindModeOK false T) {j : Nat}
    (hj : j < T.length) : allowedIn (modeAt T j) (tkK T j) :=
  kindModeOK_getD T false hkm j hj


theorem tk_span {s : Str} {T : List token} (hT : LexOK s T) {j : Nat}
    (hj : j < T.length) : tkB T j ≤ tkE T j ∧ tkE T j ≤ s.length :=
  (hT.tok_mem _ (getD_mem hj)).1

theorem tk_content {s : Str} {T : List token} (hT : LexOK s T) {j : Nat}
    (hj : j < T.length) : tokContentOK s (T.getD j noneToken) :=
  (hT.tok_mem _ (getD_mem hj)).2.1

theorem tk_chain {s : Str} {T : List token} (hT : LexOK s T) {j : Nat}
    (hj : j + 1 < T.length) (hk : tkK T j ≠ .tokConcat) :
    tkE T j = tkB T (j + 1) :=
  tilePair_not (fwdChain_getD T hT.chain j hj) hk

theorem tk_chain_concat {s : Str} {T : List token} (hT : LexOK s T) {j : Nat}
    (hj : j + 1 < T.length) (hk : tkK T j = .tokConcat) :
    tkB T j = tkB T (j + 1) ∧ tkE T j = tkE T (j + 1) := by
  have h := tilePair_concat (fwdChain_getD T hT.chain j hj) hk
  unfold tkB tkE
  rw [h]
  exact ⟨rfl, rfl⟩

theorem tk_step {s : Str} {T : List token} (hT : LexOK s T) {j : Nat}
    (hj : j + 1 < T.length) :
    tkB T j ≤ tkB T (j + 1) ∧ tkE T j ≤ tkE T (j + 1) := by
  by_cases hk : tkK T j = .tokConcat
  · have h := tk_chain_concat hT hj hk
    omega
  · have h := tk_chain hT hj hk
    have h1 := tk_span hT (show j < T.length by omega)
    have h2 := tk_span hT hj
    omega

theorem tkB_mono {s : Str} {T : List token} (hT : LexOK s T) :
    ∀ (k j : Nat), j ≤ k → k < T.length → tkB T j ≤ tkB T k := by
  intro k
  induction k with
  | zero =>
    intro j hjk _
    have hj0 : j = 0 := by omega
    subst hj0
    exact le_refl _
  | succ k ih =>
    intro j hjk hk
    rcases Nat.lt_or_ge j (k + 1) with h | h
    · have h1 := ih j (by omega) (by omega)
      have h2 := (tk_step hT hk).1
      omega
    · have hj : j = k + 1 := by omega
      subst hj
      exact le_refl _

theorem tkE_mono {s : Str} {T : List token} (hT : LexOK s T) :
    ∀ (k j : Nat), j ≤ k → k < T.length → tkE T j ≤ tkE T k := by
  intro k
  induction k with
  | zero =>
    intro j hjk _
    have hj0 : j = 0 := by omega
    subst hj0
    exact le_refl _
  | succ k ih =>
    intro j hjk hk
    rcases Nat.lt_or_ge j (k + 1) with h | h
    · have h1 := ih j (by omega) (by omega)
      have h2 := (tk_step hT hk).2
      omega
    · have hj : j = k + 1 := by omega
      subst hj
      exact le_refl _

theorem tkB_le_tkE {s : Str} {T : List token} (hT : LexOK s T) {j k : Nat}
    (hjk : j ≤ k) (hk : k < T.length) : tkB T j ≤ tkE T k :=
  le_trans (tkB_mono hT k j hjk hk) (tk_span hT hk).1

theorem tkE_le_tkE {s : Str} {T : List token} (hT : LexOK s T) {j k : Nat}
    (hjk : j ≤ k) (hk : k < T.length) : tkE T j ≤ tkE T k :=
  tkE_mono hT k j hjk hk

theorem tk_first {s : Str} {T : List token} (hT : LexOK s T) (hne : T ≠ []) :
    tkB T 0 = 0 := by
  have h := hT.first_begin hne
  cases T with
  | nil => exact absurd rfl hne
  | cons a r => simpa [tkB] using h

theorem tk_last {s : Str} {T : List token} (hT : LexOK s T) (hne : T ≠ []) :
    tkE T (T.length - 1) = s.length := by
  have h := hT.last_end hne
  rw [List.getLastD_eq_getLast?] at h
  unfold tkE
  rw [List.getD_eq_getElem?_getD, ← List.getLast?_eq_getElem?]
  exact h

theorem tk_last_kind {s : Str} {T : List token} (hT : LexOK s T) (hne : T ≠ []) :
    tkK T (T.length - 1) ≠ .tokConcat :=
  concatNextOK_getLast T hT.concat_next hne

theorem mode_false_at {s : Str} {T : List token} (hT : LexOK s T) {j : Nat}
    (hj : j < T.length)
    (h : ¬ (tkK T j = .tokChar ∨ tkK T j = .tokMinus ∨
      tkK T j = .tokPosixClass ∨ tkK T j = .tokRbracket ∨ tkK T j = .tokQ ∨
      tkK T j = .tokEscape ∨ tkK T j = .tokEscapeMeta ∨
      tkK T j = .tokEscapeOctal ∨ tkK T j = .tokEscapeUni ∨
      tkK T j = .tokEscapeUniFull ∨ tkK T j = .tokEscapeHex ∨
      tkK T j = .tokEscapeHexFull)) :
    modeAt T j = false := by
  have ha := allowedIn_at hT.kind_mode hj
  cases hm : modeAt T j
  · rfl
  · rw [hm] at ha
    unfold allowedIn at ha
    rw [if_pos rfl] at ha
    exact absurd ha h

theorem mode_true_at {s : Str} {T : List token} (hT : LexOK s T) {j : Nat}
    (hj : j < T.length)
    (h : tkK T j = .tokMinus ∨ tkK T j = .tokRbracket ∨
      tkK T j = .tokPosixClass) :
    modeAt T j = true := by
  have ha := allowedIn_at hT.kind_mode hj
  cases hm : modeAt T j
  · rw [hm] at ha
    unfold allowedIn at ha
    rw [if_neg (by simp)] at ha
    exfalso
    apply ha
    rcases h with h | h | h
    · exact Or.inl h
    · exact Or.inr (Or.inl h)
    · exact Or.inr (Or.inr (Or.inl h))
  · rfl

theorem modeAfter_neutral {m : Bool} {k : tokenKind}
    (h1 : k ≠ .tokLbracket) (h2 : k ≠ .tokLbracketCaret)
    (h3 : k ≠ .tokRbracket) : modeAfter m k = m := by
  unfold modeAfter
  rw [if_neg (by simp [h1, h2]), if_neg h3]


/-! ### The span-based surface writer and slice algebra -/

mutual

/-- Span-based surface writer: like `emitExpr`, but every leaf writes the
source slice at its position instead of its (possibly not yet set)
`Value`.  After `setValues` the two writers agree (proved below). -/
def emitSpan (s : Str) : Expr → Str
  | .mk op pos args _ =>
    match op with
    | .OpConcat => emitSpanList s args
    | .OpLiteral => emitSpanList s args
    | .OpAlt => emitSpanAlt s args
    | .OpCharRange =>
      match args with
      | [lo, hi] => emitSpan s lo ++ [45] ++ emitSpan s hi
      | _ => []
    | .OpCharClass => [91] ++ emitSpanList s args ++ [93]
    | .OpNegCharClass => [91, 94] ++ emitSpanList s args ++ [93]
    | .OpRepeat => emitSpanList s args
    | .OpPlus => emitSpanList s args ++ [43]
    | .OpStar => emitSpanList s args ++ [42]
    | .OpQuestion => emitSpanList s args ++ [63]
    | .OpNonGreedy => emitSpanList s args ++ [63]
    | .OpCapture => [40] ++ emitSpanList s args ++ [41]
    | .OpNamedCapture =>
      match args with
      | [body, name] => strBytes "(?P<" ++
          sliceStr s name.Pos.Begin name.Pos.End ++ [62] ++
          emitSpan s body ++ [41]
      | _ => []
    | .OpGroup => strBytes "(?:" ++ emitSpanList s args ++ [41]
    | .OpGroupWithFlags =>
      match args with
      | [body, flags] => [40] ++
          sliceStr s flags.Pos.Begin flags.Pos.End ++ [58] ++
          emitSpan s body ++ [41]
      | _ => []
    | .OpFlagOnlyGroup => [40] ++ emitSpanList s args ++ [41]
    | _ => sliceStr s pos.Begin pos.End

/-- Children written in order. -/
def emitSpanList (s : Str) : List Expr → Str
  | [] => []
  | e :: r => emitSpan s e ++ emitSpanList s r

/-- Alternation children written with `|` separators. -/
def emitSpanAlt (s : Str) : List Expr → Str
  | [] => []
  | [e] => emitSpan s e
  | e :: r => emitSpan s e ++ [124] ++ emitSpanAlt s r

end

theorem emitSpanList_append (s : Str) (l1 l2 : List Expr) :
    emitSpanList s (l1 ++ l2) = emitSpanList s l1 ++ emitSpanList s l2 := by
  induction l1 with
  | nil => rfl
  | cons e r ih =>
    simp only [List.cons_append, emitSpanList, List.append_assoc]
    rw [show r.append l2 = r ++ l2 from rfl, ih]

theorem emitSpanAlt_cons_cons (s : Str) (e x : Expr) (r : List Expr) :
    emitSpanAlt s (e :: x :: r) =
      emitSpan s e ++ [124] ++ emitSpanAlt s (x :: r) := rfl

theorem emitSpanAlt_snoc (s : Str) (l : List Expr) (r : Expr) (h : l ≠ []) :
    emitSpanAlt s (l ++ [r]) = emitSpanAlt s l ++ [124] ++ emitSpan s r := by
  induction l with
  | nil => exact absurd rfl h
  | cons e rest ih =>
    cases rest with
    | nil => rfl
    | cons x xs =>
      have h2 : (e :: x :: xs) ++ [r] = e :: (x :: (xs ++ [r])) := rfl
      rw [h2, emitSpanAlt_cons_cons]
      have h3 : x :: (xs ++ [r]) = (x :: xs) ++ [r] := rfl
      rw [h3, ih (List.cons_ne_nil x xs), emitSpanAlt_cons_cons]
      simp [List.append_assoc]

theorem u16_eq {n : Nat} (h : n ≤ 65535) : u16 n = n :=
  Nat.mod_eq_of_lt (by omega)

theorem u16sub_eq {a b : Nat} (hb : b ≤ a) (ha : a ≤ 65535) :
    u16sub a b = a - b := by
  unfold u16sub u16
  rw [Nat.mod_eq_of_lt (show a < 65536 by omega),
    Nat.mod_eq_of_lt (show b < 65536 by omega)]
  have he : a + 65536 - b = (a - b) + 65536 := by omega
  rw [he, Nat.add_mod_right]
  exact Nat.mod_eq_of_lt (by omega)

theorem slice_cons_byte {s : Str} {a b c : Nat} (hab : a < b)
    (hb : b ≤ s.length) (hc : byteAt s a = c) :
    sliceStr s a b = c :: sliceStr s (a + 1) b := by
  rw [← sliceStr_glue (show a ≤ a + 1 by omega) (show a + 1 ≤ b by omega)
    (show a + 1 ≤ s.length by omega)]
  rw [sliceStr_single hc (by omega)]
  rfl

theorem slice_snoc_byte {s : Str} {a b c : Nat} (hab : a < b)
    (hb : b ≤ s.length) (hc : byteAt s (b - 1) = c) :
    sliceStr s a b = sliceStr s a (b - 1) ++ [c] := by
  obtain ⟨m, rfl⟩ : ∃ m, b = m + 1 := ⟨b - 1, by omega⟩
  have hm : m + 1 - 1 = m := by omega
  rw [hm] at hc ⊢
  rw [← sliceStr_glue (show a ≤ m by omega) (show m ≤ m + 1 by omega)
    (show m ≤ s.length by omega)]
  rw [sliceStr_single hc (by omega)]

theorem allNodesList_append {P : Expr → Prop} {l1 l2 : List Expr} :
    allNodesList P (l1 ++ l2) ↔ allNodesList P l1 ∧ allNodesList P l2 := by
  induction l1 with
  | nil => simp [allNodesList]
  | cons e r ih =>
    simp only [List.cons_append, allNodesList, and_assoc]
    rw [show r.append l2 = r ++ l2 from rfl, ih]

theorem allNodesList_mem {P : Expr → Prop} {l : List Expr} :
    allNodesList P l ↔ ∀ e ∈ l, allNodes P e := by
  induction l with
  | nil => simp [allNodesList]
  | cons e r ih =>
    simp only [allNodesList, ih, List.mem_cons]
    constructor
    · rintro ⟨h1, h2⟩ x hx
      rcases hx with hx | hx
      · cases hx
        exact h1
      · exact h2 x hx
    · intro h
      exact ⟨h e (Or.inl rfl), fun x hx => h x (Or.inr hx)⟩


/-! ### The amended sequence-position invariant and char merging -/

theorem Position_ext {p q : Position} (h1 : p.Begin = q.Begin)
    (h2 : p.End = q.End) : p = q := by
  cases p
  cases q
  cases h1
  cases h2
  rfl

theorem getLastI_concat (l : List Expr) (x : Expr) :
    (l ++ [x]).getLastI = x := by
  rw [List.getLastI_eq_getLast?, List.getLast?_concat]

theorem getLastI_cons_cons (a b : Expr) (l : List Expr) :
    (a :: b :: l).getLastI = (b :: l).getLastI := by
  rw [List.getLastI_eq_getLast?, List.getLastI_eq_getLast?,
    List.getLast?_cons_cons]

theorem getLastI_singleton (a : Expr) : ([a] : List Expr).getLastI = a := rfl

/-- The per-node sequence-position invariant as the code actually
maintains it: `Literal`, nonempty `Concat` and `Alt` span from their
first child's begin to their last child's end, while the char-class
forms additionally cover the surrounding brackets. -/
def seqPosAmended (e : Expr) : Prop :=
  ((e.Op = .OpLiteral ∨ e.Op = .OpConcat ∨ e.Op = .OpAlt) → e.Args ≠ [] →
    e.Pos.Begin = (e.Args.headI).Pos.Begin ∧
    e.Pos.End = (e.Args.getLastI).Pos.End) ∧
  (e.Op = .OpCharClass → e.Args ≠ [] →
    e.Pos.Begin + 1 = (e.Args.headI).Pos.Begin ∧
    e.Pos.End = (e.Args.getLastI).Pos.End + 1) ∧
  (e.Op = .OpNegCharClass → e.Args ≠ [] →
    e.Pos.Begin + 2 = (e.Args.headI).Pos.Begin ∧
    e.Pos.End = (e.Args.getLastI).Pos.End + 1)

theorem runNode_begin (first : Expr) (acc : List Expr) :
    (runNode first acc).Pos.Begin = first.Pos.Begin := by
  unfold runNode
  cases h : acc.getLast? with
  | none => rfl
  | some last => rfl

theorem runNode_end (first : Expr) (acc : List Expr) :
    (runNode first acc).Pos.End = ((first :: acc).getLastI).Pos.End := by
  unfold runNode
  cases h : acc.getLast? with
  | none =>
    have hnil : acc = [] := by
      cases acc with
      | nil => rfl
      | cons a r =>
        rw [List.getLast?_eq_getLast (a :: r) (List.cons_ne_nil a r)] at h
        cases h
    subst hnil
    rfl
  | some last =>
    have hne : acc ≠ [] := by
      intro habs
      subst habs
      cases h
    have hl : (first :: acc).getLastI = last := by
      rw [List.getLastI_eq_getLast?, List.getLast?_cons, h]
      rfl
    rw [hl]
    rfl

theorem runNode_emitSpan (s : Str) (first : Expr) (acc : List Expr) :
    emitSpan s (runNode first acc) = emitSpan s first ++ emitSpanList s acc := by
  unfold runNode
  cases h : acc.getLast? with
  | none =>
    have hnil : acc = [] := by
      cases acc with
      | nil => rfl
      | cons a r =>
        rw [List.getLast?_eq_getLast (a :: r) (List.cons_ne_nil a r)] at h
        cases h
    subst hnil
    simp [emitSpanList]
  | some last =>
    show emitSpanList s (first :: acc) = _
    rw [emitSpanList]

theorem runNode_pred {first : Expr} {acc : List Expr}
    (h1 : allNodes seqPosAmended first) (h2 : allNodesList seqPosAmended acc) :
    allNodes seqPosAmended (runNode first acc) := by
  unfold runNode
  cases h : acc.getLast? with
  | none => exact h1
  | some last =>
    constructor
    · refine ⟨?_, ?_, ?_⟩
      · intro _ _
        constructor
        · show (combinePos first.Pos last.Pos).Begin = first.Pos.Begin
          rfl
        · show (combinePos first.Pos last.Pos).End =
            ((first :: acc).getLastI).Pos.End
          have hne : acc ≠ [] := by
            intro habs
            subst habs
            cases h
          have hl : (first :: acc).getLastI = last := by
            rw [List.getLastI_eq_getLast?, List.getLast?_cons, h]
            rfl
          rw [hl]
          rfl
      · intro habs
        cases habs
      · intro habs
        cases habs
    · exact ⟨h1, h2⟩


mutual

theorem mergeRun_ne_nil : ∀ (l : List Expr), l ≠ [] → mergeRun l ≠ []
  | [], h => absurd rfl h
  | e :: rest, _ => by
    rw [mergeRun]
    by_cases h : e.Op = .OpChar
    · rw [if_pos h]
      exact chompChars_ne_nil e [] rest
    · rw [if_neg h]
      exact List.cons_ne_nil _ _

theorem chompChars_ne_nil (first : Expr) : ∀ (acc l : List Expr),
    chompChars first acc l ≠ []
  | acc, [] => by
    rw [chompChars]
    exact List.cons_ne_nil _ _
  | acc, e :: rest => by
    rw [chompChars]
    by_cases h : e.Op = .OpChar
    · rw [if_pos h]
      exact chompChars_ne_nil first (acc ++ [e]) rest
    · rw [if_neg h]
      exact List.cons_ne_nil _ _

end

mutual

theorem mergeRun_emitSpan (s : Str) : ∀ (l : List Expr),
    emitSpanList s (mergeRun l) = emitSpanList s l
  | [] => rfl
  | e :: rest => by
    rw [mergeRun]
    by_cases h : e.Op = .OpChar
    · rw [if_pos h, chompChars_emitSpan s e [] rest]
      simp [emitSpanList]
    · rw [if_neg h, emitSpanList, emitSpanList, mergeRun_emitSpan s rest]

theorem chompChars_emitSpan (s : Str) (first : Expr) : ∀ (acc l : List Expr),
    emitSpanList s (chompChars first acc l) =
      emitSpan s first ++ emitSpanList s acc ++ emitSpanList s l
  | acc, [] => by
    rw [chompChars, emitSpanList, emitSpanList, runNode_emitSpan]
    simp [emitSpanList]
  | acc, e :: rest => by
    rw [chompChars]
    by_cases h : e.Op = .OpChar
    · rw [if_pos h, chompChars_emitSpan s first (acc ++ [e]) rest,
        emitSpanList_append]
      simp [emitSpanList]
    · rw [if_neg h, emitSpanList, emitSpanList, runNode_emitSpan,
        mergeRun_emitSpan s rest]
      simp [emitSpanList]

end

mutual

theorem mergeRun_head : ∀ (l : List Expr), l ≠ [] →
    ((mergeRun l).headI).Pos.Begin = (l.headI).Pos.Begin
  | [], h => absurd rfl h
  | e :: rest, _ => by
    rw [mergeRun]
    by_cases h : e.Op = .OpChar
    · rw [if_pos h]
      rw [chompChars_head e [] rest]
      rfl
    · rw [if_neg h]
      rfl

theorem chompChars_head (first : Expr) : ∀ (acc l : List Expr),
    ((chompChars first acc l).headI).Pos.Begin = first.Pos.Begin
  | acc, [] => by
    rw [chompChars]
    show (runNode first acc).Pos.Begin = first.Pos.Begin
    exact runNode_begin first acc
  | acc, e :: rest => by
    rw [chompChars]
    by_cases h : e.Op = .OpChar
    · rw [if_pos h]
      exact chompChars_head first (acc ++ [e]) rest
    · rw [if_neg h]
      show (runNode first acc).Pos.Begin = first.Pos.Begin
      exact runNode_begin first acc

end

theorem getLastI_append (l1 l2 : List Expr) (h : l2 ≠ []) :
    (l1 ++ l2).getLastI = l2.getLastI := by
  induction l1 with
  | nil => rfl
  | cons a l1 ih =>
    cases hc : l1 ++ l2 with
    | nil =>
      rcases List.append_eq_nil.mp hc with ⟨-, h2⟩
      exact absurd h2 h
    | cons b bs =>
      rw [List.cons_append, hc, getLastI_cons_cons, ← hc, ih]

mutual

theorem mergeRun_last : ∀ (l : List Expr), l ≠ [] →
    ((mergeRun l).getLastI).Pos.End = (l.getLastI).Pos.End
  | [], h => absurd rfl h
  | e :: rest, _ => by
    rw [mergeRun]
    by_cases h : e.Op = .OpChar
    · rw [if_pos h]
      rw [chompChars_last e [] rest]
      rfl
    · rw [if_neg h]
      cases hres : rest with
      | nil =>
        rw [mergeRun]
      | cons x xs =>
        have hrec := mergeRun_last (x :: xs) (List.cons_ne_nil x xs)
        have hne : mergeRun (x :: xs) ≠ [] :=
          mergeRun_ne_nil (x :: xs) (List.cons_ne_nil x xs)
        cases hmr : mergeRun (x :: xs) with
        | nil => exact absurd hmr hne
        | cons y ys =>
          rw [hmr] at hrec
          rw [getLastI_cons_cons, getLastI_cons_cons]
          exact hrec

theorem chompChars_last (first : Expr) : ∀ (acc l : List Expr),
    ((chompChars first acc l).getLastI).Pos.End =
      (((first :: acc) ++ l).getLastI).Pos.End
  | acc, [] => by
    rw [chompChars]
    show (runNode first acc).Pos.End = _
    rw [runNode_end]
    simp
  | acc, e :: rest => by
    rw [chompChars]
    by_cases h : e.Op = .OpChar
    · rw [if_pos h, chompChars_last first (acc ++ [e]) rest]
      have he : (first :: (acc ++ [e])) ++ rest = (first :: acc) ++ (e :: rest) := by
        simp
      rw [he]
    · rw [if_neg h]
      cases hres : rest with
      | nil =>
        rw [mergeRun]
        rw [getLastI_cons_cons, getLastI_singleton]
        rw [getLastI_append (first :: acc) [e] (List.cons_ne_nil e []),
          getLastI_singleton]
      | cons x xs =>
        have hrec := mergeRun_last (x :: xs) (List.cons_ne_nil x xs)
        have hne : mergeRun (x :: xs) ≠ [] :=
          mergeRun_ne_nil (x :: xs) (List.cons_ne_nil x xs)
        cases hmr : mergeRun (x :: xs) with
        | nil => exact absurd hmr hne
        | cons y ys =>
          rw [hmr] at hrec
          rw [getLastI_cons_cons, getLastI_cons_cons,
            getLastI_append (first :: acc) (e :: x :: xs)
              (List.cons_ne_nil e (x :: xs)),
            getLastI_cons_cons]
          exact hrec

end

mutual

theorem mergeRun_pred : ∀ (l : List Expr), allNodesList seqPosAmended l →
    allNodesList seqPosAmended (mergeRun l)
  | [], h => h
  | e :: rest, h => by
    obtain ⟨he, hr⟩ := h
    rw [mergeRun]
    by_cases hc : e.Op = .OpChar
    · rw [if_pos hc]
      exact chompChars_pred e [] rest he trivial hr
    · rw [if_neg hc]
      exact ⟨he, mergeRun_pred rest hr⟩

theorem chompChars_pred (first : Expr) : ∀ (acc l : List Expr),
    allNodes seqPosAmended first → allNodesList seqPosAmended acc →
    allNodesList seqPosAmended l →
    allNodesList seqPosAmended (chompChars first acc l)
  | acc, [], h1, h2, _ => by
    rw [chompChars]
    exact ⟨runNode_pred h1 h2, trivial⟩
  | acc, e :: rest, h1, h2, h3 => by
    obtain ⟨he, hr⟩ := h3
    rw [chompChars]
    by_cases hc : e.Op = .OpChar
    · rw [if_pos hc]
      exact chompChars_pred first (acc ++ [e]) rest h1
        (allNodesList_append.mpr ⟨h2, he, trivial⟩) hr
    · rw [if_neg hc]
      exact ⟨runNode_pred h1 h2, he, mergeRun_pred rest hr⟩

end


mutual

theorem mergeChars_keep : ∀ (e : Expr), allNodes seqPosAmended e →
    (mergeChars e).Pos = e.Pos ∧ allNodes seqPosAmended (mergeChars e) ∧
    ∀ s, emitSpan s (mergeChars e) = emitSpan s e
  | .mk op pos args v, h => by
    obtain ⟨hroot, hargs⟩ := h
    have hlist := mergeList_keep args hargs
    obtain ⟨hlpred, hllen, hlemit, hlalt, hlpos⟩ := hlist
    by_cases hg : op = .OpConcat ∧ 2 ≤ args.length
    · obtain ⟨hop, hlen⟩ := hg
      subst hop
      rw [mergeChars, if_pos ⟨rfl, hlen⟩]
      have hane : args ≠ [] := by
        intro habs
        rw [habs] at hlen
        simp at hlen
      have hmne := mergeRun_ne_nil args hane
      have hmpred := mergeRun_pred args hargs
      have hmhead := mergeRun_head args hane
      have hmlast := mergeRun_last args hane
      have h2 : pos.Begin = (args.headI).Pos.Begin ∧
          pos.End = (args.getLastI).Pos.End :=
        hroot.1 (Or.inr (Or.inl rfl)) hane
      cases hmr : mergeRun args with
      | nil => exact absurd hmr hmne
      | cons x xs =>
        rw [hmr] at hmpred hmhead hmlast
        cases xs with
        | nil =>
          have hpos1 : x.Pos.Begin = pos.Begin := by
            have h1 : x.Pos.Begin = (args.headI).Pos.Begin := hmhead
            omega
          have hpos2 : x.Pos.End = pos.End := by
            have h1 : x.Pos.End = (args.getLastI).Pos.End := hmlast
            omega
          refine ⟨?_, ?_, ?_⟩
          · show x.Pos = (Expr.mk .OpConcat pos args v).Pos
            exact Position_ext hpos1 hpos2
          · exact hmpred.1
          · intro s
            show emitSpan s x = emitSpan s (Expr.mk .OpConcat pos args v)
            have h3 : emitSpan s (Expr.mk .OpConcat pos args v) =
                emitSpanList s args := rfl
            have h4 : emitSpanList s (mergeRun args) = emitSpanList s args :=
              mergeRun_emitSpan s args
            rw [hmr] at h4
            rw [h3, ← h4]
            show emitSpan s x = emitSpan s x ++ emitSpanList s ([] : List Expr)
            simp [emitSpanList]
        | cons y ys =>
          refine ⟨rfl, ?_, ?_⟩
          · refine ⟨⟨?_, ?_, ?_⟩, hmpred⟩
            · intro _ _
              constructor
              · show pos.Begin = ((x :: y :: ys).headI).Pos.Begin
                have h1 : ((x :: y :: ys).headI).Pos.Begin =
                    (args.headI).Pos.Begin := hmhead
                omega
              · show pos.End = ((x :: y :: ys).getLastI).Pos.End
                have h1 : ((x :: y :: ys).getLastI).Pos.End =
                    (args.getLastI).Pos.End := hmlast
                omega
            · intro habs
              cases habs
            · intro habs
              cases habs
          · intro s
            show emitSpanList s (x :: y :: ys) = emitSpanList s args
            have h4 : emitSpanList s (mergeRun args) = emitSpanList s args :=
              mergeRun_emitSpan s args
            rw [hmr] at h4
            exact h4
    · rw [mergeChars, if_neg hg]
      refine ⟨rfl, ?_, ?_⟩
      · refine ⟨⟨?_, ?_, ?_⟩, hlpred⟩
        · intro hop hne
          have hane : args ≠ [] := by
            intro habs
            rw [habs] at hne
            exact hne rfl
          obtain ⟨hh, hl⟩ := hlpos hane
          have h2 : pos.Begin = (args.headI).Pos.Begin ∧
              pos.End = (args.getLastI).Pos.End := hroot.1 hop hane
          constructor
          · show pos.Begin = ((mergeList args).headI).Pos.Begin
            rw [hh]
            exact h2.1
          · show pos.End = ((mergeList args).getLastI).Pos.End
            rw [hl]
            exact h2.2
        · intro hop hne
          have hane : args ≠ [] := by
            intro habs
            rw [habs] at hne
            exact hne rfl
          obtain ⟨hh, hl⟩ := hlpos hane
          have h2 : pos.Begin + 1 = (args.headI).Pos.Begin ∧
              pos.End = (args.getLastI).Pos.End + 1 := hroot.2.1 hop hane
          constructor
          · show pos.Begin + 1 = ((mergeList args).headI).Pos.Begin
            rw [hh]
            exact h2.1
          · show pos.End = ((mergeList args).getLastI).Pos.End + 1
            rw [hl]
            exact h2.2
        · intro hop hne
          have hane : args ≠ [] := by
            intro habs
            rw [habs] at hne
            exact hne rfl
          obtain ⟨hh, hl⟩ := hlpos hane
          have h2 : pos.Begin + 2 = (args.headI).Pos.Begin ∧
              pos.End = (args.getLastI).Pos.End + 1 := hroot.2.2 hop hane
          constructor
          · show pos.Begin + 2 = ((mergeList args).headI).Pos.Begin
            rw [hh]
            exact h2.1
          · show pos.End = ((mergeList args).getLastI).Pos.End + 1
            rw [hl]
            exact h2.2
      · intro s
        cases op with
        | OpNone =>
          rfl
        | OpCaret =>
          rfl
        | OpDollar =>
          rfl
        | OpDot =>
          rfl
        | OpChar =>
          rfl
        | OpLiteral =>
          show emitSpanList s (mergeList args) = _
          rw [hlemit s]
          rfl
        | OpString =>
          rfl
        | OpQuote =>
          rfl
        | OpEscape =>
          rfl
        | OpEscapeMeta =>
          rfl
        | OpEscapeOctal =>
          rfl
        | OpEscapeHex =>
          rfl
        | OpEscapeHexFull =>
          rfl
        | OpEscapeUni =>
          rfl
        | OpEscapeUniFull =>
          rfl
        | OpCharClass =>
          show [91] ++ emitSpanList s (mergeList args) ++ [93] = _
          rw [hlemit s]
          rfl
        | OpNegCharClass =>
          show [91, 94] ++ emitSpanList s (mergeList args) ++ [93] = _
          rw [hlemit s]
          rfl
        | OpCharRange =>
          cases args with
          | nil => rfl
          | cons a r =>
            cases r with
            | nil => rfl
            | cons b r2 =>
              cases r2 with
              | nil =>
                obtain ⟨ha, hb, -⟩ := hargs
                have hka := mergeChars_keep a ha
                have hkb := mergeChars_keep b hb
                show emitSpan s (mergeChars a) ++ [45] ++
              emitSpan s (mergeChars b) = emitSpan s a ++ [45] ++ emitSpan s b
                rw [hka.2.2 s, hkb.2.2 s]
              | cons c r3 => rfl
        | OpPosixClass =>
          rfl
        | OpRepeat =>
          show emitSpanList s (mergeList args) = _
          rw [hlemit s]
          rfl
        | OpCapture =>
          show [40] ++ emitSpanList s (mergeList args) ++ [41] = _
          rw [hlemit s]
          rfl
        | OpNamedCapture =>
          cases args with
          | nil => rfl
          | cons a r =>
            cases r with
            | nil => rfl
            | cons b r2 =>
              cases r2 with
              | nil =>
                obtain ⟨ha, hb, -⟩ := hargs
                have hka := mergeChars_keep a ha
                have hkb := mergeChars_keep b hb
                show strBytes "(?P<" ++
              sliceStr s ((mergeChars b).Pos).Begin ((mergeChars b).Pos).End ++
              [62] ++ emitSpan s (mergeChars a) ++ [41] = strBytes "(?P<" ++ sliceStr s b.Pos.Begin b.Pos.End ++ [62] ++
              emitSpan s a ++ [41]
                rw [hka.2.2 s, hkb.1]
              | cons c r3 => rfl
        | OpGroup =>
          show strBytes "(?:" ++ emitSpanList s (mergeList args) ++ [41] = _
          rw [hlemit s]
          rfl
        | OpGroupWithFlags =>
          cases args with
          | nil => rfl
          | cons a r =>
            cases r with
            | nil => rfl
            | cons b r2 =>
              cases r2 with
              | nil =>
                obtain ⟨ha, hb, -⟩ := hargs
                have hka := mergeChars_keep a ha
                have hkb := mergeChars_keep b hb
                show [40] ++
              sliceStr s ((mergeChars b).Pos).Begin ((mergeChars b).Pos).End ++
              [58] ++ emitSpan s (mergeChars a) ++ [41] = [40] ++ sliceStr s b.Pos.Begin b.Pos.End ++ [58] ++
              emitSpan s a ++ [41]
                rw [hka.2.2 s, hkb.1]
              | cons c r3 => rfl
        | OpFlagOnlyGroup =>
          show [40] ++ emitSpanList s (mergeList args) ++ [41] = _
          rw [hlemit s]
          rfl
        | OpConcat =>
          show emitSpanList s (mergeList args) = _
          rw [hlemit s]
          rfl
        | OpAlt =>
          show emitSpanAlt s (mergeList args) = _
          rw [hlalt s]
          rfl
        | OpStar =>
          show emitSpanList s (mergeList args) ++ [42] = _
          rw [hlemit s]
          rfl
        | OpPlus =>
          show emitSpanList s (mergeList args) ++ [43] = _
          rw [hlemit s]
          rfl
        | OpQuestion =>
          show emitSpanList s (mergeList args) ++ [63] = _
          rw [hlemit s]
          rfl
        | OpNonGreedy =>
          show emitSpanList s (mergeList args) ++ [63] = _
          rw [hlemit s]
          rfl

theorem mergeList_keep : ∀ (l : List Expr), allNodesList seqPosAmended l →
    allNodesList seqPosAmended (mergeList l) ∧
    (mergeList l).length = l.length ∧
    (∀ s, emitSpanList s (mergeList l) = emitSpanList s l) ∧
    (∀ s, emitSpanAlt s (mergeList l) = emitSpanAlt s l) ∧
    (l ≠ [] → ((mergeList l).headI).Pos = (l.headI).Pos ∧
      ((mergeList l).getLastI).Pos = (l.getLastI).Pos)
  | [], _ => by
    refine ⟨trivial, rfl, fun s => rfl, fun s => rfl, ?_⟩
    intro habs
    exact absurd rfl habs
  | e :: rest, h => by
    obtain ⟨he, hr⟩ := h
    have hek := mergeChars_keep e he
    have hrk := mergeList_keep rest hr
    rw [mergeList]
    refine ⟨⟨hek.2.1, hrk.1⟩, ?_, ?_, ?_, ?_⟩
    · show (mergeChars e :: mergeList rest).length = (e :: rest).length
      simp only [List.length_cons, hrk.2.1]
    · intro s
      show emitSpan s (mergeChars e) ++ emitSpanList s (mergeList rest) =
        emitSpan s e ++ emitSpanList s rest
      rw [hek.2.2 s, hrk.2.2.1 s]
    · intro s
      cases rest with
      | nil =>
        show emitSpan s (mergeChars e) = emitSpan s e
        exact hek.2.2 s
      | cons b br =>
        show emitSpanAlt s (mergeChars e :: mergeChars b :: mergeList br) =
          emitSpanAlt s (e :: b :: br)
        rw [emitSpanAlt_cons_cons, emitSpanAlt_cons_cons]
        rw [hek.2.2 s]
        have h5 := hrk.2.2.2.1 s
        rw [show (mergeChars b :: mergeList br) = mergeList (b :: br)
          from rfl, h5]
    · intro _
      constructor
      · show (mergeChars e).Pos = e.Pos
        exact hek.1
      · cases rest with
        | nil =>
          show (mergeChars e).Pos = e.Pos
          exact hek.1
        | cons b br =>
          show ((mergeChars e :: mergeChars b :: mergeList br).getLastI).Pos =
            ((e :: b :: br).getLastI).Pos
          rw [getLastI_cons_cons, getLastI_cons_cons]
          have h6 := (hrk.2.2.2.2 (List.cons_ne_nil b br)).2
          rw [show (mergeChars b :: mergeList br) = mergeList (b :: br)
            from rfl, h6]

end


theorem setValuesList_nil_inv {s : Str} {l2 : List Expr}
    (h : setValuesList s [] = .ok l2) : l2 = [] := by
  rw [setValuesList] at h
  cases h
  rfl

theorem setValuesList_cons_inv {s : Str} {a : Expr} {r : List Expr}
    {l2 : List Expr} (h : setValuesList s (a :: r) = .ok l2) :
    ∃ a2 r2, setValues s a = .ok a2 ∧ setValuesList s r = .ok r2 ∧
      l2 = a2 :: r2 := by
  rw [setValuesList] at h
  cases ha : setValues s a with
  | error f =>
    rw [ha] at h
    cases hr : setValuesList s r <;> rw [hr] at h <;> cases h
  | ok a2 =>
    rw [ha] at h
    cases hr : setValuesList s r with
    | error f =>
      rw [hr] at h
      cases h
    | ok r2 =>
      rw [hr] at h
      cases h
      exact ⟨a2, r2, rfl, rfl, rfl⟩

mutual

theorem setValues_keep (s : Str) : ∀ (e e2 : Expr), setValues s e = .ok e2 →
    e2.Pos = e.Pos ∧ e2.Op = e.Op ∧
    e2.Value = sliceStr s e.Pos.Begin e.Pos.End ∧
    (allNodes seqPosAmended e → allNodes seqPosAmended e2) ∧
    emitExpr e2 = emitSpan s e
  | .mk op pos args v, e2, h => by
    simp only [setValues] at h
    cases hl : setValuesList s args with
    | error f =>
      simp only [hl] at h
      cases h
    | ok args2 =>
      simp only [hl] at h
      by_cases hb : pos.Begin ≤ pos.End ∧ pos.End ≤ s.length
      · rw [if_pos hb] at h
        cases h
        have hlk := setValuesList_keep s args args2 hl
        obtain ⟨hlpred, hlemit, hlalt, hlnil, hlne⟩ := hlk
        refine ⟨rfl, rfl, rfl, ?_, ?_⟩
        · intro hpred
          obtain ⟨hroot, hargs⟩ := hpred
          refine ⟨⟨?_, ?_, ?_⟩, hlpred hargs⟩
          · intro hop hne
            have hane : args ≠ [] := by
              intro habs
              rw [hlnil habs] at hne
              exact hne rfl
            obtain ⟨-, hh, hl2⟩ := hlne hane
            have h2 : pos.Begin = (args.headI).Pos.Begin ∧
                pos.End = (args.getLastI).Pos.End := hroot.1 hop hane
            constructor
            · show pos.Begin = (args2.headI).Pos.Begin
              rw [hh]
              exact h2.1
            · show pos.End = (args2.getLastI).Pos.End
              rw [hl2]
              exact h2.2
          · intro hop hne
            have hane : args ≠ [] := by
              intro habs
              rw [hlnil habs] at hne
              exact hne rfl
            obtain ⟨-, hh, hl2⟩ := hlne hane
            have h2 : pos.Begin + 1 = (args.headI).Pos.Begin ∧
                pos.End = (args.getLastI).Pos.End + 1 := hroot.2.1 hop hane
            constructor
            · show pos.Begin + 1 = (args2.headI).Pos.Begin
              rw [hh]
              exact h2.1
            · show pos.End = (args2.getLastI).Pos.End + 1
              rw [hl2]
              exact h2.2
          · intro hop hne
            have hane : args ≠ [] := by
              intro habs
              rw [hlnil habs] at hne
              exact hne rfl
            obtain ⟨-, hh, hl2⟩ := hlne hane
            have h2 : pos.Begin + 2 = (args.headI).Pos.Begin ∧
                pos.End = (args.getLastI).Pos.End + 1 := hroot.2.2 hop hane
            constructor
            · show pos.Begin + 2 = (args2.headI).Pos.Begin
              rw [hh]
              exact h2.1
            · show pos.End = (args2.getLastI).Pos.End + 1
              rw [hl2]
              exact h2.2
        · cases op with
          | OpNone => rfl
          | OpCaret => rfl
          | OpDollar => rfl
          | OpDot => rfl
          | OpChar => rfl
          | OpLiteral =>
            show emitList args2 = emitSpanList s args
            exact hlemit
          | OpString => rfl
          | OpQuote => rfl
          | OpEscape => rfl
          | OpEscapeMeta => rfl
          | OpEscapeOctal => rfl
          | OpEscapeHex => rfl
          | OpEscapeHexFull => rfl
          | OpEscapeUni => rfl
          | OpEscapeUniFull => rfl
          | OpCharClass =>
            show [91] ++ emitList args2 ++ [93] = _
            rw [hlemit]
            rfl
          | OpNegCharClass =>
            show [91, 94] ++ emitList args2 ++ [93] = _
            rw [hlemit]
            rfl
          | OpCharRange =>
            cases args with
            | nil =>
              rw [setValuesList_nil_inv hl]
              rfl
            | cons a r =>
              obtain ⟨a2, r2, ha, hr, hcons⟩ := setValuesList_cons_inv hl
              subst hcons
              cases r with
              | nil =>
                rw [setValuesList_nil_inv hr]
                rfl
              | cons b r3 =>
                obtain ⟨b2, r4, hbv, hr2, hcons2⟩ := setValuesList_cons_inv hr
                subst hcons2
                cases r3 with
                | nil =>
                  rw [setValuesList_nil_inv hr2]
                  have hka := setValues_keep s a a2 ha
                  have hkb := setValues_keep s b b2 hbv
                  show emitExpr a2 ++ [45] ++ emitExpr b2 =
                    emitSpan s a ++ [45] ++ emitSpan s b
                  rw [hka.2.2.2.2, hkb.2.2.2.2]
                | cons c r5 =>
                  obtain ⟨c2, r6, hcv, hr3, hcons3⟩ := setValuesList_cons_inv hr2
                  subst hcons3
                  rfl
          | OpPosixClass => rfl
          | OpRepeat =>
            show emitList args2 = emitSpanList s args
            exact hlemit
          | OpCapture =>
            show [40] ++ emitList args2 ++ [41] = _
            rw [hlemit]
            rfl
          | OpNamedCapture =>
            cases args with
            | nil =>
              rw [setValuesList_nil_inv hl]
              rfl
            | cons a r =>
              obtain ⟨a2, r2, ha, hr, hcons⟩ := setValuesList_cons_inv hl
              subst hcons
              cases r with
              | nil =>
                rw [setValuesList_nil_inv hr]
                rfl
              | cons b r3 =>
                obtain ⟨b2, r4, hbv, hr2, hcons2⟩ := setValuesList_cons_inv hr
                subst hcons2
                cases r3 with
                | nil =>
                  rw [setValuesList_nil_inv hr2]
                  have hka := setValues_keep s a a2 ha
                  have hkb := setValues_keep s b b2 hbv
                  show strBytes "(?P<" ++ b2.Value ++ [62] ++
                      emitExpr a2 ++ [41] = _
                  rw [hka.2.2.2.2, hkb.2.2.1]
                  rfl
                | cons c r5 =>
                  obtain ⟨c2, r6, hcv, hr3, hcons3⟩ := setValuesList_cons_inv hr2
                  subst hcons3
                  rfl
          | OpGroup =>
            show strBytes "(?:" ++ emitList args2 ++ [41] = _
            rw [hlemit]
            rfl
          | OpGroupWithFlags =>
            cases args with
            | nil =>
              rw [setValuesList_nil_inv hl]
              rfl
            | cons a r =>
              obtain ⟨a2, r2, ha, hr, hcons⟩ := setValuesList_cons_inv hl
              subst hcons
              cases r with
              | nil =>
                rw [setValuesList_nil_inv hr]
                rfl
              | cons b r3 =>
                obtain ⟨b2, r4, hbv, hr2, hcons2⟩ := setValuesList_cons_inv hr
                subst hcons2
                cases r3 with
                | nil =>
                  rw [setValuesList_nil_inv hr2]
                  have hka := setValues_keep s a a2 ha
                  have hkb := setValues_keep s b b2 hbv
                  show [40] ++ b2.Value ++ [58] ++ emitExpr a2 ++ [41] = _
                  rw [hka.2.2.2.2, hkb.2.2.1]
                  rfl
                | cons c r5 =>
                  obtain ⟨c2, r6, hcv, hr3, hcons3⟩ := setValuesList_cons_inv hr2
                  subst hcons3
                  rfl
          | OpFlagOnlyGroup =>
            show [40] ++ emitList args2 ++ [41] = _
            rw [hlemit]
            rfl
          | OpConcat =>
            show emitList args2 = emitSpanList s args
            exact hlemit
          | OpAlt =>
            show emitAlt args2 = emitSpanAlt s args
            exact hlalt
          | OpStar =>
            show emitList args2 ++ [42] = _
            rw [hlemit]
            rfl
          | OpPlus =>
            show emitList args2 ++ [43] = _
            rw [hlemit]
            rfl
          | OpQuestion =>
            show emitList args2 ++ [63] = _
            rw [hlemit]
            rfl
          | OpNonGreedy =>
            show emitList args2 ++ [63] = _
            rw [hlemit]
            rfl
      · rw [if_neg hb] at h
        cases h

theorem setValuesList_keep (s : Str) : ∀ (l l2 : List Expr),
    setValuesList s l = .ok l2 →
    (allNodesList seqPosAmended l → allNodesList seqPosAmended l2) ∧
    emitList l2 = emitSpanList s l ∧ emitAlt l2 = emitSpanAlt s l ∧
    (l = [] → l2 = []) ∧
    (l ≠ [] → l2 ≠ [] ∧ (l2.headI).Pos = (l.headI).Pos ∧
      (l2.getLastI).Pos = (l.getLastI).Pos)
  | [], l2, h => by
    rw [setValuesList_nil_inv h]
    exact ⟨fun _ => trivial, rfl, rfl, fun _ => rfl,
      fun habs => absurd rfl habs⟩
  | a :: r, l2, h => by
    obtain ⟨a2, r2, ha, hr, hcons⟩ := setValuesList_cons_inv h
    subst hcons
    have hka := setValues_keep s a a2 ha
    have hkr := setValuesList_keep s r r2 hr
    obtain ⟨hrpred, hremit, hralt, hrnil, hrne⟩ := hkr
    refine ⟨?_, ?_, ?_, ?_, ?_⟩
    · intro hpred
      exact ⟨hka.2.2.2.1 hpred.1, hrpred hpred.2⟩
    · show emitExpr a2 ++ emitList r2 = emitSpan s a ++ emitSpanList s r
      rw [hka.2.2.2.2, hremit]
    · cases r with
      | nil =>
        rw [hrnil rfl]
        show emitExpr a2 = emitSpan s a
        exact hka.2.2.2.2
      | cons b r3 =>
        obtain ⟨b2, r4, hbv, hr2, hcons2⟩ := setValuesList_cons_inv hr
        subst hcons2
        show emitAlt (a2 :: b2 :: r4) = emitSpanAlt s (a :: b :: r3)
        have e1 : emitAlt (a2 :: b2 :: r4) =
            emitExpr a2 ++ [124] ++ emitAlt (b2 :: r4) := rfl
        rw [e1, emitSpanAlt_cons_cons, hka.2.2.2.2, hralt]
    · intro habs
      cases habs
    · intro _
      refine ⟨List.cons_ne_nil a2 r2, ?_, ?_⟩
      · show a2.Pos = a.Pos
        exact hka.1
      · cases r with
        | nil =>
          rw [hrnil rfl]
          show a2.Pos = a.Pos
          exact hka.1
        | cons b r3 =>
          obtain ⟨b2, r4, hbv, hr2, hcons2⟩ := setValuesList_cons_inv hr
          subst hcons2
          rw [getLastI_cons_cons, getLastI_cons_cons]
          exact (hrne (List.cons_ne_nil b r3)).2.2

end


/-! ### Helpers for the parser emission induction -/

theorem peekToken_lt {st : PState} (h : st.tpos < st.tokens.length) :
    peekToken st = st.tokens.getD st.tpos noneToken := by
  rw [peekToken, if_pos h]

theorem headI_append_left (l1 l2 : List Expr) (h : l1 ≠ []) :
    (l1 ++ l2).headI = l1.headI := by
  cases l1 with
  | nil => exact absurd rfl h
  | cons a r => rfl

theorem tk_eta (T : List token) (j : Nat) :
    T.getD j noneToken = ⟨tkK T j, ⟨tkB T j, tkE T j⟩⟩ := by
  show T.getD j noneToken = ⟨(T.getD j noneToken).kind,
    ⟨(T.getD j noneToken).pos.Begin, (T.getD j noneToken).pos.End⟩⟩
  cases h : T.getD j noneToken with
  | mk k p =>
    cases p
    rfl

theorem seqPosAmended_of_ops {e : Expr} (h1 : e.Op ≠ .OpLiteral)
    (h2 : e.Op ≠ .OpConcat) (h3 : e.Op ≠ .OpAlt) (h4 : e.Op ≠ .OpCharClass)
    (h5 : e.Op ≠ .OpNegCharClass) : seqPosAmended e := by
  refine ⟨?_, ?_, ?_⟩
  · intro hop _
    rcases hop with h | h | h
    · exact absurd h h1
    · exact absurd h h2
    · exact absurd h h3
  · intro hop _
    exact absurd hop h4
  · intro hop _
    exact absurd hop h5

theorem altJoin_pos_end (left right : Expr) :
    (altJoin left right).Pos.End = right.Pos.End := by
  unfold altJoin
  by_cases h : left.Op = .OpAlt
  · rw [if_pos h]
    rfl
  · rw [if_neg h]
    rfl

theorem altJoin_emitSpan (s : Str) (left right : Expr)
    (hsh : left.Op = .OpAlt → left.Args ≠ []) :
    emitSpan s (altJoin left right) =
      emitSpan s left ++ [124] ++ emitSpan s right := by
  unfold altJoin
  by_cases h : left.Op = .OpAlt
  · rw [if_pos h]
    cases left with
    | mk op pos args v =>
      have hop : op = .OpAlt := h
      subst hop
      show emitSpanAlt s (args ++ [right]) = _
      rw [emitSpanAlt_snoc s args right (hsh h)]
      rfl
  · rw [if_neg h]
    show emitSpanAlt s [left, right] = _
    rfl

theorem altJoin_shape (left right : Expr) :
    (altJoin left right).Op = .OpAlt ∧ (altJoin left right).Args ≠ [] := by
  unfold altJoin
  by_cases h : left.Op = .OpAlt
  · rw [if_pos h]
    refine ⟨rfl, ?_⟩
    show left.Args ++ [right] ≠ []
    simp
  · rw [if_neg h]
    refine ⟨rfl, ?_⟩
    show ([left, right] : List Expr) ≠ []
    simp

theorem altJoin_pred {left right : Expr}
    (hl : allNodes seqPosAmended left) (hr : allNodes seqPosAmended right)
    (hsh : left.Op = .OpAlt → left.Args ≠ [])
    (hbegin : ∀ hop : left.Op = .OpAlt, True) :
    allNodes seqPosAmended (altJoin left right) := by
  unfold altJoin
  by_cases h : left.Op = .OpAlt
  · rw [if_pos h]
    cases left with
    | mk op pos args v =>
      have hop : op = .OpAlt := h
      subst hop
      obtain ⟨hroot, hargs⟩ := hl
      have hane : args ≠ [] := hsh h
      have h2 : pos.Begin = (args.headI).Pos.Begin ∧
          pos.End = (args.getLastI).Pos.End :=
        hroot.1 (Or.inr (Or.inr rfl)) hane
      refine ⟨⟨?_, ?_, ?_⟩, ?_⟩
      · intro _ _
        constructor
        · show pos.Begin = ((args ++ [right]).headI).Pos.Begin
          rw [headI_append_left args [right] hane]
          exact h2.1
        · show right.Pos.End = ((args ++ [right]).getLastI).Pos.End
          rw [getLastI_concat]
      · intro habs
        cases habs
      · intro habs
        cases habs
      · exact allNodesList_append.mpr ⟨hargs, hr, trivial⟩
  · rw [if_neg h]
    refine ⟨⟨?_, ?_, ?_⟩, hl, hr, trivial⟩
    · intro _ _
      exact ⟨rfl, rfl⟩
    · intro habs
      cases habs
    · intro habs
      cases habs

theorem concatJoin_pos_end (left right : Expr) :
    (concatJoin left right).Pos.End = right.Pos.End := by
  unfold concatJoin
  by_cases h : left.Op = .OpConcat
  · rw [if_pos h]
    rfl
  · rw [if_neg h]
    rfl

theorem concatJoin_emitSpan (s : Str) (left right : Expr) :
    emitSpan s (concatJoin left right) = emitSpan s left ++ emitSpan s right := by
  unfold concatJoin
  by_cases h : left.Op = .OpConcat
  · rw [if_pos h]
    cases left with
    | mk op pos args v =>
      have hop : op = .OpConcat := h
      subst hop
      show emitSpanList s (args ++ [right]) = _
      rw [emitSpanList_append]
      show emitSpanList s args ++ (emitSpan s right ++ ([] : Str)) = _
      rw [List.append_nil]
      rfl
  · rw [if_neg h]
    show emitSpan s left ++ (emitSpan s right ++ ([] : Str)) = _
    rw [List.append_nil]

theorem concatJoin_shape (left right : Expr) :
    (concatJoin left right).Op = .OpConcat ∧ (concatJoin left right).Args ≠ [] := by
  unfold concatJoin
  by_cases h : left.Op = .OpConcat
  · rw [if_pos h]
    refine ⟨rfl, ?_⟩
    show left.Args ++ [right] ≠ []
    simp
  · rw [if_neg h]
    refine ⟨rfl, ?_⟩
    show ([left, right] : List Expr) ≠ []
    simp

theorem concatJoin_pred {left right : Expr}
    (hl : allNodes seqPosAmended left) (hr : allNodes seqPosAmended right)
    (hsh : left.Op = .OpConcat → left.Args ≠ []) :
    allNodes seqPosAmended (concatJoin left right) := by
  unfold concatJoin
  by_cases h : left.Op = .OpConcat
  · rw [if_pos h]
    cases left with
    | mk op pos args v =>
      have hop : op = .OpConcat := h
      subst hop
      obtain ⟨hroot, hargs⟩ := hl
      have hane : args ≠ [] := hsh h
      have h2 : pos.Begin = (args.headI).Pos.Begin ∧
          pos.End = (args.getLastI).Pos.End :=
        hroot.1 (Or.inr (Or.inl rfl)) hane
      refine ⟨⟨?_, ?_, ?_⟩, ?_⟩
      · intro _ _
        constructor
        · show pos.Begin = ((args ++ [right]).headI).Pos.Begin
          rw [headI_append_left args [right] hane]
          exact h2.1
        · show right.Pos.End = ((args ++ [right]).getLastI).Pos.End
          rw [getLastI_concat]
      · intro habs
        cases habs
      · intro habs
        cases habs
      · exact allNodesList_append.mpr ⟨hargs, hr, trivial⟩
  · rw [if_neg h]
    refine ⟨⟨?_, ?_, ?_⟩, hl, hr, trivial⟩
    · intro _ _
      exact ⟨rfl, rfl⟩
    · intro habs
      cases habs
    · intro habs
      cases habs

theorem expectKind_ok_detail {T : List token} {k : tokenKind} {st : PState}
    {rp : Position} {st2 : PState} (hto : st.tokens = T)
    (hk : k ≠ .tokNone) (h : expectKind k st = .ok (rp, st2)) :
    st.tpos < T.length ∧ st2.tpos = st.tpos + 1 ∧
    tkK T st.tpos = k ∧ rp = (T.getD st.tpos noneToken).pos ∧
    st2.tokens = T ∧ st2.charClass = st.charClass := by
  rw [expectKind] at h
  by_cases htp : st.tpos < st.tokens.length
  · rw [nextToken_lt htp] at h
    by_cases hkk : (st.tokens.getD st.tpos noneToken).kind = k
    · rw [if_pos hkk] at h
      cases h
      subst hto
      exact ⟨htp, rfl, hkk, rfl, rfl, rfl⟩
    · rw [if_neg hkk] at h
      cases h
  · rw [nextToken_ge htp] at h
    by_cases hkk : (noneToken).kind = k
    · exact absurd hkk.symm hk
    · rw [if_neg hkk] at h
      cases h

/-- The success payload of the emission induction: the mode at the new
cursor equals the reference mode; outside a char class the produced
expression emits exactly the consumed source span; inside, the buffer
delta and the expression emit it jointly; and the structural facts the
joins rely on hold. -/
def emitPost (s : Str) (T : List token) (m0 : Bool) (cc0 : List Expr)
    (p : Nat) (prec : Nat) (e : Expr) (st2 : PState) : Prop :=
  modeAt T st2.tpos = m0 ∧
  (m0 = false → emitSpan s e = sliceStr s p (tkE T (st2.tpos - 1))) ∧
  (m0 = true → ∃ D, st2.charClass = cc0 ++ D ∧ (2 ≤ prec → D = []) ∧
    emitSpanList s D ++ emitSpan s e = sliceStr s p (tkE T (st2.tpos - 1)) ∧
    ((D ++ [e]).headI).Pos.Begin = p ∧ allNodesList seqPosAmended D) ∧
  allNodes seqPosAmended e ∧
  (e.Op = .OpConcat → e.Args ≠ []) ∧ (e.Op = .OpAlt → e.Args ≠ []) ∧
  e.Pos.End = tkE T (st2.tpos - 1) ∧ tkK T (st2.tpos - 1) ≠ .tokConcat


theorem sliceStr_nil (s : Str) (a : Nat) : sliceStr s a a = [] := by
  unfold sliceStr
  exact List.drop_eq_nil_of_le (by rw [List.length_take]; omega)

theorem suffix_byte {l : Str} {c : Nat} (h : hasSuffixList [c] l = true) :
    l ≠ [] ∧ l.getD (l.length - 1) 0 = c := by
  unfold hasSuffixList at h
  have ht : l.reverse.take 1 = [c] := hasPrefixList_take h
  have hh : l.reverse.head? = some c := by
    cases hr : l.reverse with
    | nil => rw [hr] at ht; cases ht
    | cons a r =>
      rw [hr] at ht
      simp only [List.take_succ_cons, List.take_zero] at ht
      cases ht
      rfl
  rw [List.head?_reverse] at hh
  refine ⟨?_, ?_⟩
  · intro hnil
    subst hnil
    cases hh
  · rw [List.getD_eq_getElem?_getD, ← List.getLast?_eq_getElem?, hh]
    rfl

theorem pred_empty_args (op : Operation) (pos : Position) (v : Str) :
    allNodes seqPosAmended (Expr.mk op pos [] v) :=
  ⟨⟨fun _ h => absurd rfl h, fun _ h => absurd rfl h,
    fun _ h => absurd rfl h⟩, trivial⟩

theorem tk_content_eta {s : Str} {T : List token} (hT : LexOK s T) {j : Nat}
    (hj : j < T.length) :
    tokContentOK s ⟨tkK T j, ⟨tkB T j, tkE T j⟩⟩ := by
  have hc := tk_content hT hj
  rw [tk_eta T j] at hc
  exact hc

/-! ### The per-function success contracts of the emission induction -/

/-- `parseExpr` contract: from a cursor position the call consumes at
least one token and the produced expression covers exactly the consumed
source span. -/
def PEok (s : Str) (T : List token) (fuel : Nat) : Prop :=
  ∀ (prec : Nat) (st : PState) (e : Expr) (st2 : PState),
    st.tokens = T → st.tpos ≤ T.length →
    parseExpr s fuel prec st = .ok (e, st2) →
    st2.tokens = T ∧ st.tpos < st2.tpos ∧ st2.tpos ≤ T.length ∧
    emitPost s T (modeAt T st.tpos) st.charClass (tkB T st.tpos) prec e st2

/-- `infixLoop` contract: extending a left operand that covers the span
from byte `p` keeps the coverage exact. -/
def ILok (s : Str) (T : List token) (fuel : Nat) : Prop :=
  ∀ (prec : Nat) (left : Expr) (st : PState) (e2 : Expr) (st2 : PState)
    (p : Nat) (cc0 Dpre : List Expr),
    st.tokens = T → st.tpos ≤ T.length → 1 ≤ st.tpos →
    tkK T (st.tpos - 1) ≠ .tokConcat →
    left.Pos.End = tkE T (st.tpos - 1) →
    allNodes seqPosAmended left →
    (left.Op = .OpConcat → left.Args ≠ []) →
    (left.Op = .OpAlt → left.Args ≠ []) →
    p ≤ tkE T (st.tpos - 1) →
    (modeAt T st.tpos = false →
      emitSpan s left = sliceStr s p (tkE T (st.tpos - 1))) →
    (modeAt T st.tpos = true → st.charClass = cc0 ++ Dpre ∧
      (2 ≤ prec → Dpre = []) ∧
      emitSpanList s Dpre ++ emitSpan s left =
        sliceStr s p (tkE T (st.tpos - 1)) ∧
      ((Dpre ++ [left]).headI).Pos.Begin = p ∧
      allNodesList seqPosAmended Dpre) →
    infixLoop s fuel prec left st = .ok (e2, st2) →
    st2.tokens = T ∧ st.tpos ≤ st2.tpos ∧ st2.tpos ≤ T.length ∧
    emitPost s T (modeAt T st.tpos) cc0 p prec e2 st2

/-- `applyPrefixParselet` contract: the token at the cursor minus one was
just consumed; the produced expression covers it (plus whatever the
parselet consumed after it). -/
def APPok (s : Str) (T : List token) (fuel : Nat) : Prop :=
  ∀ (tok : token) (st : PState) (e : Expr) (st2 : PState),
    st.tokens = T → st.tpos ≤ T.length → 1 ≤ st.tpos →
    tok = T.getD (st.tpos - 1) noneToken →
    hasPrefixParselet tok.kind = true →
    applyPrefixParselet s fuel tok st = .ok (e, st2) →
    st2.tokens = T ∧ st.tpos ≤ st2.tpos ∧ st2.tpos ≤ T.length ∧
    emitPost s T (modeAt T (st.tpos - 1)) st.charClass
      (tkB T (st.tpos - 1)) 2 e st2

/-- `applyInfixParselet` contract, relative to the left operand whose
coverage starts at byte `p`. -/
def AIPok (s : Str) (T : List token) (fuel : Nat) : Prop :=
  ∀ (tok : token) (left : Expr) (st : PState) (e2 : Expr) (st2 : PState)
    (p : Nat) (cc0 Dpre : List Expr),
    st.tokens = T → st.tpos ≤ T.length → 2 ≤ st.tpos →
    tok = T.getD (st.tpos - 1) noneToken →
    tkK T (st.tpos - 2) ≠ .tokConcat →
    left.Pos.End = tkE T (st.tpos - 2) →
    allNodes seqPosAmended left →
    (left.Op = .OpConcat → left.Args ≠ []) →
    (left.Op = .OpAlt → left.Args ≠ []) →
    p ≤ tkE T (st.tpos - 2) →
    (modeAt T (st.tpos - 1) = false →
      emitSpan s left = sliceStr s p (tkE T (st.tpos - 2))) →
    (modeAt T (st.tpos - 1) = true → st.charClass = cc0 ++ Dpre ∧
      emitSpanList s Dpre ++ emitSpan s left =
        sliceStr s p (tkE T (st.tpos - 2)) ∧
      ((Dpre ++ [left]).headI).Pos.Begin = p ∧
      allNodesList seqPosAmended Dpre) →
    applyInfixParselet s fuel tok left st = .ok (e2, st2) →
    st2.tokens = T ∧ st.tpos ≤ st2.tpos ∧ st2.tpos ≤ T.length ∧
    emitPost s T (modeAt T (st.tpos - 1)) cc0 p 0 e2 st2

/-- `parseMinus` contract: same frame as the infix dispatch, with the
consumed token known to be the hyphen. -/
def PMok (s : Str) (T : List token) (fuel : Nat) : Prop :=
  ∀ (left : Expr) (tok : token) (st : PState) (e2 : Expr) (st2 : PState)
    (p : Nat) (cc0 Dpre : List Expr),
    st.tokens = T → st.tpos ≤ T.length → 2 ≤ st.tpos →
    tok = T.getD (st.tpos - 1) noneToken →
    tkK T (st.tpos - 1) = .tokMinus →
    tkK T (st.tpos - 2) ≠ .tokConcat →
    left.Pos.End = tkE T (st.tpos - 2) →
    allNodes seqPosAmended left →
    (left.Op = .OpConcat → left.Args ≠ []) →
    (left.Op = .OpAlt → left.Args ≠ []) →
    p ≤ tkE T (st.tpos - 2) →
    (modeAt T (st.tpos - 1) = true → st.charClass = cc0 ++ Dpre ∧
      emitSpanList s Dpre ++ emitSpan s left =
        sliceStr s p (tkE T (st.tpos - 2)) ∧
      ((Dpre ++ [left]).headI).Pos.Begin = p ∧
      allNodesList seqPosAmended Dpre) →
    parseMinus s fuel left tok st = .ok (e2, st2) →
    st2.tokens = T ∧ st.tpos ≤ st2.tpos ∧ st2.tpos ≤ T.length ∧
    emitPost s T (modeAt T (st.tpos - 1)) cc0 p 0 e2 st2

/-- `parseCharClass` contract. -/
def PCCok (s : Str) (T : List token) (fuel : Nat) : Prop :=
  ∀ (op : Operation) (tok : token) (st : PState) (e : Expr) (st2 : PState),
    st.tokens = T → st.tpos ≤ T.length → 1 ≤ st.tpos →
    tok = T.getD (st.tpos - 1) noneToken →
    ((tkK T (st.tpos - 1) = .tokLbracket ∧ op = .OpCharClass) ∨
      (tkK T (st.tpos - 1) = .tokLbracketCaret ∧ op = .OpNegCharClass)) →
    parseCharClass s fuel op tok st = .ok (e, st2) →
    st2.tokens = T ∧ st.tpos ≤ st2.tpos ∧ st2.tpos ≤ T.length ∧
    emitPost s T (modeAt T (st.tpos - 1)) st.charClass
      (tkB T (st.tpos - 1)) 2 e st2

/-- `classLoop` contract: ends on a closing bracket, leaves the class
mode, and appends elements that cover the span between the brackets. -/
def CLok (s : Str) (T : List token) (fuel : Nat) : Prop :=
  ∀ (tok : token) (st : PState) (ep : Position) (st2 : PState),
    st.tokens = T → st.tpos ≤ T.length →
    modeAt T st.tpos = true →
    classLoop s fuel tok st = .ok (ep, st2) →
    st2.tokens = T ∧ st.tpos < st2.tpos ∧ st2.tpos ≤ T.length ∧
    tkK T (st2.tpos - 1) = .tokRbracket ∧
    ep = (T.getD (st2.tpos - 1) noneToken).pos ∧
    modeAt T st2.tpos = false ∧
    ∃ Dall, Dall ≠ [] ∧ st2.charClass = st.charClass ++ Dall ∧
      emitSpanList s Dall =
        sliceStr s (tkB T st.tpos) (tkB T (st2.tpos - 1)) ∧
      ((Dall.headI).Pos.Begin = tkB T st.tpos) ∧
      ((Dall.getLastI).Pos.End = tkB T (st2.tpos - 1)) ∧
      allNodesList seqPosAmended Dall

/-- `parseGroupItem` contract: covers the span after the opening paren
token, which is empty when the group is empty. -/
def PGIok (s : Str) (T : List token) (fuel : Nat) : Prop :=
  ∀ (tok : token) (st : PState) (x : Expr) (st2 : PState),
    st.tokens = T → st.tpos ≤ T.length → 1 ≤ st.tpos →
    modeAt T st.tpos = false →
    tkK T (st.tpos - 1) ≠ .tokConcat →
    parseGroupItem s fuel tok st = .ok (x, st2) →
    st2.tokens = T ∧ st.tpos ≤ st2.tpos ∧ st2.tpos ≤ T.length ∧
    modeAt T st2.tpos = false ∧ tkK T (st2.tpos - 1) ≠ .tokConcat ∧
    emitSpan s x =
      sliceStr s (tkE T (st.tpos - 1)) (tkE T (st2.tpos - 1)) ∧
    allNodes seqPosAmended x

/-- `parseCapture` contract. -/
def PCok (s : Str) (T : List token) (fuel : Nat) : Prop :=
  ∀ (tok : token) (st : PState) (e : Expr) (st2 : PState),
    st.tokens = T → st.tpos ≤ T.length → 1 ≤ st.tpos →
    tok = T.getD (st.tpos - 1) noneToken →
    tkK T (st.tpos - 1) = .tokLparen →
    parseCapture s fuel tok st = .ok (e, st2) →
    st2.tokens = T ∧ st.tpos ≤ st2.tpos ∧ st2.tpos ≤ T.length ∧
    emitPost s T (modeAt T (st.tpos - 1)) st.charClass
      (tkB T (st.tpos - 1)) 2 e st2

/-- `parseNamedCapture` contract. -/
def PNCok (s : Str) (T : List token) (fuel : Nat) : Prop :=
  ∀ (tok : token) (st : PState) (e : Expr) (st2 : PState),
    st.tokens = T → st.tpos ≤ T.length → 1 ≤ st.tpos →
    tok = T.getD (st.tpos - 1) noneToken →
    tkK T (st.tpos - 1) = .tokLparenName →
    parseNamedCapture s fuel tok st = .ok (e, st2) →
    st2.tokens = T ∧ st.tpos ≤ st2.tpos ∧ st2.tpos ≤ T.length ∧
    emitPost s T (modeAt T (st.tpos - 1)) st.charClass
      (tkB T (st.tpos - 1)) 2 e st2

/-- `parseGroupWithFlags` contract. -/
def GWFok (s : Str) (T : List token) (fuel : Nat) : Prop :=
  ∀ (tok : token) (st : PState) (e : Expr) (st2 : PState),
    st.tokens = T → st.tpos ≤ T.length → 1 ≤ st.tpos →
    tok = T.getD (st.tpos - 1) noneToken →
    tkK T (st.tpos - 1) = .tokLparenFlags →
    parseGroupWithFlags s fuel tok st = .ok (e, st2) →
    st2.tokens = T ∧ st.tpos ≤ st2.tpos ∧ st2.tpos ≤ T.length ∧
    emitPost s T (modeAt T (st.tpos - 1)) st.charClass
      (tkB T (st.tpos - 1)) 2 e st2

theorem PEok_zero (s : Str) (T : List token) : PEok s T 0 := by
  intro prec st e st2 _ _ h
  rw [parseExpr] at h
  cases h

theorem ILok_zero (s : Str) (T : List token) : ILok s T 0 := by
  intro prec left st e2 st2 p cc0 Dpre _ _ _ _ _ _ _ _ _ _ _ h
  rw [infixLoop] at h
  cases h

theorem APPok_zero (s : Str) (T : List token) : APPok s T 0 := by
  intro tok st e st2 _ _ _ _ _ h
  rw [applyPrefixParselet] at h
  cases h

theorem AIPok_zero (s : Str) (T : List token) : AIPok s T 0 := by
  intro tok left st e2 st2 p cc0 Dpre _ _ _ _ _ _ _ _ _ _ _ _ h
  rw [applyInfixParselet] at h
  cases h

theorem PMok_zero (s : Str) (T : List token) : PMok s T 0 := by
  intro left tok st e2 st2 p cc0 Dpre _ _ _ _ _ _ _ _ _ _ _ _ h
  rw [parseMinus] at h
  cases h

theorem PCCok_zero (s : Str) (T : List token) : PCCok s T 0 := by
  intro op tok st e st2 _ _ _ _ _ h
  rw [parseCharClass] at h
  cases h

theorem CLok_zero (s : Str) (T : List token) : CLok s T 0 := by
  intro tok st ep st2 _ _ _ h
  rw [classLoop] at h
  cases h

theorem PGIok_zero (s : Str) (T : List token) : PGIok s T 0 := by
  intro tok st x st2 _ _ _ _ _ h
  rw [parseGroupItem] at h
  cases h

theorem PCok_zero (s : Str) (T : List token) : PCok s T 0 := by
  intro tok st e st2 _ _ _ _ _ h
  rw [parseCapture] at h
  cases h

theorem PNCok_zero (s : Str) (T : List token) : PNCok s T 0 := by
  intro tok st e st2 _ _ _ _ _ h
  rw [parseNamedCapture] at h
  cases h

theorem GWFok_zero (s : Str) (T : List token) : GWFok s T 0 := by
  intro tok st e st2 _ _ _ _ _ h
  rw [parseGroupWithFlags] at h
  cases h


/-- The conclusion of `applyPrefixParselet` for a plain leaf parselet:
the node covers exactly the consumed token. -/
theorem leaf_post {s : Str} {T : List token} (hT : LexOK s T) {st : PState}
    {k : tokenKind} {kpos : Position}
    (hto : st.tokens = T) (hle : st.tpos ≤ T.length) (h1 : 1 ≤ st.tpos)
    (htok : (⟨k, kpos⟩ : token) = T.getD (st.tpos - 1) noneToken)
    (hemit : emitSpan s (Expr.mk (tok2op k) kpos [] []) =
      sliceStr s kpos.Begin kpos.End)
    (hop1 : tok2op k ≠ .OpLiteral) (hop2 : tok2op k ≠ .OpConcat)
    (hop3 : tok2op k ≠ .OpAlt) (hop4 : tok2op k ≠ .OpCharClass)
    (hop5 : tok2op k ≠ .OpNegCharClass)
    (hk1 : k ≠ .tokLbracket) (hk2 : k ≠ .tokLbracketCaret)
    (hk3 : k ≠ .tokRbracket) (hk4 : k ≠ .tokConcat) :
    st.tokens = T ∧ st.tpos ≤ st.tpos ∧ st.tpos ≤ T.length ∧
    emitPost s T (modeAt T (st.tpos - 1)) st.charClass (tkB T (st.tpos - 1))
      2 (Expr.mk (tok2op k) kpos [] []) st := by
  have hlt : st.tpos - 1 < T.length := by omega
  have hB : tkB T (st.tpos - 1) = kpos.Begin := by rw [tkB, ← htok]
  have hE : tkE T (st.tpos - 1) = kpos.End := by rw [tkE, ← htok]
  have hkk : tkK T (st.tpos - 1) = k := by rw [tkK, ← htok]
  have hmode : modeAt T st.tpos = modeAt T (st.tpos - 1) := by
    have hsucc := modeAt_succ T (st.tpos - 1) hlt
    have he : st.tpos - 1 + 1 = st.tpos := by omega
    rw [he] at hsucc
    rw [hsucc, hkk]
    exact modeAfter_neutral hk1 hk2 hk3
  refine ⟨hto, le_refl _, hle, hmode, ?_, ?_, ?_, ?_, ?_, ?_, ?_⟩
  · intro _
    rw [hemit, hB, hE]
  · intro _
    refine ⟨[], by rw [List.append_nil], fun _ => rfl, ?_, ?_, trivial⟩
    · rw [show emitSpanList s ([] : List Expr) = [] from rfl, List.nil_append,
        hemit, hB, hE]
    · rw [hB]
      rfl
  · exact ⟨seqPosAmended_of_ops hop1 hop2 hop3 hop4 hop5, trivial⟩
  · intro hx
    exact absurd hx hop2
  · intro hx
    exact absurd hx hop3
  · rw [hE]
    rfl
  · rw [hkk]
    exact hk4


theorem stepAPP (s : Str) (T : List token) (hT : LexOK s T) (fuel : Nat)
    (hPC : PCok s T fuel) (hPNC : PNCok s T fuel) (hGWF : GWFok s T fuel)
    (hPCC : PCCok s T fuel) : APPok s T (fuel + 1) := by
  intro tok st e st2 hto hle h1 htok hpp h
  obtain ⟨k, kpos⟩ := tok
  rw [applyPrefixParselet] at h
  cases k
  case tokLparen =>
    have hkk : tkK T (st.tpos - 1) = .tokLparen := by rw [tkK, ← htok]
    exact hPC ⟨.tokLparen, kpos⟩ st e st2 hto hle h1 htok hkk h
  case tokLparenName =>
    have hkk : tkK T (st.tpos - 1) = .tokLparenName := by rw [tkK, ← htok]
    exact hPNC ⟨.tokLparenName, kpos⟩ st e st2 hto hle h1 htok hkk h
  case tokLparenFlags =>
    have hkk : tkK T (st.tpos - 1) = .tokLparenFlags := by rw [tkK, ← htok]
    exact hGWF ⟨.tokLparenFlags, kpos⟩ st e st2 hto hle h1 htok hkk h
  case tokLbracket =>
    have hkk : tkK T (st.tpos - 1) = .tokLbracket := by rw [tkK, ← htok]
    exact hPCC .OpCharClass ⟨.tokLbracket, kpos⟩ st e st2 hto hle h1 htok
      (Or.inl ⟨hkk, rfl⟩) h
  case tokLbracketCaret =>
    have hkk : tkK T (st.tpos - 1) = .tokLbracketCaret := by rw [tkK, ← htok]
    exact hPCC .OpNegCharClass ⟨.tokLbracketCaret, kpos⟩ st e st2 hto hle h1
      htok (Or.inr ⟨hkk, rfl⟩) h
  case tokNone =>
    exact absurd (show hasPrefixParselet .tokNone = true from hpp) (by decide)
  case tokGroupFlags =>
    exact absurd (show hasPrefixParselet .tokGroupFlags = true from hpp) (by decide)
  case tokConcat =>
    exact absurd (show hasPrefixParselet .tokConcat = true from hpp) (by decide)
  case tokRepeat =>
    exact absurd (show hasPrefixParselet .tokRepeat = true from hpp) (by decide)
  case tokComment =>
    exact absurd (show hasPrefixParselet .tokComment = true from hpp) (by decide)
  case tokRbracket =>
    exact absurd (show hasPrefixParselet .tokRbracket = true from hpp) (by decide)
  case tokQuestion =>
    exact absurd (show hasPrefixParselet .tokQuestion = true from hpp) (by decide)
  case tokPlus =>
    exact absurd (show hasPrefixParselet .tokPlus = true from hpp) (by decide)
  case tokStar =>
    exact absurd (show hasPrefixParselet .tokStar = true from hpp) (by decide)
  case tokPipe =>
    exact absurd (show hasPrefixParselet .tokPipe = true from hpp) (by decide)
  case tokLparenAtomic =>
    exact absurd (show hasPrefixParselet .tokLparenAtomic = true from hpp) (by decide)
  case tokLparenPositiveLookahead =>
    exact absurd (show hasPrefixParselet .tokLparenPositiveLookahead = true from hpp) (by decide)
  case tokLparenPositiveLookbehind =>
    exact absurd (show hasPrefixParselet .tokLparenPositiveLookbehind = true from hpp) (by decide)
  case tokLparenNegativeLookahead =>
    exact absurd (show hasPrefixParselet .tokLparenNegativeLookahead = true from hpp) (by decide)
  case tokLparenNegativeLookbehind =>
    exact absurd (show hasPrefixParselet .tokLparenNegativeLookbehind = true from hpp) (by decide)
  case tokRparen =>
    exact absurd (show hasPrefixParselet .tokRparen = true from hpp) (by decide)
  case tokChar =>
    have h2 : Except.ok ((Expr.mk (tok2op .tokChar) kpos [] [] : Expr), st) =
        Except.ok (e, st2) := h
    cases h2
    exact leaf_post hT hto hle h1 htok rfl
      (by intro hx; cases hx) (by intro hx; cases hx) (by intro hx; cases hx)
      (by intro hx; cases hx) (by intro hx; cases hx)
      (by intro hx; cases hx) (by intro hx; cases hx) (by intro hx; cases hx)
      (by intro hx; cases hx)
  case tokPosixClass =>
    have h2 : Except.ok ((Expr.mk (tok2op .tokPosixClass) kpos [] [] : Expr), st) =
        Except.ok (e, st2) := h
    cases h2
    exact leaf_post hT hto hle h1 htok rfl
      (by intro hx; cases hx) (by intro hx; cases hx) (by intro hx; cases hx)
      (by intro hx; cases hx) (by intro hx; cases hx)
      (by intro hx; cases hx) (by intro hx; cases hx) (by intro hx; cases hx)
      (by intro hx; cases hx)
  case tokEscape =>
    have h2 : Except.ok ((Expr.mk (tok2op .tokEscape) kpos [] [] : Expr), st) =
        Except.ok (e, st2) := h
    cases h2
    exact leaf_post hT hto hle h1 htok rfl
      (by intro hx; cases hx) (by intro hx; cases hx) (by intro hx; cases hx)
      (by intro hx; cases hx) (by intro hx; cases hx)
      (by intro hx; cases hx) (by intro hx; cases hx) (by intro hx; cases hx)
      (by intro hx; cases hx)
  case tokEscapeMeta =>
    have h2 : Except.ok ((Expr.mk (tok2op .tokEscapeMeta) kpos [] [] : Expr), st) =
        Except.ok (e, st2) := h
    cases h2
    exact leaf_post hT hto hle h1 htok rfl
      (by intro hx; cases hx) (by intro hx; cases hx) (by intro hx; cases hx)
      (by intro hx; cases hx) (by intro hx; cases hx)
      (by intro hx; cases hx) (by intro hx; cases hx) (by intro hx; cases hx)
      (by intro hx; cases hx)
  case tokEscapeOctal =>
    have h2 : Except.ok ((Expr.mk (tok2op .tokEscapeOctal) kpos [] [] : Expr), st) =
        Except.ok (e, st2) := h
    cases h2
    exact leaf_post hT hto hle h1 htok rfl
      (by intro hx; cases hx) (by intro hx; cases hx) (by intro hx; cases hx)
      (by intro hx; cases hx) (by intro hx; cases hx)
      (by intro hx; cases hx) (by intro hx; cases hx) (by intro hx; cases hx)
      (by intro hx; cases hx)
  case tokEscapeUni =>
    have h2 : Except.ok ((Expr.mk (tok2op .tokEscapeUni) kpos [] [] : Expr), st) =
        Except.ok (e, st2) := h
    cases h2
    exact leaf_post hT hto hle h1 htok rfl
      (by intro hx; cases hx) (by intro hx; cases hx) (by intro hx; cases hx)
      (by intro hx; cases hx) (by intro hx; cases hx)
      (by intro hx; cases hx) (by intro hx; cases hx) (by intro hx; cases hx)
      (by intro hx; cases hx)
  case tokEscapeUniFull =>
    have h2 : Except.ok ((Expr.mk (tok2op .tokEscapeUniFull) kpos [] [] : Expr), st) =
        Except.ok (e, st2) := h
    cases h2
    exact leaf_post hT hto hle h1 htok rfl
      (by intro hx; cases hx) (by intro hx; cases hx) (by intro hx; cases hx)
      (by intro hx; cases hx) (by intro hx; cases hx)
      (by intro hx; cases hx) (by intro hx; cases hx) (by intro hx; cases hx)
      (by intro hx; cases hx)
  case tokEscapeHex =>
    have h2 : Except.ok ((Expr.mk (tok2op .tokEscapeHex) kpos [] [] : Expr), st) =
        Except.ok (e, st2) := h
    cases h2
    exact leaf_post hT hto hle h1 htok rfl
      (by intro hx; cases hx) (by intro hx; cases hx) (by intro hx; cases hx)
      (by intro hx; cases hx) (by intro hx; cases hx)
      (by intro hx; cases hx) (by intro hx; cases hx) (by intro hx; cases hx)
      (by intro hx; cases hx)
  case tokEscapeHexFull =>
    have h2 : Except.ok ((Expr.mk (tok2op .tokEscapeHexFull) kpos [] [] : Expr), st) =
        Except.ok (e, st2) := h
    cases h2
    exact leaf_post hT hto hle h1 htok rfl
      (by intro hx; cases hx) (by intro hx; cases hx) (by intro hx; cases hx)
      (by intro hx; cases hx) (by intro hx; cases hx)
      (by intro hx; cases hx) (by intro hx; cases hx) (by intro hx; cases hx)
      (by intro hx; cases hx)
  case tokQ =>
    have h2 : Except.ok ((Expr.mk (tok2op .tokQ) kpos [] [] : Expr), st) =
        Except.ok (e, st2) := h
    cases h2
    exact leaf_post hT hto hle h1 htok rfl
      (by intro hx; cases hx) (by intro hx; cases hx) (by intro hx; cases hx)
      (by intro hx; cases hx) (by intro hx; cases hx)
      (by intro hx; cases hx) (by intro hx; cases hx) (by intro hx; cases hx)
      (by intro hx; cases hx)
  case tokMinus =>
    have h2 : Except.ok ((Expr.mk (tok2op .tokMinus) kpos [] [] : Expr), st) =
        Except.ok (e, st2) := h
    cases h2
    exact leaf_post hT hto hle h1 htok rfl
      (by intro hx; cases hx) (by intro hx; cases hx) (by intro hx; cases hx)
      (by intro hx; cases hx) (by intro hx; cases hx)
      (by intro hx; cases hx) (by intro hx; cases hx) (by intro hx; cases hx)
      (by intro hx; cases hx)
  case tokDollar =>
    have h2 : Except.ok ((Expr.mk (tok2op .tokDollar) kpos [] [] : Expr), st) =
        Except.ok (e, st2) := h
    cases h2
    exact leaf_post hT hto hle h1 htok rfl
      (by intro hx; cases hx) (by intro hx; cases hx) (by intro hx; cases hx)
      (by intro hx; cases hx) (by intro hx; cases hx)
      (by intro hx; cases hx) (by intro hx; cases hx) (by intro hx; cases hx)
      (by intro hx; cases hx)
  case tokCaret =>
    have h2 : Except.ok ((Expr.mk (tok2op .tokCaret) kpos [] [] : Expr), st) =
        Except.ok (e, st2) := h
    cases h2
    exact leaf_post hT hto hle h1 htok rfl
      (by intro hx; cases hx) (by intro hx; cases hx) (by intro hx; cases hx)
      (by intro hx; cases hx) (by intro hx; cases hx)
      (by intro hx; cases hx) (by intro hx; cases hx) (by intro hx; cases hx)
      (by intro hx; cases hx)
  case tokDot =>
    have h2 : Except.ok ((Expr.mk (tok2op .tokDot) kpos [] [] : Expr), st) =
        Except.ok (e, st2) := h
    cases h2
    exact leaf_post hT hto hle h1 htok rfl
      (by intro hx; cases hx) (by intro hx; cases hx) (by intro hx; cases hx)
      (by intro hx; cases hx) (by intro hx; cases hx)
      (by intro hx; cases hx) (by intro hx; cases hx) (by intro hx; cases hx)
      (by intro hx; cases hx)


theorem stepPE (s : Str) (T : List token) (hT : LexOK s T) (fuel : Nat)
    (hAPP : APPok s T fuel) (hIL : ILok s T fuel) : PEok s T (fuel + 1) := by
  intro prec st e st2 hto hle h
  rw [parseExpr] at h
  by_cases htp : st.tpos < st.tokens.length
  · simp only [nextToken_lt htp] at h
    by_cases hpp :
        hasPrefixParselet (st.tokens.getD st.tpos noneToken).kind = true
    · rw [if_pos hpp] at h
      have htlt : st.tpos < T.length := by rw [← hto]; exact htp
      cases hsub : applyPrefixParselet s fuel
          (st.tokens.getD st.tpos noneToken)
          { st with tpos := st.tpos + 1 } with
      | error f =>
        simp only [hsub] at h
        cases h
      | ok pair =>
        obtain ⟨left, st1⟩ := pair
        simp only [hsub] at h
        have htokid : st.tokens.getD st.tpos noneToken =
            T.getD (st.tpos + 1 - 1) noneToken := by
          rw [hto, Nat.add_sub_cancel]
        have happ := hAPP (st.tokens.getD st.tpos noneToken)
          { st with tpos := st.tpos + 1 } left st1 hto
          (show st.tpos + 1 ≤ T.length by omega)
          (show 1 ≤ st.tpos + 1 by omega) htokid hpp hsub
        obtain ⟨h1to, h1ab, h1le, hpost1⟩ := happ
        have h1ab2 : st.tpos + 1 ≤ st1.tpos := h1ab
        have h1le2 : st1.tpos ≤ T.length := h1le
        obtain ⟨hm1, hout1, hin1, hpred1, hsh11, hsh12, hend1, hkc1⟩ := hpost1
        have hm1b : modeAt T st1.tpos = modeAt T st.tpos := hm1
        have hend1b : left.Pos.End = tkE T (st1.tpos - 1) := hend1
        have hkc1b : tkK T (st1.tpos - 1) ≠ .tokConcat := hkc1
        have hout1b : modeAt T st.tpos = false → emitSpan s left =
            sliceStr s (tkB T st.tpos) (tkE T (st1.tpos - 1)) := hout1
        have hin1b : modeAt T st.tpos = true → ∃ D,
            st1.charClass = st.charClass ++ D ∧ (2 ≤ 2 → D = []) ∧
            emitSpanList s D ++ emitSpan s left =
              sliceStr s (tkB T st.tpos) (tkE T (st1.tpos - 1)) ∧
            ((D ++ [left]).headI).Pos.Begin = tkB T st.tpos ∧
            allNodesList seqPosAmended D := hin1
        have hple : tkB T st.tpos ≤ tkE T (st1.tpos - 1) :=
          tkB_le_tkE hT (by omega) (by omega)
        by_cases hmode : modeAt T st.tpos = true
        · obtain ⟨D, hD1, hD2, hD3, hD4, hD5⟩ := hin1b hmode
          have hil := hIL prec left st1 e st2 (tkB T st.tpos) st.charClass D
            h1to h1le2 (by omega) hkc1b hend1b hpred1 hsh11 hsh12 hple
            (by
              intro hmf
              rw [hm1b] at hmf
              rw [hmode] at hmf
              cases hmf)
            (by
              intro _
              exact ⟨hD1, fun _ => hD2 (le_refl 2), hD3, hD4, hD5⟩)
            h
          obtain ⟨h2to, h2ab, h2le, hpost2⟩ := hil
          have h2ab2 : st1.tpos ≤ st2.tpos := h2ab
          refine ⟨h2to, by omega, h2le, ?_⟩
          rw [← hm1b]
          exact hpost2
        · have hmf : modeAt T st.tpos = false := by
            cases hb : modeAt T st.tpos with
            | false => rfl
            | true => exact absurd hb hmode
          have hil := hIL prec left st1 e st2 (tkB T st.tpos) st.charClass []
            h1to h1le2 (by omega) hkc1b hend1b hpred1 hsh11 hsh12 hple
            (by
              intro _
              exact hout1b hmf)
            (by
              intro hmt
              rw [hm1b] at hmt
              exact absurd hmt hmode)
            h
          obtain ⟨h2to, h2ab, h2le, hpost2⟩ := hil
          have h2ab2 : st1.tpos ≤ st2.tpos := h2ab
          refine ⟨h2to, by omega, h2le, ?_⟩
          rw [← hm1b]
          exact hpost2
    · rw [if_neg hpp] at h
      cases h
  · simp only [nextToken_ge htp] at h
    rw [if_neg (by decide : ¬ hasPrefixParselet (noneToken).kind = true)] at h
    cases h


theorem stepIL (s : Str) (T : List token) (hT : LexOK s T) (fuel : Nat)
    (hAIP : AIPok s T fuel) (hILf : ILok s T fuel) : ILok s T (fuel + 1) := by
  intro prec left st e2 st2 p cc0 Dpre hto hle h1le hKprev hLend hLpred
    hLsh1 hLsh2 hple hout hin h
  rw [infixLoop] at h
  by_cases hlt : prec < precedenceOf (peekToken st)
  · rw [if_pos hlt] at h
    by_cases htp : st.tpos < st.tokens.length
    · simp only [nextToken_lt htp] at h
      have htlt : st.tpos < T.length := by rw [← hto]; exact htp
      cases hsub : applyInfixParselet s fuel
          (st.tokens.getD st.tpos noneToken) left
          { st with tpos := st.tpos + 1 } with
      | error f =>
        simp only [hsub] at h
        cases h
      | ok pair =>
        obtain ⟨left2, st1⟩ := pair
        simp only [hsub] at h
        have htokid : st.tokens.getD st.tpos noneToken =
            T.getD (st.tpos + 1 - 1) noneToken := by
          rw [hto, Nat.add_sub_cancel]
        have haip := hAIP (st.tokens.getD st.tpos noneToken) left
          { st with tpos := st.tpos + 1 } left2 st1 p cc0 Dpre hto
          (show st.tpos + 1 ≤ T.length by omega)
          (show 2 ≤ st.tpos + 1 by omega) htokid hKprev hLend hLpred
          hLsh1 hLsh2 hple hout
          (by
            intro hm
            obtain ⟨a1, -, a3, a4, a5⟩ := hin hm
            exact ⟨a1, a3, a4, a5⟩)
          hsub
        obtain ⟨h1to, h1ab, h1le, hpost1⟩ := haip
        have h1ab2 : st.tpos + 1 ≤ st1.tpos := h1ab
        have h1le2 : st1.tpos ≤ T.length := h1le
        obtain ⟨hm1, hout1, hin1, hpred1, hsh11, hsh12, hend1, hkc1⟩ := hpost1
        have hm1b : modeAt T st1.tpos = modeAt T st.tpos := hm1
        have hout1b : modeAt T st.tpos = false → emitSpan s left2 =
            sliceStr s p (tkE T (st1.tpos - 1)) := hout1
        have hin1b : modeAt T st.tpos = true → ∃ D,
            st1.charClass = cc0 ++ D ∧ (2 ≤ 0 → D = []) ∧
            emitSpanList s D ++ emitSpan s left2 =
              sliceStr s p (tkE T (st1.tpos - 1)) ∧
            ((D ++ [left2]).headI).Pos.Begin = p ∧
            allNodesList seqPosAmended D := hin1
        have hend1b : left2.Pos.End = tkE T (st1.tpos - 1) := hend1
        have hkc1b : tkK T (st1.tpos - 1) ≠ .tokConcat := hkc1
        have hple1 : p ≤ tkE T (st1.tpos - 1) :=
          le_trans hple (tkE_le_tkE hT (by omega) (by omega))
        by_cases hmode : modeAt T st.tpos = true
        · have hprec2 : ¬ 2 ≤ prec := by
            intro h2p
            have hall := allowedIn_at hT.kind_mode htlt
            rw [hmode] at hall
            unfold allowedIn at hall
            rw [if_pos rfl] at hall
            have hkk : (st.tokens.getD st.tpos noneToken).kind =
                tkK T st.tpos := by rw [hto]; rfl
            have hpk : peekToken st = st.tokens.getD st.tpos noneToken :=
              peekToken_lt htp
            have hple2 : precedenceOf (st.tokens.getD st.tpos noneToken) ≤ 2 := by
              unfold precedenceOf
              rw [hkk]
              rcases hall with hk|hk|hk|hk|hk|hk|hk|hk|hk|hk|hk|hk <;>
                rw [hk] <;> decide
            rw [hpk] at hlt
            omega
          obtain ⟨D, hD1, hD2, hD3, hD4, hD5⟩ := hin1b hmode
          have hil := hILf prec left2 st1 e2 st2 p cc0 D h1to h1le2
            (by omega) hkc1b hend1b hpred1 hsh11 hsh12 hple1
            (by
              intro hmf
              rw [hm1b] at hmf
              rw [hmode] at hmf
              cases hmf)
            (by
              intro _
              exact ⟨hD1, fun h2p => absurd h2p hprec2, hD3, hD4, hD5⟩)
            h
          obtain ⟨h2to, h2ab, h2le, hpost2⟩ := hil
          have h2ab2 : st1.tpos ≤ st2.tpos := h2ab
          refine ⟨h2to, by omega, h2le, ?_⟩
          rw [← hm1b]
          exact hpost2
        · have hmf : modeAt T st.tpos = false := by
            cases hb : modeAt T st.tpos with
            | false => rfl
            | true => exact absurd hb hmode
          have hil := hILf prec left2 st1 e2 st2 p cc0 [] h1to h1le2
            (by omega) hkc1b hend1b hpred1 hsh11 hsh12 hple1
            (by
              intro _
              exact hout1b hmf)
            (by
              intro hmt
              rw [hm1b] at hmt
              exact absurd hmt hmode)
            h
          obtain ⟨h2to, h2ab, h2le, hpost2⟩ := hil
          have h2ab2 : st1.tpos ≤ st2.tpos := h2ab
          refine ⟨h2to, by omega, h2le, ?_⟩
          rw [← hm1b]
          exact hpost2
    · exfalso
      rw [peekToken_ge htp] at hlt
      simp [precedenceOf, noneToken] at hlt
  · rw [if_neg hlt] at h
    cases h
    refine ⟨hto, le_refl _, hle, rfl, hout, ?_, hLpred, hLsh1, hLsh2,
      hLend, hKprev⟩
    intro hm
    exact ⟨Dpre, hin hm⟩


/-- The conclusion of an infix parselet that consumes no further tokens:
the new node appends the operator token span to the left operand. -/
theorem quant_post {s : Str} {T : List token} (hT : LexOK s T) {st : PState}
    {left : Expr} {p : Nat} {cc0 : List Expr} {node : Expr} {k : tokenKind}
    (hto : st.tokens = T) (hle : st.tpos ≤ T.length) (h2le : 2 ≤ st.tpos)
    (hkk : tkK T (st.tpos - 1) = k)
    (hKprev : tkK T (st.tpos - 2) ≠ .tokConcat)
    (hple : p ≤ tkE T (st.tpos - 2))
    (hout : modeAt T (st.tpos - 1) = false →
      emitSpan s left = sliceStr s p (tkE T (st.tpos - 2)))
    (hm0 : modeAt T (st.tpos - 1) = false)
    (hneutral : modeAfter (modeAt T (st.tpos - 1)) k = modeAt T (st.tpos - 1))
    (hkc : k ≠ .tokConcat)
    (hemit : emitSpan s node = emitSpan s left ++
      sliceStr s (tkB T (st.tpos - 1)) (tkE T (st.tpos - 1)))
    (hpred : allNodes seqPosAmended node)
    (hsh1 : node.Op = .OpConcat → node.Args ≠ [])
    (hsh2 : node.Op = .OpAlt → node.Args ≠ [])
    (hend : node.Pos.End = tkE T (st.tpos - 1)) :
    st.tokens = T ∧ st.tpos ≤ st.tpos ∧ st.tpos ≤ T.length ∧
    emitPost s T (modeAt T (st.tpos - 1)) cc0 p 0 node st := by
  have hlt : st.tpos - 1 < T.length := by omega
  have hj1 : st.tpos - 2 + 1 = st.tpos - 1 := by omega
  have hchain_pre : tkE T (st.tpos - 2) = tkB T (st.tpos - 1) := by
    have hch := tk_chain hT (show st.tpos - 2 + 1 < T.length by omega) hKprev
    rw [hj1] at hch
    exact hch
  have hmode : modeAt T st.tpos = modeAt T (st.tpos - 1) := by
    have hsucc := modeAt_succ T (st.tpos - 1) hlt
    have he : st.tpos - 1 + 1 = st.tpos := by omega
    rw [he] at hsucc
    rw [hsucc, hkk]
    exact hneutral
  refine ⟨hto, le_refl _, hle, hmode, ?_, ?_, hpred, hsh1, hsh2, hend, ?_⟩
  · intro hmf
    rw [hemit, hout hmf, ← hchain_pre]
    exact sliceStr_glue hple
      (tkE_le_tkE hT (show st.tpos - 2 ≤ st.tpos - 1 by omega) hlt)
      ((tk_span hT (show st.tpos - 2 < T.length by omega)).2)
  · intro hmt
    rw [hm0] at hmt
    cases hmt
  · rw [hkk]
    intro hx
    exact hkc hx


theorem stepAIP (s : Str) (T : List token) (hT : LexOK s T) (fuel : Nat)
    (hPE : PEok s T fuel) (hPM : PMok s T fuel) : AIPok s T (fuel + 1) := by
  intro tok left st e2 st2 p cc0 Dpre hto hle h2le htok hKprev hLend hLpred
    hLsh1 hLsh2 hple hout hin h
  obtain ⟨k, kpos⟩ := tok
  rw [applyInfixParselet] at h
  have hlt : st.tpos - 1 < T.length := by omega
  have hkk : tkK T (st.tpos - 1) = k := by rw [tkK, ← htok]
  have hB : tkB T (st.tpos - 1) = kpos.Begin := by rw [tkB, ← htok]
  have hE : tkE T (st.tpos - 1) = kpos.End := by rw [tkE, ← htok]
  cases k
  case tokRepeat =>
    have h2 : Except.ok ((Expr.mk .OpRepeat (combinePos left.Pos kpos)
        [left, Expr.mk .OpString kpos [] []] [] : Expr), st) =
        Except.ok (e2, st2) := h
    cases h2
    have hm0 : modeAt T (st.tpos - 1) = false := mode_false_at hT hlt
      (by rw [hkk]; intro hx;
          rcases hx with hx|hx|hx|hx|hx|hx|hx|hx|hx|hx|hx|hx <;> cases hx)
    have hemit : emitSpan s (Expr.mk .OpRepeat (combinePos left.Pos kpos)
        [left, Expr.mk .OpString kpos [] []] []) = emitSpan s left ++
        sliceStr s (tkB T (st.tpos - 1)) (tkE T (st.tpos - 1)) := by
      rw [hB, hE]
      show emitSpan s left ++ (sliceStr s kpos.Begin kpos.End ++ ([] : Str)) = _
      rw [List.append_nil]
    have hpredn : allNodes seqPosAmended (Expr.mk .OpRepeat
        (combinePos left.Pos kpos) [left, Expr.mk .OpString kpos [] []] []) :=
      ⟨seqPosAmended_of_ops (by intro hx; cases hx) (by intro hx; cases hx)
        (by intro hx; cases hx) (by intro hx; cases hx) (by intro hx; cases hx),
        hLpred, pred_empty_args _ _ _, trivial⟩
    have hendn : (Expr.mk .OpRepeat (combinePos left.Pos kpos)
        [left, Expr.mk .OpString kpos [] []] []).Pos.End =
        tkE T (st.tpos - 1) := by
      show kpos.End = tkE T (st.tpos - 1)
      rw [hE]
    exact quant_post hT hto hle h2le hkk hKprev hple hout hm0
      (modeAfter_neutral (by intro hx; cases hx) (by intro hx; cases hx)
        (by intro hx; cases hx))
      (by intro hx; cases hx) hemit hpredn
      (by intro hx; cases hx) (by intro hx; cases hx) hendn
  case tokPlus =>
    have h2 : Except.ok ((Expr.mk .OpPlus kpos [left] [] : Expr), st) =
        Except.ok (e2, st2) := h
    cases h2
    have hm0 : modeAt T (st.tpos - 1) = false := mode_false_at hT hlt
      (by rw [hkk]; intro hx;
          rcases hx with hx|hx|hx|hx|hx|hx|hx|hx|hx|hx|hx|hx <;> cases hx)
    have hc := tk_content_eta hT hlt
    rw [hkk] at hc
    obtain ⟨hc1, hc2⟩ := hc
    have hc1b : tkE T (st.tpos - 1) = tkB T (st.tpos - 1) + 1 := hc1
    have hc2b : byteAt s (tkB T (st.tpos - 1)) = 43 := hc2
    have hsingle : sliceStr s (tkB T (st.tpos - 1)) (tkE T (st.tpos - 1)) =
        [43] := by
      rw [hc1b]
      exact sliceStr_single hc2b (by
        have hsp := (tk_span hT hlt).2
        omega)
    have hemit : emitSpan s (Expr.mk .OpPlus kpos [left] []) =
        emitSpan s left ++
        sliceStr s (tkB T (st.tpos - 1)) (tkE T (st.tpos - 1)) := by
      rw [hsingle]
      show (emitSpan s left ++ ([] : Str)) ++ [43] = _
      rw [List.append_nil]
    have hpredn : allNodes seqPosAmended (Expr.mk .OpPlus kpos [left] []) :=
      ⟨seqPosAmended_of_ops (by intro hx; cases hx) (by intro hx; cases hx)
        (by intro hx; cases hx) (by intro hx; cases hx) (by intro hx; cases hx), hLpred, trivial⟩
    have hendn : (Expr.mk .OpPlus kpos [left] []).Pos.End =
        tkE T (st.tpos - 1) := by
      show kpos.End = tkE T (st.tpos - 1)
      rw [hE]
    exact quant_post hT hto hle h2le hkk hKprev hple hout hm0
      (modeAfter_neutral (by intro hx; cases hx) (by intro hx; cases hx)
        (by intro hx; cases hx))
      (by intro hx; cases hx) hemit hpredn
      (by intro hx; cases hx) (by intro hx; cases hx) hendn
  case tokStar =>
    have h2 : Except.ok ((Expr.mk .OpStar kpos [left] [] : Expr), st) =
        Except.ok (e2, st2) := h
    cases h2
    have hm0 : modeAt T (st.tpos - 1) = false := mode_false_at hT hlt
      (by rw [hkk]; intro hx;
          rcases hx with hx|hx|hx|hx|hx|hx|hx|hx|hx|hx|hx|hx <;> cases hx)
    have hc := tk_content_eta hT hlt
    rw [hkk] at hc
    obtain ⟨hc1, hc2⟩ := hc
    have hc1b : tkE T (st.tpos - 1) = tkB T (st.tpos - 1) + 1 := hc1
    have hc2b : byteAt s (tkB T (st.tpos - 1)) = 42 := hc2
    have hsingle : sliceStr s (tkB T (st.tpos - 1)) (tkE T (st.tpos - 1)) =
        [42] := by
      rw [hc1b]
      exact sliceStr_single hc2b (by
        have hsp := (tk_span hT hlt).2
        omega)
    have hemit : emitSpan s (Expr.mk .OpStar kpos [left] []) =
        emitSpan s left ++
        sliceStr s (tkB T (st.tpos - 1)) (tkE T (st.tpos - 1)) := by
      rw [hsingle]
      show (emitSpan s left ++ ([] : Str)) ++ [42] = _
      rw [List.append_nil]
    have hpredn : allNodes seqPosAmended (Expr.mk .OpStar kpos [left] []) :=
      ⟨seqPosAmended_of_ops (by intro hx; cases hx) (by intro hx; cases hx)
        (by intro hx; cases hx) (by intro hx; cases hx) (by intro hx; cases hx), hLpred, trivial⟩
    have hendn : (Expr.mk .OpStar kpos [left] []).Pos.End =
        tkE T (st.tpos - 1) := by
      show kpos.End = tkE T (st.tpos - 1)
      rw [hE]
    exact quant_post hT hto hle h2le hkk hKprev hple hout hm0
      (modeAfter_neutral (by intro hx; cases hx) (by intro hx; cases hx)
        (by intro hx; cases hx))
      (by intro hx; cases hx) hemit hpredn
      (by intro hx; cases hx) (by intro hx; cases hx) hendn
  case tokPipe =>
    have hm0 : modeAt T (st.tpos - 1) = false := mode_false_at hT hlt
      (by rw [hkk]; intro hx;
          rcases hx with hx|hx|hx|hx|hx|hx|hx|hx|hx|hx|hx|hx <;> cases hx)
    have hc := tk_content_eta hT hlt
    rw [hkk] at hc
    obtain ⟨hc1, hc2⟩ := hc
    have hc1b : tkE T (st.tpos - 1) = tkB T (st.tpos - 1) + 1 := hc1
    have hc2b : byteAt s (tkB T (st.tpos - 1)) = 124 := hc2
    have hsingle : sliceStr s (tkB T (st.tpos - 1)) (tkE T (st.tpos - 1)) =
        [124] := by
      rw [hc1b]
      exact sliceStr_single hc2b (by
        have hsp := (tk_span hT hlt).2
        omega)
    cases hpk : (peekToken st).kind
    case tokRparen =>
      simp only [hpk] at h
      have h2 : Except.ok ((altJoin left (Expr.mk .OpConcat kpos [] []) : Expr),
          st) = Except.ok (e2, st2) := h
      cases h2
      have hemit : emitSpan s (altJoin left (Expr.mk .OpConcat kpos [] [])) =
          emitSpan s left ++
          sliceStr s (tkB T (st.tpos - 1)) (tkE T (st.tpos - 1)) := by
        rw [altJoin_emitSpan s left (Expr.mk .OpConcat kpos [] []) hLsh2,
          hsingle]
        rw [show emitSpan s (Expr.mk .OpConcat kpos [] []) = ([] : Str)
          from rfl]
        simp
      have hpredn : allNodes seqPosAmended
          (altJoin left (Expr.mk .OpConcat kpos [] [])) :=
        altJoin_pred hLpred (pred_empty_args _ _ _) hLsh2 (fun _ => trivial)
      have hsh1n : (altJoin left (Expr.mk .OpConcat kpos [] [])).Op =
          .OpConcat →
          (altJoin left (Expr.mk .OpConcat kpos [] [])).Args ≠ [] := by
        intro hx
        rw [(altJoin_shape left (Expr.mk .OpConcat kpos [] [])).1] at hx
        cases hx
      have hendn : (altJoin left (Expr.mk .OpConcat kpos [] [])).Pos.End =
          tkE T (st.tpos - 1) := by
        rw [altJoin_pos_end]
        show kpos.End = tkE T (st.tpos - 1)
        rw [hE]
      exact quant_post hT hto hle h2le hkk hKprev hple hout hm0
        (modeAfter_neutral (by intro hx; cases hx) (by intro hx; cases hx)
          (by intro hx; cases hx))
        (by intro hx; cases hx) hemit hpredn hsh1n
        (fun _ => (altJoin_shape left (Expr.mk .OpConcat kpos [] [])).2) hendn
    case tokNone =>
      simp only [hpk] at h
      have h2 : Except.ok ((altJoin left (Expr.mk .OpConcat kpos [] []) : Expr),
          st) = Except.ok (e2, st2) := h
      cases h2
      have hemit : emitSpan s (altJoin left (Expr.mk .OpConcat kpos [] [])) =
          emitSpan s left ++
          sliceStr s (tkB T (st.tpos - 1)) (tkE T (st.tpos - 1)) := by
        rw [altJoin_emitSpan s left (Expr.mk .OpConcat kpos [] []) hLsh2,
          hsingle]
        rw [show emitSpan s (Expr.mk .OpConcat kpos [] []) = ([] : Str)
          from rfl]
        simp
      have hpredn : allNodes seqPosAmended
          (altJoin left (Expr.mk .OpConcat kpos [] [])) :=
        altJoin_pred hLpred (pred_empty_args _ _ _) hLsh2 (fun _ => trivial)
      have hsh1n : (altJoin left (Expr.mk .OpConcat kpos [] [])).Op =
          .OpConcat →
          (altJoin left (Expr.mk .OpConcat kpos [] [])).Args ≠ [] := by
        intro hx
        rw [(altJoin_shape left (Expr.mk .OpConcat kpos [] [])).1] at hx
        cases hx
      have hendn : (altJoin left (Expr.mk .OpConcat kpos [] [])).Pos.End =
          tkE T (st.tpos - 1) := by
        rw [altJoin_pos_end]
        show kpos.End = tkE T (st.tpos - 1)
        rw [hE]
      exact quant_post hT hto hle h2le hkk hKprev hple hout hm0
        (modeAfter_neutral (by intro hx; cases hx) (by intro hx; cases hx)
          (by intro hx; cases hx))
        (by intro hx; cases hx) hemit hpredn hsh1n
        (fun _ => (altJoin_shape left (Expr.mk .OpConcat kpos [] [])).2) hendn
    all_goals
      simp only [hpk] at h
      cases hres : parseExpr s fuel 1 st with
      | error f =>
        simp only [hres] at h
        cases h
      | ok pair =>
        obtain ⟨right, st1⟩ := pair
        simp only [hres] at h
        have hpe := hPE 1 st right st1 hto hle hres
        have h2 : Except.ok ((altJoin left right : Expr), st1) =
            Except.ok (e2, st2) := h
        cases h2
        obtain ⟨h1to, h1ab, h1le, hpost1⟩ := hpe
        obtain ⟨hm1, hout1, hin1, hpred1, hsh11, hsh12, hend1, hkc1⟩ := hpost1
        have hmode : modeAt T st.tpos = modeAt T (st.tpos - 1) := by
          have hsucc := modeAt_succ T (st.tpos - 1) hlt
          have he : st.tpos - 1 + 1 = st.tpos := by omega
          rw [he] at hsucc
          rw [hsucc, hkk]
          exact modeAfter_neutral (by intro hx; cases hx)
            (by intro hx; cases hx) (by intro hx; cases hx)
        have he2 : st.tpos - 1 + 1 = st.tpos := by omega
        have hchain_at : tkE T (st.tpos - 1) = tkB T st.tpos := by
          have hch := tk_chain hT (show st.tpos - 1 + 1 < T.length by omega)
            (by rw [hkk]; intro hx; cases hx)
          rw [he2] at hch
          exact hch
        have hchain_pre : tkE T (st.tpos - 2) = tkB T (st.tpos - 1) := by
          have hj1 : st.tpos - 2 + 1 = st.tpos - 1 := by omega
          have hch := tk_chain hT (show st.tpos - 2 + 1 < T.length by omega)
            hKprev
          rw [hj1] at hch
          exact hch
        have hg2 : tkE T (st.tpos - 2) ≤ tkE T (st.tpos - 1) :=
          tkE_le_tkE hT (by omega) hlt
        have hg4 : tkE T (st.tpos - 1) ≤ tkE T (st2.tpos - 1) :=
          tkE_le_tkE hT (by omega) (by omega)
        refine ⟨h1to, by omega, h1le, ?_, ?_, ?_, ?_, ?_, ?_, ?_, ?_⟩
        · rw [hm1]
          exact hmode
        · intro hmf
          have hcovL := hout hmf
          have hcovR := hout1 (by rw [hmode]; exact hmf)
          rw [altJoin_emitSpan s left right hLsh2, hcovL, hcovR, ← hsingle,
            ← hchain_pre, ← hchain_at]
          rw [sliceStr_glue hple hg2
            ((tk_span hT (show st.tpos - 2 < T.length by omega)).2)]
          exact sliceStr_glue (le_trans hple hg2) hg4 ((tk_span hT hlt).2)
        · intro hmt
          rw [hm0] at hmt
          cases hmt
        · exact altJoin_pred hLpred hpred1 hLsh2 (fun _ => trivial)
        · intro hx
          rw [(altJoin_shape left right).1] at hx
          cases hx
        · intro _
          exact (altJoin_shape left right).2
        · rw [altJoin_pos_end]
          exact hend1
        · exact hkc1
  case tokConcat =>
    have hm0 : modeAt T (st.tpos - 1) = false := mode_false_at hT hlt
      (by rw [hkk]; intro hx;
          rcases hx with hx|hx|hx|hx|hx|hx|hx|hx|hx|hx|hx|hx <;> cases hx)
    cases hres : parseExpr s fuel 2 st with
    | error f =>
      simp only [hres] at h
      cases h
    | ok pair =>
      obtain ⟨right, st1⟩ := pair
      simp only [hres] at h
      have hpe := hPE 2 st right st1 hto hle hres
      have h2 : Except.ok ((concatJoin left right : Expr), st1) =
          Except.ok (e2, st2) := h
      cases h2
      obtain ⟨h1to, h1ab, h1le, hpost1⟩ := hpe
      obtain ⟨hm1, hout1, hin1, hpred1, hsh11, hsh12, hend1, hkc1⟩ := hpost1
      have hmode : modeAt T st.tpos = modeAt T (st.tpos - 1) := by
        have hsucc := modeAt_succ T (st.tpos - 1) hlt
        have he : st.tpos - 1 + 1 = st.tpos := by omega
        rw [he] at hsucc
        rw [hsucc, hkk]
        exact modeAfter_neutral (by intro hx; cases hx)
          (by intro hx; cases hx) (by intro hx; cases hx)
      have he2 : st.tpos - 1 + 1 = st.tpos := by omega
      have hconc : tkB T (st.tpos - 1) = tkB T st.tpos := by
        have hcc := tk_chain_concat hT
          (show st.tpos - 1 + 1 < T.length by omega) hkk
        rw [he2] at hcc
        exact hcc.1
      have hchain_pre : tkE T (st.tpos - 2) = tkB T (st.tpos - 1) := by
        have hj1 : st.tpos - 2 + 1 = st.tpos - 1 := by omega
        have hch := tk_chain hT (show st.tpos - 2 + 1 < T.length by omega)
          hKprev
        rw [hj1] at hch
        exact hch
      have hg2 : tkE T (st.tpos - 2) ≤ tkE T (st2.tpos - 1) :=
        tkE_le_tkE hT (by omega) (by omega)
      refine ⟨h1to, by omega, h1le, ?_, ?_, ?_, ?_, ?_, ?_, ?_, ?_⟩
      · rw [hm1]
        exact hmode
      · intro hmf
        have hcovL := hout hmf
        have hcovR := hout1 (by rw [hmode]; exact hmf)
        rw [concatJoin_emitSpan, hcovL, hcovR, ← hconc, ← hchain_pre]
        exact sliceStr_glue hple hg2
          ((tk_span hT (show st.tpos - 2 < T.length by omega)).2)
      · intro hmt
        rw [hm0] at hmt
        cases hmt
      · exact concatJoin_pred hLpred hpred1 hLsh1
      · intro _
        exact (concatJoin_shape left right).2
      · intro hx
        rw [(concatJoin_shape left right).1] at hx
        cases hx
      · rw [concatJoin_pos_end]
        exact hend1
      · exact hkc1
  case tokMinus =>
    exact hPM left ⟨.tokMinus, kpos⟩ st e2 st2 p cc0 Dpre hto hle h2le htok
      hkk hKprev hLend hLpred hLsh1 hLsh2 hple hin h
  case tokQuestion =>
    cases hLo : left.Op
    case OpPlus =>
      simp only [hLo] at h
      have h2 : Except.ok ((Expr.mk .OpNonGreedy kpos [left] [] : Expr), st) =
          Except.ok (e2, st2) := h
      cases h2
      have hm0 : modeAt T (st.tpos - 1) = false := mode_false_at hT hlt
        (by rw [hkk]; intro hx;
                rcases hx with hx|hx|hx|hx|hx|hx|hx|hx|hx|hx|hx|hx <;> cases hx)
      have hc := tk_content_eta hT hlt
      rw [hkk] at hc
      obtain ⟨hc1, hc2⟩ := hc
      have hc1b : tkE T (st.tpos - 1) = tkB T (st.tpos - 1) + 1 := hc1
      have hc2b : byteAt s (tkB T (st.tpos - 1)) = 63 := hc2
      have hsingle : sliceStr s (tkB T (st.tpos - 1)) (tkE T (st.tpos - 1)) =
          [63] := by
        rw [hc1b]
        exact sliceStr_single hc2b (by
          have hsp := (tk_span hT hlt).2
          omega)
      have hemit : emitSpan s (Expr.mk .OpNonGreedy kpos [left] []) =
          emitSpan s left ++
          sliceStr s (tkB T (st.tpos - 1)) (tkE T (st.tpos - 1)) := by
        rw [hsingle]
        show (emitSpan s left ++ ([] : Str)) ++ [63] = _
        rw [List.append_nil]
      have hpredn : allNodes seqPosAmended (Expr.mk .OpNonGreedy kpos [left] []) :=
        ⟨seqPosAmended_of_ops (by intro hx; cases hx) (by intro hx; cases hx)
              (by intro hx; cases hx) (by intro hx; cases hx) (by intro hx; cases hx), hLpred, trivial⟩
      have hendn : (Expr.mk .OpNonGreedy kpos [left] []).Pos.End =
          tkE T (st.tpos - 1) := by
        show kpos.End = tkE T (st.tpos - 1)
        rw [hE]
      exact quant_post hT hto hle h2le hkk hKprev hple hout hm0
        (modeAfter_neutral (by intro hx; cases hx) (by intro hx; cases hx)
              (by intro hx; cases hx))
        (by intro hx; cases hx) hemit hpredn
        (by intro hx; cases hx) (by intro hx; cases hx) hendn
    case OpStar =>
      simp only [hLo] at h
      have h2 : Except.ok ((Expr.mk .OpNonGreedy kpos [left] [] : Expr), st) =
          Except.ok (e2, st2) := h
      cases h2
      have hm0 : modeAt T (st.tpos - 1) = false := mode_false_at hT hlt
        (by rw [hkk]; intro hx;
                rcases hx with hx|hx|hx|hx|hx|hx|hx|hx|hx|hx|hx|hx <;> cases hx)
      have hc := tk_content_eta hT hlt
      rw [hkk] at hc
      obtain ⟨hc1, hc2⟩ := hc
      have hc1b : tkE T (st.tpos - 1) = tkB T (st.tpos - 1) + 1 := hc1
      have hc2b : byteAt s (tkB T (st.tpos - 1)) = 63 := hc2
      have hsingle : sliceStr s (tkB T (st.tpos - 1)) (tkE T (st.tpos - 1)) =
          [63] := by
        rw [hc1b]
        exact sliceStr_single hc2b (by
          have hsp := (tk_span hT hlt).2
          omega)
      have hemit : emitSpan s (Expr.mk .OpNonGreedy kpos [left] []) =
          emitSpan s left ++
          sliceStr s (tkB T (st.tpos - 1)) (tkE T (st.tpos - 1)) := by
        rw [hsingle]
        show (emitSpan s left ++ ([] : Str)) ++ [63] = _
        rw [List.append_nil]
      have hpredn : allNodes seqPosAmended (Expr.mk .OpNonGreedy kpos [left] []) :=
        ⟨seqPosAmended_of_ops (by intro hx; cases hx) (by intro hx; cases hx)
              (by intro hx; cases hx) (by intro hx; cases hx) (by intro hx; cases hx), hLpred, trivial⟩
      have hendn : (Expr.mk .OpNonGreedy kpos [left] []).Pos.End =
          tkE T (st.tpos - 1) := by
        show kpos.End = tkE T (st.tpos - 1)
        rw [hE]
      exact quant_post hT hto hle h2le hkk hKprev hple hout hm0
        (modeAfter_neutral (by intro hx; cases hx) (by intro hx; cases hx)
              (by intro hx; cases hx))
        (by intro hx; cases hx) hemit hpredn
        (by intro hx; cases hx) (by intro hx; cases hx) hendn
    case OpQuestion =>
      simp only [hLo] at h
      have h2 : Except.ok ((Expr.mk .OpNonGreedy kpos [left] [] : Expr), st) =
          Except.ok (e2, st2) := h
      cases h2
      have hm0 : modeAt T (st.tpos - 1) = false := mode_false_at hT hlt
        (by rw [hkk]; intro hx;
                rcases hx with hx|hx|hx|hx|hx|hx|hx|hx|hx|hx|hx|hx <;> cases hx)
      have hc := tk_content_eta hT hlt
      rw [hkk] at hc
      obtain ⟨hc1, hc2⟩ := hc
      have hc1b : tkE T (st.tpos - 1) = tkB T (st.tpos - 1) + 1 := hc1
      have hc2b : byteAt s (tkB T (st.tpos - 1)) = 63 := hc2
      have hsingle : sliceStr s (tkB T (st.tpos - 1)) (tkE T (st.tpos - 1)) =
          [63] := by
        rw [hc1b]
        exact sliceStr_single hc2b (by
          have hsp := (tk_span hT hlt).2
          omega)
      have hemit : emitSpan s (Expr.mk .OpNonGreedy kpos [left] []) =
          emitSpan s left ++
          sliceStr s (tkB T (st.tpos - 1)) (tkE T (st.tpos - 1)) := by
        rw [hsingle]
        show (emitSpan s left ++ ([] : Str)) ++ [63] = _
        rw [List.append_nil]
      have hpredn : allNodes seqPosAmended (Expr.mk .OpNonGreedy kpos [left] []) :=
        ⟨seqPosAmended_of_ops (by intro hx; cases hx) (by intro hx; cases hx)
              (by intro hx; cases hx) (by intro hx; cases hx) (by intro hx; cases hx), hLpred, trivial⟩
      have hendn : (Expr.mk .OpNonGreedy kpos [left] []).Pos.End =
          tkE T (st.tpos - 1) := by
        show kpos.End = tkE T (st.tpos - 1)
        rw [hE]
      exact quant_post hT hto hle h2le hkk hKprev hple hout hm0
        (modeAfter_neutral (by intro hx; cases hx) (by intro hx; cases hx)
              (by intro hx; cases hx))
        (by intro hx; cases hx) hemit hpredn
        (by intro hx; cases hx) (by intro hx; cases hx) hendn
    case OpRepeat =>
      simp only [hLo] at h
      have h2 : Except.ok ((Expr.mk .OpNonGreedy kpos [left] [] : Expr), st) =
          Except.ok (e2, st2) := h
      cases h2
      have hm0 : modeAt T (st.tpos - 1) = false := mode_false_at hT hlt
        (by rw [hkk]; intro hx;
                rcases hx with hx|hx|hx|hx|hx|hx|hx|hx|hx|hx|hx|hx <;> cases hx)
      have hc := tk_content_eta hT hlt
      rw [hkk] at hc
      obtain ⟨hc1, hc2⟩ := hc
      have hc1b : tkE T (st.tpos - 1) = tkB T (st.tpos - 1) + 1 := hc1
      have hc2b : byteAt s (tkB T (st.tpos - 1)) = 63 := hc2
      have hsingle : sliceStr s (tkB T (st.tpos - 1)) (tkE T (st.tpos - 1)) =
          [63] := by
        rw [hc1b]
        exact sliceStr_single hc2b (by
          have hsp := (tk_span hT hlt).2
          omega)
      have hemit : emitSpan s (Expr.mk .OpNonGreedy kpos [left] []) =
          emitSpan s left ++
          sliceStr s (tkB T (st.tpos - 1)) (tkE T (st.tpos - 1)) := by
        rw [hsingle]
        show (emitSpan s left ++ ([] : Str)) ++ [63] = _
        rw [List.append_nil]
      have hpredn : allNodes seqPosAmended (Expr.mk .OpNonGreedy kpos [left] []) :=
        ⟨seqPosAmended_of_ops (by intro hx; cases hx) (by intro hx; cases hx)
              (by intro hx; cases hx) (by intro hx; cases hx) (by intro hx; cases hx), hLpred, trivial⟩
      have hendn : (Expr.mk .OpNonGreedy kpos [left] []).Pos.End =
          tkE T (st.tpos - 1) := by
        show kpos.End = tkE T (st.tpos - 1)
        rw [hE]
      exact quant_post hT hto hle h2le hkk hKprev hple hout hm0
        (modeAfter_neutral (by intro hx; cases hx) (by intro hx; cases hx)
              (by intro hx; cases hx))
        (by intro hx; cases hx) hemit hpredn
        (by intro hx; cases hx) (by intro hx; cases hx) hendn
    all_goals
      simp only [hLo] at h
      have h2 : Except.ok ((Expr.mk .OpQuestion kpos [left] [] : Expr), st) =
          Except.ok (e2, st2) := h
      cases h2
      have hm0 : modeAt T (st.tpos - 1) = false := mode_false_at hT hlt
        (by rw [hkk]; intro hx;
                rcases hx with hx|hx|hx|hx|hx|hx|hx|hx|hx|hx|hx|hx <;> cases hx)
      have hc := tk_content_eta hT hlt
      rw [hkk] at hc
      obtain ⟨hc1, hc2⟩ := hc
      have hc1b : tkE T (st.tpos - 1) = tkB T (st.tpos - 1) + 1 := hc1
      have hc2b : byteAt s (tkB T (st.tpos - 1)) = 63 := hc2
      have hsingle : sliceStr s (tkB T (st.tpos - 1)) (tkE T (st.tpos - 1)) =
          [63] := by
        rw [hc1b]
        exact sliceStr_single hc2b (by
          have hsp := (tk_span hT hlt).2
          omega)
      have hemit : emitSpan s (Expr.mk .OpQuestion kpos [left] []) =
          emitSpan s left ++
          sliceStr s (tkB T (st.tpos - 1)) (tkE T (st.tpos - 1)) := by
        rw [hsingle]
        show (emitSpan s left ++ ([] : Str)) ++ [63] = _
        rw [List.append_nil]
      have hpredn : allNodes seqPosAmended (Expr.mk .OpQuestion kpos [left] []) :=
        ⟨seqPosAmended_of_ops (by intro hx; cases hx) (by intro hx; cases hx)
              (by intro hx; cases hx) (by intro hx; cases hx) (by intro hx; cases hx), hLpred, trivial⟩
      have hendn : (Expr.mk .OpQuestion kpos [left] []).Pos.End =
          tkE T (st.tpos - 1) := by
        show kpos.End = tkE T (st.tpos - 1)
        rw [hE]
      exact quant_post hT hto hle h2le hkk hKprev hple hout hm0
        (modeAfter_neutral (by intro hx; cases hx) (by intro hx; cases hx)
              (by intro hx; cases hx))
        (by intro hx; cases hx) hemit hpredn
        (by intro hx; cases hx) (by intro hx; cases hx) hendn
  case tokNone =>
    have h2 : (Except.error (PFail.panicked "nil infix parselet") :
        Except PFail (Expr × PState)) = Except.ok (e2, st2) := h
    cases h2
  case tokChar =>
    have h2 : (Except.error (PFail.panicked "nil infix parselet") :
        Except PFail (Expr × PState)) = Except.ok (e2, st2) := h
    cases h2
  case tokGroupFlags =>
    have h2 : (Except.error (PFail.panicked "nil infix parselet") :
        Except PFail (Expr × PState)) = Except.ok (e2, st2) := h
    cases h2
  case tokPosixClass =>
    have h2 : (Except.error (PFail.panicked "nil infix parselet") :
        Except PFail (Expr × PState)) = Except.ok (e2, st2) := h
    cases h2
  case tokEscape =>
    have h2 : (Except.error (PFail.panicked "nil infix parselet") :
        Except PFail (Expr × PState)) = Except.ok (e2, st2) := h
    cases h2
  case tokEscapeMeta =>
    have h2 : (Except.error (PFail.panicked "nil infix parselet") :
        Except PFail (Expr × PState)) = Except.ok (e2, st2) := h
    cases h2
  case tokEscapeOctal =>
    have h2 : (Except.error (PFail.panicked "nil infix parselet") :
        Except PFail (Expr × PState)) = Except.ok (e2, st2) := h
    cases h2
  case tokEscapeUni =>
    have h2 : (Except.error (PFail.panicked "nil infix parselet") :
        Except PFail (Expr × PState)) = Except.ok (e2, st2) := h
    cases h2
  case tokEscapeUniFull =>
    have h2 : (Except.error (PFail.panicked "nil infix parselet") :
        Except PFail (Expr × PState)) = Except.ok (e2, st2) := h
    cases h2
  case tokEscapeHex =>
    have h2 : (Except.error (PFail.panicked "nil infix parselet") :
        Except PFail (Expr × PState)) = Except.ok (e2, st2) := h
    cases h2
  case tokEscapeHexFull =>
    have h2 : (Except.error (PFail.panicked "nil infix parselet") :
        Except PFail (Expr × PState)) = Except.ok (e2, st2) := h
    cases h2
  case tokComment =>
    have h2 : (Except.error (PFail.panicked "nil infix parselet") :
        Except PFail (Expr × PState)) = Except.ok (e2, st2) := h
    cases h2
  case tokQ =>
    have h2 : (Except.error (PFail.panicked "nil infix parselet") :
        Except PFail (Expr × PState)) = Except.ok (e2, st2) := h
    cases h2
  case tokLbracket =>
    have h2 : (Except.error (PFail.panicked "nil infix parselet") :
        Except PFail (Expr × PState)) = Except.ok (e2, st2) := h
    cases h2
  case tokLbracketCaret =>
    have h2 : (Except.error (PFail.panicked "nil infix parselet") :
        Except PFail (Expr × PState)) = Except.ok (e2, st2) := h
    cases h2
  case tokRbracket =>
    have h2 : (Except.error (PFail.panicked "nil infix parselet") :
        Except PFail (Expr × PState)) = Except.ok (e2, st2) := h
    cases h2
  case tokDollar =>
    have h2 : (Except.error (PFail.panicked "nil infix parselet") :
        Except PFail (Expr × PState)) = Except.ok (e2, st2) := h
    cases h2
  case tokCaret =>
    have h2 : (Except.error (PFail.panicked "nil infix parselet") :
        Except PFail (Expr × PState)) = Except.ok (e2, st2) := h
    cases h2
  case tokDot =>
    have h2 : (Except.error (PFail.panicked "nil infix parselet") :
        Except PFail (Expr × PState)) = Except.ok (e2, st2) := h
    cases h2
  case tokLparen =>
    have h2 : (Except.error (PFail.panicked "nil infix parselet") :
        Except PFail (Expr × PState)) = Except.ok (e2, st2) := h
    cases h2
  case tokLparenName =>
    have h2 : (Except.error (PFail.panicked "nil infix parselet") :
        Except PFail (Expr × PState)) = Except.ok (e2, st2) := h
    cases h2
  case tokLparenFlags =>
    have h2 : (Except.error (PFail.panicked "nil infix parselet") :
        Except PFail (Expr × PState)) = Except.ok (e2, st2) := h
    cases h2
  case tokLparenAtomic =>
    have h2 : (Except.error (PFail.panicked "nil infix parselet") :
        Except PFail (Expr × PState)) = Except.ok (e2, st2) := h
    cases h2
  case tokLparenPositiveLookahead =>
    have h2 : (Except.error (PFail.panicked "nil infix parselet") :
        Except PFail (Expr × PState)) = Except.ok (e2, st2) := h
    cases h2
  case tokLparenPositiveLookbehind =>
    have h2 : (Except.error (PFail.panicked "nil infix parselet") :
        Except PFail (Expr × PState)) = Except.ok (e2, st2) := h
    cases h2
  case tokLparenNegativeLookahead =>
    have h2 : (Except.error (PFail.panicked "nil infix parselet") :
        Except PFail (Expr × PState)) = Except.ok (e2, st2) := h
    cases h2
  case tokLparenNegativeLookbehind =>
    have h2 : (Except.error (PFail.panicked "nil infix parselet") :
        Except PFail (Expr × PState)) = Except.ok (e2, st2) := h
    cases h2
  case tokRparen =>
    have h2 : (Except.error (PFail.panicked "nil infix parselet") :
        Except PFail (Expr × PState)) = Except.ok (e2, st2) := h
    cases h2


theorem stepPM (s : Str) (T : List token) (hT : LexOK s T) (fuel : Nat)
    (hPE : PEok s T fuel) : PMok s T (fuel + 1) := by
  intro left tok st e2 st2 p cc0 Dpre hto hle h2le htok hkk hKprev hLend
    hLpred hLsh1 hLsh2 hple hin h
  simp only [parseMinus] at h
  have hlt : st.tpos - 1 < T.length := by omega
  have hm0 : modeAt T (st.tpos - 1) = true := mode_true_at hT hlt (Or.inl hkk)
  have hB : tkB T (st.tpos - 1) = tok.pos.Begin := by rw [tkB, ← htok]
  have hE : tkE T (st.tpos - 1) = tok.pos.End := by rw [tkE, ← htok]
  have hmode : modeAt T st.tpos = modeAt T (st.tpos - 1) := by
    have hsucc := modeAt_succ T (st.tpos - 1) hlt
    have he : st.tpos - 1 + 1 = st.tpos := by omega
    rw [he] at hsucc
    rw [hsucc, hkk]
    exact modeAfter_neutral (by intro hx; cases hx) (by intro hx; cases hx)
      (by intro hx; cases hx)
  have hc := tk_content_eta hT hlt
  rw [hkk] at hc
  obtain ⟨hc1, hc2⟩ := hc
  have hc1b : tkE T (st.tpos - 1) = tkB T (st.tpos - 1) + 1 := hc1
  have hc2b : byteAt s (tkB T (st.tpos - 1)) = 45 := hc2
  have hsingle : sliceStr s (tkB T (st.tpos - 1)) (tkE T (st.tpos - 1)) =
      [45] := by
    rw [hc1b]
    exact sliceStr_single hc2b (by
      have hsp := (tk_span hT hlt).2
      omega)
  have hchain_pre : tkE T (st.tpos - 2) = tkB T (st.tpos - 1) := by
    have hj1 : st.tpos - 2 + 1 = st.tpos - 1 := by omega
    have hch := tk_chain hT (show st.tpos - 2 + 1 < T.length by omega) hKprev
    rw [hj1] at hch
    exact hch
  have hg2 : tkE T (st.tpos - 2) ≤ tkE T (st.tpos - 1) :=
    tkE_le_tkE hT (by omega) hlt
  have hglen : tkE T (st.tpos - 2) ≤ s.length :=
    (tk_span hT (show st.tpos - 2 < T.length by omega)).2
  obtain ⟨hin1cc, hinglue, hinhead, hinpred⟩ := hin hm0
  by_cases hrg : ((left.Op = Operation.OpEscapeMeta ||
        left.Op = Operation.OpChar) &&
      ((peekToken st).kind = tokenKind.tokChar ||
        (peekToken st).kind = tokenKind.tokEscapeMeta ||
        (peekToken st).kind = tokenKind.tokMinus)) = true
  · rw [if_pos hrg] at h
    cases hres : parseExpr s fuel 2 st with
    | error f =>
      simp only [hres] at h
      cases h
    | ok pair =>
      obtain ⟨right, st1⟩ := pair
      simp only [hres] at h
      have hpe := hPE 2 st right st1 hto hle hres
      have h2 : Except.ok ((Expr.mk .OpCharRange
          (combinePos left.Pos right.Pos) [left, right] [] : Expr), st1) =
          Except.ok (e2, st2) := h
      cases h2
      obtain ⟨h1to, h1ab, h1le, hpost1⟩ := hpe
      obtain ⟨hm1, hout1, hin1, hpred1, hsh11, hsh12, hend1, hkc1⟩ := hpost1
      have hmodeT : modeAt T st.tpos = true := by
        rw [hmode]
        exact hm0
      obtain ⟨D2, hD1, hD2e, hD3, hD4, hD5⟩ := hin1 hmodeT
      have hD2nil : D2 = [] := hD2e (le_refl 2)
      subst hD2nil
      have hcc1 : st2.charClass = st.charClass := by
        rw [hD1, List.append_nil]
      have hcovR : emitSpan s right =
          sliceStr s (tkB T st.tpos) (tkE T (st2.tpos - 1)) := by
        have h3 := hD3
        rw [show emitSpanList s ([] : List Expr) = [] from rfl,
          List.nil_append] at h3
        exact h3
      have hchain_at : tkE T (st.tpos - 1) = tkB T st.tpos := by
        have he2 : st.tpos - 1 + 1 = st.tpos := by omega
        have hch := tk_chain hT (show st.tpos - 1 + 1 < T.length by omega)
          (by rw [hkk]; intro hx; cases hx)
        rw [he2] at hch
        exact hch
      have hq2 : tkE T (st.tpos - 1) ≤ tkE T (st2.tpos - 1) :=
        tkE_le_tkE hT (by omega) (by omega)
      refine ⟨h1to, by omega, h1le, ?_, ?_, ?_, ?_, ?_, ?_, ?_, ?_⟩
      · rw [hm1]
        exact hmode
      · intro hmf
        rw [hm0] at hmf
        cases hmf
      · intro _
        refine ⟨Dpre, ?_, ?_, ?_, ?_, hinpred⟩
        · rw [hcc1]
          exact hin1cc
        · intro h20
          exact absurd h20 (by omega)
        · show emitSpanList s Dpre ++
            (emitSpan s left ++ [45] ++ emitSpan s right) =
            sliceStr s p (tkE T (st2.tpos - 1))
          rw [hcovR, ← hsingle, ← hchain_at]
          simp only [← List.append_assoc]
          rw [hinglue, ← hchain_pre]
          rw [sliceStr_glue hple hg2 hglen]
          exact sliceStr_glue (le_trans hple hg2) hq2 ((tk_span hT hlt).2)
        · cases Dpre with
          | nil => exact hinhead
          | cons d0 dr => exact hinhead
      · exact ⟨seqPosAmended_of_ops (by intro hx; cases hx)
          (by intro hx; cases hx) (by intro hx; cases hx)
          (by intro hx; cases hx) (by intro hx; cases hx),
          hLpred, hpred1, trivial⟩
      · intro hx
        cases hx
      · intro hx
        cases hx
      · show right.Pos.End = tkE T (st2.tpos - 1)
        exact hend1
      · exact hkc1
  · rw [if_neg hrg] at h
    have h2 : Except.ok ((Expr.mk .OpChar tok.pos [] [] : Expr),
        ({ st with charClass := st.charClass ++ [left] } : PState)) =
        Except.ok (e2, st2) := h
    cases h2
    refine ⟨hto, le_refl _, hle, ?_, ?_, ?_, ?_, ?_, ?_, ?_, ?_⟩
    · exact hmode
    · intro hmf
      rw [hm0] at hmf
      cases hmf
    · intro _
      refine ⟨Dpre ++ [left], ?_, ?_, ?_, ?_, ?_⟩
      · show st.charClass ++ [left] = cc0 ++ (Dpre ++ [left])
        rw [hin1cc, List.append_assoc]
      · intro h20
        exact absurd h20 (by omega)
      · show emitSpanList s (Dpre ++ [left]) ++
          sliceStr s tok.pos.Begin tok.pos.End =
          sliceStr s p (tkE T (st.tpos - 1))
        rw [emitSpanList_append, ← hB, ← hE]
        rw [show emitSpanList s [left] = emitSpan s left ++ ([] : Str)
          from rfl, List.append_nil, hinglue, ← hchain_pre]
        exact sliceStr_glue hple hg2 hglen
      · cases Dpre with
        | nil => exact hinhead
        | cons d0 dr => exact hinhead
      · exact allNodesList_append.mpr ⟨hinpred, hLpred, trivial⟩
    · exact pred_empty_args _ _ _
    · intro hx
      cases hx
    · intro hx
      cases hx
    · show tok.pos.End = tkE T (st.tpos - 1)
      rw [hE]
    · show tkK T (st.tpos - 1) ≠ .tokConcat
      rw [hkk]
      intro hx
      cases hx


theorem stepCL (s : Str) (T : List token) (hT : LexOK s T) (fuel : Nat)
    (hPE : PEok s T fuel) (hCL : CLok s T fuel) : CLok s T (fuel + 1) := by
  intro tok st ep st2 hto hle hmode h
  rw [classLoop] at h
  cases hres : parseExpr s fuel 0 st with
  | error f =>
    simp only [hres] at h
    cases h
  | ok pair =>
    obtain ⟨e, st1⟩ := pair
    simp only [hres] at h
    have hpe := hPE 0 st e st1 hto hle hres
    obtain ⟨h1to, h1ab, h1le, hpost1⟩ := hpe
    obtain ⟨hm1, hout1, hin1, hpred1, hsh11, hsh12, hend1, hkc1⟩ := hpost1
    have hm1b : modeAt T st1.tpos = modeAt T st.tpos := hm1
    obtain ⟨D, hD1, -, hD3, hD4, hD5⟩ := hin1 hmode
    by_cases hrb : (peekToken
        { st1 with charClass := st1.charClass ++ [e] }).kind =
        tokenKind.tokRbracket
    · rw [if_pos hrb] at h
      by_cases htp : st1.tpos < st1.tokens.length
      · rw [nextToken_lt (show
            ({ st1 with charClass := st1.charClass ++ [e] } : PState).tpos <
            ({ st1 with charClass := st1.charClass ++ [e] } :
              PState).tokens.length from htp)] at h
        rw [peekToken_lt (show
            ({ st1 with charClass := st1.charClass ++ [e] } : PState).tpos <
            ({ st1 with charClass := st1.charClass ++ [e] } :
              PState).tokens.length from htp)] at h hrb
        have h2 : Except.ok
            (((st1.tokens.getD st1.tpos noneToken).pos : Position),
              (⟨st1.tokens, st1.tpos + 1, st1.charClass ++ [e]⟩ : PState)) =
            Except.ok (ep, st2) := h
        cases h2
        have hNlt : st1.tpos < T.length := by rw [← h1to]; exact htp
        have hrb2 : tkK T st1.tpos = .tokRbracket := by
          rw [tkK, ← h1to]
          exact hrb
        have hmT : modeAt T st1.tpos = true := by
          rw [hm1b]
          exact hmode
        have hch : tkE T (st1.tpos - 1) = tkB T st1.tpos := by
          have he2 : st1.tpos - 1 + 1 = st1.tpos := by omega
          have hc3 := tk_chain hT
            (show st1.tpos - 1 + 1 < T.length by omega) hkc1
          rw [he2] at hc3
          exact hc3
        refine ⟨h1to, show st.tpos < st1.tpos + 1 by omega, ?_, hrb2,
          ?_, ?_, ?_⟩
        · show st1.tpos + 1 ≤ T.length
          omega
        · show (st1.tokens.getD st1.tpos noneToken).pos =
            (T.getD (st1.tpos + 1 - 1) noneToken).pos
          rw [h1to, Nat.add_sub_cancel]
        · show modeAt T (st1.tpos + 1) = false
          rw [modeAt_succ T st1.tpos hNlt, hrb2, hmT]
          decide
        · refine ⟨D ++ [e], by simp, ?_, ?_, hD4, ?_, ?_⟩
          · show st1.charClass ++ [e] = st.charClass ++ (D ++ [e])
            rw [hD1, List.append_assoc]
          · show emitSpanList s (D ++ [e]) =
              sliceStr s (tkB T st.tpos) (tkB T st1.tpos)
            rw [emitSpanList_append,
              show emitSpanList s [e] = emitSpan s e ++ ([] : Str) from rfl,
              List.append_nil, ← hch]
            exact hD3
          · show ((D ++ [e]).getLastI).Pos.End = tkB T st1.tpos
            rw [getLastI_concat, hend1]
            exact hch
          · exact allNodesList_append.mpr ⟨hD5, hpred1, trivial⟩
      · exfalso
        rw [peekToken_ge (show ¬
            ({ st1 with charClass := st1.charClass ++ [e] } : PState).tpos <
            ({ st1 with charClass := st1.charClass ++ [e] } :
              PState).tokens.length from htp)] at hrb
        exact absurd (show (noneToken).kind = .tokRbracket from hrb)
          (by decide)
    · rw [if_neg hrb] at h
      by_cases hnn : (peekToken
          { st1 with charClass := st1.charClass ++ [e] }).kind =
          tokenKind.tokNone
      · rw [if_pos hnn] at h
        cases h
      · rw [if_neg hnn] at h
        have hmT1 : modeAt T st1.tpos = true := by
          rw [hm1b]
          exact hmode
        have hcl := hCL tok { st1 with charClass := st1.charClass ++ [e] }
          ep st2 h1to h1le hmT1 h
        obtain ⟨h2to, h2ab, h2le, h2K, h2ep, h2mode, Dall2, hA1, hA2, hA3,
          hA4, hA5, hA6⟩ := hcl
        have h2ab2 : st1.tpos < st2.tpos := h2ab
        have hch : tkE T (st1.tpos - 1) = tkB T st1.tpos := by
          have he2 : st1.tpos - 1 + 1 = st1.tpos := by omega
          have hc3 := tk_chain hT
            (show st1.tpos - 1 + 1 < T.length by omega) hkc1
          rw [he2] at hc3
          exact hc3
        have hfirst : emitSpanList s (D ++ [e]) =
            sliceStr s (tkB T st.tpos) (tkB T st1.tpos) := by
          rw [emitSpanList_append,
            show emitSpanList s [e] = emitSpan s e ++ ([] : Str) from rfl,
            List.append_nil, ← hch]
          exact hD3
        have hBmono1 : tkB T st.tpos ≤ tkB T st1.tpos :=
          tkB_mono hT st1.tpos st.tpos (by omega) (by omega)
        have hBmono2 : tkB T st1.tpos ≤ tkB T (st2.tpos - 1) :=
          tkB_mono hT (st2.tpos - 1) st1.tpos (by omega) (by omega)
        have hBlen : tkB T st1.tpos ≤ s.length :=
          le_trans (tk_span hT (show st1.tpos < T.length by omega)).1
            (tk_span hT (show st1.tpos < T.length by omega)).2
        refine ⟨h2to, by omega, h2le, h2K, h2ep, h2mode, ?_⟩
        refine ⟨(D ++ [e]) ++ Dall2, by simp, ?_, ?_, ?_, ?_, ?_⟩
        · have hA2b : st2.charClass = (st1.charClass ++ [e]) ++ Dall2 := hA2
          rw [hA2b, hD1]
          simp [List.append_assoc]
        · rw [emitSpanList_append, hfirst]
          have hA3b : emitSpanList s Dall2 =
              sliceStr s (tkB T st1.tpos) (tkB T (st2.tpos - 1)) := hA3
          rw [hA3b]
          exact sliceStr_glue hBmono1 hBmono2 hBlen
        · rw [headI_append_left (D ++ [e]) Dall2 (by simp)]
          exact hD4
        · rw [getLastI_append (D ++ [e]) Dall2 hA1]
          exact hA5
        · exact allNodesList_append.mpr
            ⟨allNodesList_append.mpr ⟨hD5, hpred1, trivial⟩, hA6⟩



theorem stepPCC (s : Str) (T : List token) (hT : LexOK s T) (fuel : Nat)
    (hCL : CLok s T fuel) : PCCok s T (fuel + 1) := by
  intro op tok st e st2 hto hle h1le htok hdisp h
  rw [parseCharClass] at h
  have hlt : st.tpos - 1 < T.length := by omega
  rcases hdisp with ⟨hkk, hopc⟩ | ⟨hkk, hopc⟩
  ·
    subst hopc
    have hB : tkB T (st.tpos - 1) = tok.pos.Begin := by rw [tkB, ← htok]
    have hE : tkE T (st.tpos - 1) = tok.pos.End := by rw [tkE, ← htok]
    have hm0 : modeAt T (st.tpos - 1) = false := mode_false_at hT hlt
      (by rw [hkk]; intro hx;
          rcases hx with hx|hx|hx|hx|hx|hx|hx|hx|hx|hx|hx|hx <;> cases hx)
    have hmodeA : modeAt T st.tpos = true := by
      have hsucc := modeAt_succ T (st.tpos - 1) hlt
      have he : st.tpos - 1 + 1 = st.tpos := by omega
      rw [he] at hsucc
      rw [hsucc, hkk]
      unfold modeAfter
      rw [if_pos (Or.inl rfl)]
    have hc := tk_content_eta hT hlt
    rw [hkk] at hc
    obtain ⟨hc1, hc2⟩ := hc
    have hc1b : tkE T (st.tpos - 1) = tkB T (st.tpos - 1) + 1 := hc1
    have hc2b : byteAt s (tkB T (st.tpos - 1)) = 91 := hc2
    by_cases hrb : (peekToken st).kind = tokenKind.tokRbracket
    · rw [if_pos hrb] at h
      by_cases htp : st.tpos < st.tokens.length
      · simp only [nextToken_lt htp] at h
        rw [peekToken_lt htp] at hrb
        have h2 : Except.ok ((Expr.mk .OpCharClass
            (combinePos tok.pos (st.tokens.getD st.tpos noneToken).pos) [] []
            : Expr), ({ st with tpos := st.tpos + 1 } : PState)) =
            Except.ok (e, st2) := h
        cases h2
        have hNlt : st.tpos < T.length := by rw [← hto]; exact htp
        have hrb2 : tkK T st.tpos = .tokRbracket := by
          rw [tkK, ← hto]
          exact hrb
        have hcr := tk_content_eta hT hNlt
        rw [hrb2] at hcr
        obtain ⟨hcr1, hcr2⟩ := hcr
        have hcr1b : tkE T st.tpos = tkB T st.tpos + 1 := hcr1
        have hcr2b : byteAt s (tkB T st.tpos) = 93 := hcr2
        have hchain : tkE T (st.tpos - 1) = tkB T st.tpos := by
          have he2 : st.tpos - 1 + 1 = st.tpos := by omega
          have hc4 := tk_chain hT (show st.tpos - 1 + 1 < T.length by omega)
            (by rw [hkk]; intro hx; cases hx)
          rw [he2] at hc4
          exact hc4
        have hemitHead : sliceStr s (tkB T (st.tpos - 1)) (tkB T st.tpos) =
            [91] := by
          rw [← hchain, hc1b]
          exact sliceStr_single hc2b (by
            have hsp := (tk_span hT hlt).2
            omega)
        have hemitLastE : sliceStr s (tkB T st.tpos) (tkE T st.tpos) =
            [93] := by
          rw [hcr1b]
          exact sliceStr_single hcr2b (by
            have hsp := (tk_span hT hNlt).2
            omega)
        refine ⟨hto, show st.tpos ≤ st.tpos + 1 by omega,
          show st.tpos + 1 ≤ T.length by omega, ?_, ?_, ?_, ?_, ?_, ?_,
          ?_, ?_⟩
        · show modeAt T (st.tpos + 1) = modeAt T (st.tpos - 1)
          rw [modeAt_succ T st.tpos hNlt, hrb2, hm0]
          unfold modeAfter
          rw [if_neg (by intro hx; rcases hx with hx | hx <;> cases hx),
            if_pos rfl]
        · intro _
          show [91] ++ emitSpanList s [] ++ [93] =
            sliceStr s (tkB T (st.tpos - 1)) (tkE T (st.tpos + 1 - 1))
          rw [Nat.add_sub_cancel,
            show emitSpanList s ([] : List Expr) = [] from rfl,
            List.append_nil]
          rw [← sliceStr_glue (show tkB T (st.tpos - 1) ≤ tkB T st.tpos
              by omega)
            ((tk_span hT hNlt).1)
            (by
              have hsp := (tk_span hT hNlt).2
              have hsp1 := (tk_span hT hNlt).1
              omega)]
          rw [hemitHead, hemitLastE]
        · intro hmt
          rw [hm0] at hmt
          cases hmt
        · exact pred_empty_args _ _ _
        · intro hx
          cases hx
        · intro hx
          cases hx
        · show (st.tokens.getD st.tpos noneToken).pos.End =
            tkE T (st.tpos + 1 - 1)
          rw [Nat.add_sub_cancel, tkE, hto]
        · show tkK T (st.tpos + 1 - 1) ≠ .tokConcat
          rw [Nat.add_sub_cancel, hrb2]
          intro hx
          cases hx
      · exfalso
        rw [peekToken_ge htp] at hrb
        exact absurd (show (noneToken).kind = .tokRbracket from hrb)
          (by decide)
    · rw [if_neg hrb] at h
      cases hcl : classLoop s fuel tok { st with charClass := [] } with
      | error f =>
        simp only [hcl] at h
        cases h
      | ok pair =>
        obtain ⟨endPos, stc⟩ := pair
        simp only [hcl] at h
        have hclk := hCL tok { st with charClass := [] } endPos stc hto hle
          hmodeA hcl
        have h2 : Except.ok ((Expr.mk .OpCharClass (combinePos tok.pos endPos)
            stc.charClass [] : Expr), stc) = Except.ok (e, st2) := h
        cases h2
        obtain ⟨h2to, h2ab, h2le, h2K, h2ep, h2mode, Dall, hA1, hA2, hA3,
          hA4, hA5, hA6⟩ := hclk
        have h2ab2 : st.tpos < st2.tpos := h2ab
        have hccD : st2.charClass = Dall := by
          have hA2b : st2.charClass = [] ++ Dall := hA2
          rw [hA2b, List.nil_append]
        have hA3b : emitSpanList s Dall =
            sliceStr s (tkB T st.tpos) (tkB T (st2.tpos - 1)) := hA3
        have hA4b : (Dall.headI).Pos.Begin = tkB T st.tpos := hA4
        have hA5b : (Dall.getLastI).Pos.End = tkB T (st2.tpos - 1) := hA5
        have hb1lt : st2.tpos - 1 < T.length := by omega
        have hcr := tk_content_eta hT hb1lt
        rw [h2K] at hcr
        obtain ⟨hcr1, hcr2⟩ := hcr
        have hcr1b : tkE T (st2.tpos - 1) = tkB T (st2.tpos - 1) + 1 := hcr1
        have hcr2b : byteAt s (tkB T (st2.tpos - 1)) = 93 := hcr2
        have hchain : tkE T (st.tpos - 1) = tkB T st.tpos := by
          have he2 : st.tpos - 1 + 1 = st.tpos := by omega
          have hc4 := tk_chain hT (show st.tpos - 1 + 1 < T.length by omega)
            (by rw [hkk]; intro hx; cases hx)
          rw [he2] at hc4
          exact hc4
        have hEp : endPos.End = tkE T (st2.tpos - 1) := by
          rw [h2ep, tkE]
        have hemitHead : sliceStr s (tkB T (st.tpos - 1)) (tkB T st.tpos) =
            [91] := by
          rw [← hchain, hc1b]
          exact sliceStr_single hc2b (by
            have hsp := (tk_span hT hlt).2
            omega)
        have hemitLast : sliceStr s (tkB T (st2.tpos - 1))
            (tkE T (st2.tpos - 1)) = [93] := by
          rw [hcr1b]
          exact sliceStr_single hcr2b (by
            have hsp := (tk_span hT hb1lt).2
            omega)
        have hg1 : tkB T (st.tpos - 1) ≤ tkB T st.tpos := by omega
        have hg2 : tkB T st.tpos ≤ tkB T (st2.tpos - 1) :=
          tkB_mono hT (st2.tpos - 1) st.tpos (by omega) (by omega)
        have hg3 : tkB T st.tpos ≤ s.length := by
          have hsp := (tk_span hT (show st.tpos < T.length by omega)).1
          have hsp2 := (tk_span hT (show st.tpos < T.length by omega)).2
          omega
        have hg5 : tkB T (st2.tpos - 1) ≤ tkE T (st2.tpos - 1) :=
          (tk_span hT hb1lt).1
        have hg6 : tkB T (st2.tpos - 1) ≤ s.length := by
          have hsp := (tk_span hT hb1lt).2
          omega
        refine ⟨h2to, by omega, h2le, ?_, ?_, ?_, ?_, ?_, ?_, ?_, ?_⟩
        · rw [h2mode, hm0]
        · intro _
          show [91] ++ emitSpanList s st2.charClass ++ [93] =
            sliceStr s (tkB T (st.tpos - 1)) (tkE T (st2.tpos - 1))
          rw [hccD, hA3b, ← hemitHead, ← hemitLast]
          rw [sliceStr_glue hg1 hg2 hg3]
          exact sliceStr_glue (le_trans hg1 hg2) hg5 hg6
        · intro hmt
          rw [hm0] at hmt
          cases hmt
        · refine ⟨⟨?_, ?_, ?_⟩, ?_⟩
          · intro hop _
            rcases hop with hx | hx | hx <;> cases hx
          · intro _ _
            constructor
            · show tok.pos.Begin + 1 = ((st2.charClass).headI).Pos.Begin
              rw [hccD, hA4b]
              omega
            · show endPos.End = ((st2.charClass).getLastI).Pos.End + 1
              rw [hccD, hA5b, hEp]
              exact hcr1b
          · intro hx
            cases hx
          · rw [hccD]
            exact hA6
        · intro hx
          cases hx
        · intro hx
          cases hx
        · show endPos.End = tkE T (st2.tpos - 1)
          exact hEp
        · show tkK T (st2.tpos - 1) ≠ .tokConcat
          rw [h2K]
          intro hx
          cases hx
  ·
    subst hopc
    have hB : tkB T (st.tpos - 1) = tok.pos.Begin := by rw [tkB, ← htok]
    have hE : tkE T (st.tpos - 1) = tok.pos.End := by rw [tkE, ← htok]
    have hm0 : modeAt T (st.tpos - 1) = false := mode_false_at hT hlt
      (by rw [hkk]; intro hx;
          rcases hx with hx|hx|hx|hx|hx|hx|hx|hx|hx|hx|hx|hx <;> cases hx)
    have hmodeA : modeAt T st.tpos = true := by
      have hsucc := modeAt_succ T (st.tpos - 1) hlt
      have he : st.tpos - 1 + 1 = st.tpos := by omega
      rw [he] at hsucc
      rw [hsucc, hkk]
      unfold modeAfter
      rw [if_pos (Or.inr rfl)]
    have hc := tk_content_eta hT hlt
    rw [hkk] at hc
    obtain ⟨hc1, hc2, hc3⟩ := hc
    have hc1b : tkE T (st.tpos - 1) = tkB T (st.tpos - 1) + 2 := hc1
    have hc2b : byteAt s (tkB T (st.tpos - 1)) = 91 := hc2
    have hc3b : byteAt s (tkB T (st.tpos - 1) + 1) = 94 := hc3
    by_cases hrb : (peekToken st).kind = tokenKind.tokRbracket
    · rw [if_pos hrb] at h
      by_cases htp : st.tpos < st.tokens.length
      · simp only [nextToken_lt htp] at h
        rw [peekToken_lt htp] at hrb
        have h2 : Except.ok ((Expr.mk .OpNegCharClass
            (combinePos tok.pos (st.tokens.getD st.tpos noneToken).pos) [] []
            : Expr), ({ st with tpos := st.tpos + 1 } : PState)) =
            Except.ok (e, st2) := h
        cases h2
        have hNlt : st.tpos < T.length := by rw [← hto]; exact htp
        have hrb2 : tkK T st.tpos = .tokRbracket := by
          rw [tkK, ← hto]
          exact hrb
        have hcr := tk_content_eta hT hNlt
        rw [hrb2] at hcr
        obtain ⟨hcr1, hcr2⟩ := hcr
        have hcr1b : tkE T st.tpos = tkB T st.tpos + 1 := hcr1
        have hcr2b : byteAt s (tkB T st.tpos) = 93 := hcr2
        have hchain : tkE T (st.tpos - 1) = tkB T st.tpos := by
          have he2 : st.tpos - 1 + 1 = st.tpos := by omega
          have hc4 := tk_chain hT (show st.tpos - 1 + 1 < T.length by omega)
            (by rw [hkk]; intro hx; cases hx)
          rw [he2] at hc4
          exact hc4
        have hemitHead : sliceStr s (tkB T (st.tpos - 1)) (tkB T st.tpos) =
            [91, 94] := by
          rw [← hchain, hc1b]
          rw [slice_cons_byte (show tkB T (st.tpos - 1) <
              tkB T (st.tpos - 1) + 2 by omega)
            (by
              have hsp := (tk_span hT hlt).2
              omega) hc2b]
          rw [show tkB T (st.tpos - 1) + 2 = (tkB T (st.tpos - 1) + 1) + 1
            from by omega]
          rw [sliceStr_single hc3b (by
            have hsp := (tk_span hT hlt).2
            omega)]
        have hemitLastE : sliceStr s (tkB T st.tpos) (tkE T st.tpos) =
            [93] := by
          rw [hcr1b]
          exact sliceStr_single hcr2b (by
            have hsp := (tk_span hT hNlt).2
            omega)
        refine ⟨hto, show st.tpos ≤ st.tpos + 1 by omega,
          show st.tpos + 1 ≤ T.length by omega, ?_, ?_, ?_, ?_, ?_, ?_,
          ?_, ?_⟩
        · show modeAt T (st.tpos + 1) = modeAt T (st.tpos - 1)
          rw [modeAt_succ T st.tpos hNlt, hrb2, hm0]
          unfold modeAfter
          rw [if_neg (by intro hx; rcases hx with hx | hx <;> cases hx),
            if_pos rfl]
        · intro _
          show [91, 94] ++ emitSpanList s [] ++ [93] =
            sliceStr s (tkB T (st.tpos - 1)) (tkE T (st.tpos + 1 - 1))
          rw [Nat.add_sub_cancel,
            show emitSpanList s ([] : List Expr) = [] from rfl,
            List.append_nil]
          rw [← sliceStr_glue (show tkB T (st.tpos - 1) ≤ tkB T st.tpos
              by omega)
            ((tk_span hT hNlt).1)
            (by
              have hsp := (tk_span hT hNlt).2
              have hsp1 := (tk_span hT hNlt).1
              omega)]
          rw [hemitHead, hemitLastE]
        · intro hmt
          rw [hm0] at hmt
          cases hmt
        · exact pred_empty_args _ _ _
        · intro hx
          cases hx
        · intro hx
          cases hx
        · show (st.tokens.getD st.tpos noneToken).pos.End =
            tkE T (st.tpos + 1 - 1)
          rw [Nat.add_sub_cancel, tkE, hto]
        · show tkK T (st.tpos + 1 - 1) ≠ .tokConcat
          rw [Nat.add_sub_cancel, hrb2]
          intro hx
          cases hx
      · exfalso
        rw [peekToken_ge htp] at hrb
        exact absurd (show (noneToken).kind = .tokRbracket from hrb)
          (by decide)
    · rw [if_neg hrb] at h
      cases hcl : classLoop s fuel tok { st with charClass := [] } with
      | error f =>
        simp only [hcl] at h
        cases h
      | ok pair =>
        obtain ⟨endPos, stc⟩ := pair
        simp only [hcl] at h
        have hclk := hCL tok { st with charClass := [] } endPos stc hto hle
          hmodeA hcl
        have h2 : Except.ok ((Expr.mk .OpNegCharClass (combinePos tok.pos endPos)
            stc.charClass [] : Expr), stc) = Except.ok (e, st2) := h
        cases h2
        obtain ⟨h2to, h2ab, h2le, h2K, h2ep, h2mode, Dall, hA1, hA2, hA3,
          hA4, hA5, hA6⟩ := hclk
        have h2ab2 : st.tpos < st2.tpos := h2ab
        have hccD : st2.charClass = Dall := by
          have hA2b : st2.charClass = [] ++ Dall := hA2
          rw [hA2b, List.nil_append]
        have hA3b : emitSpanList s Dall =
            sliceStr s (tkB T st.tpos) (tkB T (st2.tpos - 1)) := hA3
        have hA4b : (Dall.headI).Pos.Begin = tkB T st.tpos := hA4
        have hA5b : (Dall.getLastI).Pos.End = tkB T (st2.tpos - 1) := hA5
        have hb1lt : st2.tpos - 1 < T.length := by omega
        have hcr := tk_content_eta hT hb1lt
        rw [h2K] at hcr
        obtain ⟨hcr1, hcr2⟩ := hcr
        have hcr1b : tkE T (st2.tpos - 1) = tkB T (st2.tpos - 1) + 1 := hcr1
        have hcr2b : byteAt s (tkB T (st2.tpos - 1)) = 93 := hcr2
        have hchain : tkE T (st.tpos - 1) = tkB T st.tpos := by
          have he2 : st.tpos - 1 + 1 = st.tpos := by omega
          have hc4 := tk_chain hT (show st.tpos - 1 + 1 < T.length by omega)
            (by rw [hkk]; intro hx; cases hx)
          rw [he2] at hc4
          exact hc4
        have hEp : endPos.End = tkE T (st2.tpos - 1) := by
          rw [h2ep, tkE]
        have hemitHead : sliceStr s (tkB T (st.tpos - 1)) (tkB T st.tpos) =
            [91, 94] := by
          rw [← hchain, hc1b]
          rw [slice_cons_byte (show tkB T (st.tpos - 1) <
              tkB T (st.tpos - 1) + 2 by omega)
            (by
              have hsp := (tk_span hT hlt).2
              omega) hc2b]
          rw [show tkB T (st.tpos - 1) + 2 = (tkB T (st.tpos - 1) + 1) + 1
            from by omega]
          rw [sliceStr_single hc3b (by
            have hsp := (tk_span hT hlt).2
            omega)]
        have hemitLast : sliceStr s (tkB T (st2.tpos - 1))
            (tkE T (st2.tpos - 1)) = [93] := by
          rw [hcr1b]
          exact sliceStr_single hcr2b (by
            have hsp := (tk_span hT hb1lt).2
            omega)
        have hg1 : tkB T (st.tpos - 1) ≤ tkB T st.tpos := by omega
        have hg2 : tkB T st.tpos ≤ tkB T (st2.tpos - 1) :=
          tkB_mono hT (st2.tpos - 1) st.tpos (by omega) (by omega)
        have hg3 : tkB T st.tpos ≤ s.length := by
          have hsp := (tk_span hT (show st.tpos < T.length by omega)).1
          have hsp2 := (tk_span hT (show st.tpos < T.length by omega)).2
          omega
        have hg5 : tkB T (st2.tpos - 1) ≤ tkE T (st2.tpos - 1) :=
          (tk_span hT hb1lt).1
        have hg6 : tkB T (st2.tpos - 1) ≤ s.length := by
          have hsp := (tk_span hT hb1lt).2
          omega
        refine ⟨h2to, by omega, h2le, ?_, ?_, ?_, ?_, ?_, ?_, ?_, ?_⟩
        · rw [h2mode, hm0]
        · intro _
          show [91, 94] ++ emitSpanList s st2.charClass ++ [93] =
            sliceStr s (tkB T (st.tpos - 1)) (tkE T (st2.tpos - 1))
          rw [hccD, hA3b, ← hemitHead, ← hemitLast]
          rw [sliceStr_glue hg1 hg2 hg3]
          exact sliceStr_glue (le_trans hg1 hg2) hg5 hg6
        · intro hmt
          rw [hm0] at hmt
          cases hmt
        · refine ⟨⟨?_, ?_, ?_⟩, ?_⟩
          · intro hop _
            rcases hop with hx | hx | hx <;> cases hx
          · intro hx
            cases hx
          · intro _ _
            constructor
            · show tok.pos.Begin + 2 = ((st2.charClass).headI).Pos.Begin
              rw [hccD, hA4b]
              omega
            · show endPos.End = ((st2.charClass).getLastI).Pos.End + 1
              rw [hccD, hA5b, hEp]
              exact hcr1b
          · rw [hccD]
            exact hA6
        · intro hx
          cases hx
        · intro hx
          cases hx
        · show endPos.End = tkE T (st2.tpos - 1)
          exact hEp
        · show tkK T (st2.tpos - 1) ≠ .tokConcat
          rw [h2K]
          intro hx
          cases hx


theorem stepPGI (s : Str) (T : List token) (hT : LexOK s T) (fuel : Nat)
    (hPE : PEok s T fuel) : PGIok s T (fuel + 1) := by
  intro tok st x st2 hto hle h1le hmode hKprev h
  rw [parseGroupItem] at h
  by_cases hrp : (peekToken st).kind = tokenKind.tokRparen
  · rw [if_pos hrp] at h
    have h2 : Except.ok ((Expr.mk .OpConcat tok.pos [] [] : Expr), st) =
        Except.ok (x, st2) := h
    cases h2
    refine ⟨hto, le_refl _, hle, hmode, hKprev, ?_, pred_empty_args _ _ _⟩
    show emitSpanList s ([] : List Expr) =
      sliceStr s (tkE T (st.tpos - 1)) (tkE T (st.tpos - 1))
    rw [sliceStr_nil]
    rfl
  · rw [if_neg hrp] at h
    have hpe := hPE 0 st x st2 hto hle h
    obtain ⟨h1to, h1ab, h1le2, hpost⟩ := hpe
    obtain ⟨hm1, hout1, hin1, hpred1, hsh11, hsh12, hend1, hkc1⟩ := hpost
    refine ⟨h1to, by omega, h1le2, ?_, hkc1, ?_, hpred1⟩
    · rw [hm1]
      exact hmode
    · have hchain : tkE T (st.tpos - 1) = tkB T st.tpos := by
        have he2 : st.tpos - 1 + 1 = st.tpos := by omega
        have hc4 := tk_chain hT (show st.tpos - 1 + 1 < T.length by omega)
          hKprev
        rw [he2] at hc4
        exact hc4
      rw [hchain]
      exact hout1 hmode

theorem stepPC (s : Str) (T : List token) (hT : LexOK s T) (fuel : Nat)
    (hPGI : PGIok s T fuel) : PCok s T (fuel + 1) := by
  intro tok st e st2 hto hle h1le htok hkk h
  rw [parseCapture] at h
  have hlt : st.tpos - 1 < T.length := by omega
  have hB : tkB T (st.tpos - 1) = tok.pos.Begin := by rw [tkB, ← htok]
  have hE : tkE T (st.tpos - 1) = tok.pos.End := by rw [tkE, ← htok]
  have hm0 : modeAt T (st.tpos - 1) = false := mode_false_at hT hlt
    (by
      rw [hkk]
      intro hx
      rcases hx with hx|hx|hx|hx|hx|hx|hx|hx|hx|hx|hx|hx <;> cases hx)
  have hmodeA : modeAt T st.tpos = modeAt T (st.tpos - 1) := by
    have hsucc := modeAt_succ T (st.tpos - 1) hlt
    have he : st.tpos - 1 + 1 = st.tpos := by omega
    rw [he] at hsucc
    rw [hsucc, hkk]
    exact modeAfter_neutral (by intro hx; cases hx) (by intro hx; cases hx)
      (by intro hx; cases hx)
  have hmodeF : modeAt T st.tpos = false := by
    rw [hmodeA]
    exact hm0
  have hKprevA : tkK T (st.tpos - 1) ≠ .tokConcat := by
    rw [hkk]
    intro hx
    cases hx
  have hc := tk_content_eta hT hlt
  rw [hkk] at hc
  obtain ⟨hc1, hc2⟩ := hc
  have hc1b : tkE T (st.tpos - 1) = tkB T (st.tpos - 1) + 1 := hc1
  have hc2b : byteAt s (tkB T (st.tpos - 1)) = 40 := hc2
  cases hres : parseGroupItem s fuel tok st with
  | error f =>
    simp only [hres] at h
    cases h
  | ok pair =>
    obtain ⟨x, st1⟩ := pair
    simp only [hres] at h
    have hgi := hPGI tok st x st1 hto hle h1le hmodeF hKprevA hres
    obtain ⟨h1to, h1ab, h1le2, h1mode, h1kc, h1emit, h1pred⟩ := hgi
    cases hek : expectKind tokenKind.tokRparen st1 with
    | error f =>
      simp only [hek] at h
      cases h
    | ok pair2 =>
      obtain ⟨rp, stf⟩ := pair2
      simp only [hek] at h
      have hdet := expectKind_ok_detail h1to (by intro hx; cases hx) hek
      have h2 : Except.ok ((Expr.mk .OpCapture ⟨tok.pos.Begin, rp.End⟩ [x] []
          : Expr), stf) = Except.ok (e, st2) := h
      cases h2
      obtain ⟨hmidlt, hftpos, hmidK, hrp, hfto, hfcc⟩ := hdet
      have hcr := tk_content_eta hT hmidlt
      rw [hmidK] at hcr
      obtain ⟨hcr1, hcr2⟩ := hcr
      have hcr1b : tkE T st1.tpos = tkB T st1.tpos + 1 := hcr1
      have hcr2b : byteAt s (tkB T st1.tpos) = 41 := hcr2
      have hchainMid : tkE T (st1.tpos - 1) = tkB T st1.tpos := by
        have he2 : st1.tpos - 1 + 1 = st1.tpos := by omega
        have hc4 := tk_chain hT (show st1.tpos - 1 + 1 < T.length by omega)
          h1kc
        rw [he2] at hc4
        exact hc4
      have hb1 : st2.tpos - 1 = st1.tpos := by omega
      have hEle : tkE T (st.tpos - 1) ≤ tkE T st1.tpos :=
        tkE_le_tkE hT (by omega) hmidlt
      have hmidlen : tkB T st1.tpos < s.length := by
        have hsp := (tk_span hT hmidlt).2
        omega
      refine ⟨hfto, by omega, by omega, ?_, ?_, ?_, ?_, ?_, ?_, ?_, ?_⟩
      · have hstep : modeAt T (st1.tpos + 1) = modeAt T st1.tpos := by
          rw [modeAt_succ T st1.tpos hmidlt, hmidK]
          exact modeAfter_neutral (by intro hx; cases hx)
            (by intro hx; cases hx) (by intro hx; cases hx)
        rw [hftpos, hstep, h1mode, hm0]
      · intro _
        show ([40] ++ (emitSpan s x ++ ([] : Str))) ++ [41] =
          sliceStr s (tkB T (st.tpos - 1)) (tkE T (st2.tpos - 1))
        rw [List.append_nil, hb1, h1emit, hchainMid]
        rw [slice_cons_byte (show tkB T (st.tpos - 1) < tkE T st1.tpos
            by omega) ((tk_span hT hmidlt).2) hc2b]
        rw [← hc1b]
        rw [← sliceStr_glue (show tkE T (st.tpos - 1) ≤ tkB T st1.tpos by
            rw [← hchainMid]
            exact tkE_le_tkE hT (by omega) (by omega))
          ((tk_span hT hmidlt).1)
          (by
            have hsp := (tk_span hT hmidlt).2
            omega)]
        rw [hcr1b, sliceStr_single hcr2b hmidlen]
        simp
      · intro hmt
        rw [hm0] at hmt
        cases hmt
      · refine ⟨⟨?_, ?_, ?_⟩, h1pred, trivial⟩
        · intro hop _
          rcases hop with hx | hx | hx <;> cases hx
        · intro hx
          cases hx
        · intro hx
          cases hx
      · intro hx
        cases hx
      · intro hx
        cases hx
      · show rp.End = tkE T (st2.tpos - 1)
        rw [hb1, hrp, tkE]
      · show tkK T (st2.tpos - 1) ≠ .tokConcat
        rw [hb1, hmidK]
        intro hx
        cases hx

theorem sliceStr_full (s : Str) : sliceStr s 0 s.length = s := by
  unfold sliceStr
  simp

/-- The opening bytes of a named-capture token: `(?P<`, then the name
slice ending right before the closing `>`. -/
theorem lparenName_header {s : Str} {B E : Nat} (h40 : byteAt s B = 40)
    (hpre : hasPrefixList (strBytes "?P<") (s.drop (B + 1)) = true)
    (h5 : B + 5 ≤ E) (h62 : byteAt s (E - 1) = 62) (hE : E ≤ s.length) :
    sliceStr s B E = strBytes "(?P<" ++ sliceStr s (B + 4) (E - 1) ++ [62] := by
  have hp3 : sliceStr s (B + 1) (B + 1 + (strBytes "?P<").length) =
      strBytes "?P<" := prefix_slice hpre
  have hplen : (strBytes "?P<").length = 3 := rfl
  rw [hplen] at hp3
  have h13 : B + 1 + 3 = B + 4 := by omega
  rw [h13] at hp3
  rw [← sliceStr_glue (show B ≤ B + 1 by omega) (show B + 1 ≤ E by omega)
    (show B + 1 ≤ s.length by omega)]
  rw [sliceStr_single h40 (by omega)]
  rw [← sliceStr_glue (show B + 1 ≤ B + 4 by omega) (show B + 4 ≤ E by omega)
    (show B + 4 ≤ s.length by omega)]
  rw [hp3]
  rw [slice_snoc_byte (show B + 4 < E by omega) hE h62]
  have hsb : strBytes "(?P<" = 40 :: strBytes "?P<" := rfl
  rw [hsb]
  simp

/-- The bytes of a flag-group token with a `:` before its closing
paren: `(`, the flag slice, then `:`. -/
theorem flags_header {s : Str} {B E : Nat} (h40 : byteAt s B = 40)
    (hBE : B + 1 < E) (h58 : byteAt s (E - 1) = 58) (hE : E ≤ s.length) :
    sliceStr s B E = [40] ++ sliceStr s (B + 1) (E - 1) ++ [58] := by
  rw [slice_cons_byte (show B < E by omega) hE h40]
  rw [slice_snoc_byte hBE hE h58]
  simp

theorem stepPNC (s : Str) (T : List token) (hT : LexOK s T) (fuel : Nat)
    (hPGI : PGIok s T fuel) : PNCok s T (fuel + 1) := by
  intro tok st e st2 hto hle h1le htok hkk h
  rw [parseNamedCapture] at h
  have hlt : st.tpos - 1 < T.length := by omega
  have hB : tkB T (st.tpos - 1) = tok.pos.Begin := by rw [tkB, ← htok]
  have hE : tkE T (st.tpos - 1) = tok.pos.End := by rw [tkE, ← htok]
  have hm0 : modeAt T (st.tpos - 1) = false := mode_false_at hT hlt
    (by
      rw [hkk]
      intro hx
      rcases hx with hx|hx|hx|hx|hx|hx|hx|hx|hx|hx|hx|hx <;> cases hx)
  have hmodeA : modeAt T st.tpos = modeAt T (st.tpos - 1) := by
    have hsucc := modeAt_succ T (st.tpos - 1) hlt
    have he : st.tpos - 1 + 1 = st.tpos := by omega
    rw [he] at hsucc
    rw [hsucc, hkk]
    exact modeAfter_neutral (by intro hx; cases hx) (by intro hx; cases hx)
      (by intro hx; cases hx)
  have hmodeF : modeAt T st.tpos = false := by
    rw [hmodeA]
    exact hm0
  have hKprevA : tkK T (st.tpos - 1) ≠ .tokConcat := by
    rw [hkk]
    intro hx
    cases hx
  have hc := tk_content_eta hT hlt
  rw [hkk] at hc
  obtain ⟨hc1, hc2, hc3, hc4⟩ := hc
  have hc1b : byteAt s (tkB T (st.tpos - 1)) = 40 := hc1
  have hc2b : hasPrefixList (strBytes "?P<")
      (s.drop (tkB T (st.tpos - 1) + 1)) = true := hc2
  have hc3b : tkB T (st.tpos - 1) + 5 ≤ tkE T (st.tpos - 1) := hc3
  have hc4b : byteAt s (tkE T (st.tpos - 1) - 1) = 62 := hc4
  obtain ⟨hsp1, hsp2⟩ := tk_span hT hlt
  have h65 : s.length ≤ 65535 := hT.len_le
  cases hres : parseGroupItem s fuel tok st with
  | error f =>
    simp only [hres] at h
    cases h
  | ok pair =>
    obtain ⟨x, st1⟩ := pair
    simp only [hres] at h
    have hgi := hPGI tok st x st1 hto hle h1le hmodeF hKprevA hres
    obtain ⟨h1to, h1ab, h1le2, h1mode, h1kc, h1emit, h1pred⟩ := hgi
    cases hek : expectKind tokenKind.tokRparen st1 with
    | error f =>
      simp only [hek] at h
      cases h
    | ok pair2 =>
      obtain ⟨rp, stf⟩ := pair2
      simp only [hek] at h
      have hdet := expectKind_ok_detail h1to (by intro hx; cases hx) hek
      have h2 : Except.ok ((Expr.mk .OpNamedCapture ⟨tok.pos.Begin, rp.End⟩
          [x, .mk .OpString ⟨u16 (tok.pos.Begin + 4), u16sub tok.pos.End 1⟩
            [] []] [] : Expr), stf) = Except.ok (e, st2) := h
      cases h2
      obtain ⟨hmidlt, hftpos, hmidK, hrp, hfto, hfcc⟩ := hdet
      have hcr := tk_content_eta hT hmidlt
      rw [hmidK] at hcr
      obtain ⟨hcr1, hcr2⟩ := hcr
      have hcr1b : tkE T st1.tpos = tkB T st1.tpos + 1 := hcr1
      have hcr2b : byteAt s (tkB T st1.tpos) = 41 := hcr2
      have hchainMid : tkE T (st1.tpos - 1) = tkB T st1.tpos := by
        have he2 : st1.tpos - 1 + 1 = st1.tpos := by omega
        have hc4m := tk_chain hT (show st1.tpos - 1 + 1 < T.length by omega)
          h1kc
        rw [he2] at hc4m
        exact hc4m
      have hb1 : st2.tpos - 1 = st1.tpos := by omega
      have hEleMid : tkE T (st.tpos - 1) ≤ tkB T st1.tpos := by
        rw [← hchainMid]
        exact tkE_le_tkE hT (by omega) (by omega)
      have hmidlen : tkB T st1.tpos < s.length := by
        have hspm := (tk_span hT hmidlt).2
        omega
      have hspMid1 : tkB T st1.tpos ≤ tkE T st1.tpos := (tk_span hT hmidlt).1
      refine ⟨hfto, by omega, by omega, ?_, ?_, ?_, ?_, ?_, ?_, ?_, ?_⟩
      · have hstep : modeAt T (st1.tpos + 1) = modeAt T st1.tpos := by
          rw [modeAt_succ T st1.tpos hmidlt, hmidK]
          exact modeAfter_neutral (by intro hx; cases hx)
            (by intro hx; cases hx) (by intro hx; cases hx)
        rw [hftpos, hstep, h1mode, hm0]
      · intro hmf
        show strBytes "(?P<" ++
            sliceStr s (u16 (tok.pos.Begin + 4)) (u16sub tok.pos.End 1) ++
            [62] ++ emitSpan s x ++ [41] =
          sliceStr s (tkB T (st.tpos - 1)) (tkE T (st2.tpos - 1))
        rw [u16_eq (show tok.pos.Begin + 4 ≤ 65535 by omega),
          u16sub_eq (show 1 ≤ tok.pos.End by omega)
            (show tok.pos.End ≤ 65535 by omega), ← hB, ← hE]
        rw [hb1, h1emit, hchainMid]
        rw [← sliceStr_glue (show tkB T (st.tpos - 1) ≤ tkB T st1.tpos by
            omega) hspMid1 (show tkB T st1.tpos ≤ s.length by omega)]
        rw [hcr1b, sliceStr_single hcr2b hmidlen]
        rw [← sliceStr_glue hsp1 hEleMid hsp2]
        rw [lparenName_header hc1b hc2b hc3b hc4b hsp2]
      · intro hmt
        rw [hm0] at hmt
        cases hmt
      · refine ⟨⟨?_, ?_, ?_⟩, h1pred, pred_empty_args _ _ _, trivial⟩
        · intro hop hne2
          rcases hop with hx | hx | hx <;> cases hx
        · intro hx
          cases hx
        · intro hx
          cases hx
      · intro hx
        cases hx
      · intro hx
        cases hx
      · show rp.End = tkE T (st2.tpos - 1)
        rw [hb1, hrp, tkE]
      · show tkK T (st2.tpos - 1) ≠ .tokConcat
        rw [hb1, hmidK]
        intro hx
        cases hx

theorem stepGWF (s : Str) (T : List token) (hT : LexOK s T) (fuel : Nat)
    (hPGI : PGIok s T fuel) : GWFok s T (fuel + 1) := by
  intro tok st e st2 hto hle h1le htok hkk h
  rw [parseGroupWithFlags] at h
  have hlt : st.tpos - 1 < T.length := by omega
  have hB : tkB T (st.tpos - 1) = tok.pos.Begin := by rw [tkB, ← htok]
  have hE : tkE T (st.tpos - 1) = tok.pos.End := by rw [tkE, ← htok]
  have hm0 : modeAt T (st.tpos - 1) = false := mode_false_at hT hlt
    (by
      rw [hkk]
      intro hx
      rcases hx with hx|hx|hx|hx|hx|hx|hx|hx|hx|hx|hx|hx <;> cases hx)
  have hmodeA : modeAt T st.tpos = modeAt T (st.tpos - 1) := by
    have hsucc := modeAt_succ T (st.tpos - 1) hlt
    have he : st.tpos - 1 + 1 = st.tpos := by omega
    rw [he] at hsucc
    rw [hsucc, hkk]
    exact modeAfter_neutral (by intro hx; cases hx) (by intro hx; cases hx)
      (by intro hx; cases hx)
  have hmodeF : modeAt T st.tpos = false := by
    rw [hmodeA]
    exact hm0
  have hKprevA : tkK T (st.tpos - 1) ≠ .tokConcat := by
    rw [hkk]
    intro hx
    cases hx
  have hc := tk_content_eta hT hlt
  rw [hkk] at hc
  obtain ⟨hc1, hc2⟩ := hc
  have hc1b : byteAt s (tkB T (st.tpos - 1)) = 40 := hc1
  have hc2b : tkB T (st.tpos - 1) + 2 ≤ tkE T (st.tpos - 1) := hc2
  obtain ⟨hsp1, hsp2⟩ := tk_span hT hlt
  have h65 : s.length ≤ 65535 := hT.len_le
  have hu16 : u16 (tok.pos.Begin + 1) = tok.pos.Begin + 1 :=
    u16_eq (by omega)
  have hcond : u16 (tok.pos.Begin + 1) ≤ tok.pos.End ∧
      tok.pos.End ≤ s.length := by
    rw [hu16]
    omega
  rw [if_pos hcond] at h
  simp only [hu16] at h
  by_cases hsuf : hasSuffixList [58]
      (sliceStr s (tok.pos.Begin + 1) tok.pos.End) = true
  case neg =>
    rw [if_pos hsuf] at h
    cases hek : expectKind tokenKind.tokRparen st with
    | error f =>
      simp only [hek] at h
      cases h
    | ok pair =>
      obtain ⟨rp, stf⟩ := pair
      simp only [hek] at h
      have hdet := expectKind_ok_detail hto (by intro hx; cases hx) hek
      have h2 : Except.ok ((Expr.mk .OpFlagOnlyGroup ⟨tok.pos.Begin, rp.End⟩
          [.mk .OpString ⟨tok.pos.Begin + 1, tok.pos.End⟩ [] []] []
          : Expr), stf) = Except.ok (e, st2) := h
      cases h2
      obtain ⟨hmidlt, hftpos, hmidK, hrp, hfto, hfcc⟩ := hdet
      have hcr := tk_content_eta hT hmidlt
      rw [hmidK] at hcr
      obtain ⟨hcr1, hcr2⟩ := hcr
      have hcr1b : tkE T st.tpos = tkB T st.tpos + 1 := hcr1
      have hcr2b : byteAt s (tkB T st.tpos) = 41 := hcr2
      have hchain : tkE T (st.tpos - 1) = tkB T st.tpos := by
        have he2 : st.tpos - 1 + 1 = st.tpos := by omega
        have hc4m := tk_chain hT (show st.tpos - 1 + 1 < T.length by omega)
          hKprevA
        rw [he2] at hc4m
        exact hc4m
      have hb1 : st2.tpos - 1 = st.tpos := by omega
      have hmidlen : tkB T st.tpos < s.length := by
        have hspm := (tk_span hT hmidlt).2
        omega
      have hspMid1 : tkB T st.tpos ≤ tkE T st.tpos := (tk_span hT hmidlt).1
      refine ⟨hfto, by omega, by omega, ?_, ?_, ?_, ?_, ?_, ?_, ?_, ?_⟩
      · have hstep : modeAt T (st.tpos + 1) = modeAt T st.tpos := by
          rw [modeAt_succ T st.tpos hmidlt, hmidK]
          exact modeAfter_neutral (by intro hx; cases hx)
            (by intro hx; cases hx) (by intro hx; cases hx)
        rw [hftpos, hstep]
        exact hmodeA
      · intro hmf
        show [40] ++ (sliceStr s (tok.pos.Begin + 1) tok.pos.End ++
            ([] : Str)) ++ [41] =
          sliceStr s (tkB T (st.tpos - 1)) (tkE T (st2.tpos - 1))
        rw [List.append_nil, ← hB, ← hE, hb1]
        rw [← sliceStr_glue (show tkB T (st.tpos - 1) ≤ tkB T st.tpos by
            omega) hspMid1 (show tkB T st.tpos ≤ s.length by omega)]
        rw [hcr1b, sliceStr_single hcr2b hmidlen]
        rw [← hchain]
        rw [slice_cons_byte (show tkB T (st.tpos - 1) < tkE T (st.tpos - 1)
          by omega) hsp2 hc1b]
        simp
      · intro hmt
        rw [hm0] at hmt
        cases hmt
      · refine ⟨⟨?_, ?_, ?_⟩, pred_empty_args _ _ _, trivial⟩
        · intro hop hne2
          rcases hop with hx | hx | hx <;> cases hx
        · intro hx
          cases hx
        · intro hx
          cases hx
      · intro hx
        cases hx
      · intro hx
        cases hx
      · show rp.End = tkE T (st2.tpos - 1)
        rw [hb1, hrp, tkE]
      · show tkK T (st2.tpos - 1) ≠ .tokConcat
        rw [hb1, hmidK]
        intro hx
        cases hx
  case pos =>
    rw [if_neg (not_not_intro hsuf)] at h
    obtain ⟨hvne, hvlast⟩ := suffix_byte hsuf
    have hlenv : (sliceStr s (tok.pos.Begin + 1) tok.pos.End).length =
        tok.pos.End - (tok.pos.Begin + 1) :=
      sliceStr_len (by omega) (by omega)
    have hBE : tok.pos.Begin + 1 < tok.pos.End := by
      have hl0 : 0 < (sliceStr s (tok.pos.Begin + 1) tok.pos.End).length :=
        List.length_pos.mpr hvne
      omega
    have h58 : byteAt s (tok.pos.End - 1) = 58 := by
      have hgd := hvlast
      rw [hlenv] at hgd
      rw [sliceStr_getD (show (tok.pos.Begin + 1) +
          (tok.pos.End - (tok.pos.Begin + 1) - 1) < tok.pos.End by omega)
        (show tok.pos.End ≤ s.length by omega)] at hgd
      rw [show (tok.pos.Begin + 1) + (tok.pos.End - (tok.pos.Begin + 1) - 1) =
        tok.pos.End - 1 by omega] at hgd
      exact hgd
    by_cases hval : sliceStr s (tok.pos.Begin + 1) tok.pos.End = [63, 58]
    · rw [if_pos hval] at h
      cases hres : parseGroupItem s fuel tok st with
      | error f =>
        simp only [hres] at h
        cases h
      | ok pair =>
        obtain ⟨x, st1⟩ := pair
        simp only [hres] at h
        have hgi := hPGI tok st x st1 hto hle h1le hmodeF hKprevA hres
        obtain ⟨h1to, h1ab, h1le2, h1mode, h1kc, h1emit, h1pred⟩ := hgi
        cases hek : expectKind tokenKind.tokRparen st1 with
        | error f =>
          simp only [hek] at h
          cases h
        | ok pair2 =>
          obtain ⟨rp, stf⟩ := pair2
          simp only [hek] at h
          have hdet := expectKind_ok_detail h1to (by intro hx; cases hx) hek
          obtain ⟨hmidlt, hftpos, hmidK, hrp, hfto, hfcc⟩ := hdet
          have hcr := tk_content_eta hT hmidlt
          rw [hmidK] at hcr
          obtain ⟨hcr1, hcr2⟩ := hcr
          have hcr1b : tkE T st1.tpos = tkB T st1.tpos + 1 := hcr1
          have hcr2b : byteAt s (tkB T st1.tpos) = 41 := hcr2
          have hchainMid : tkE T (st1.tpos - 1) = tkB T st1.tpos := by
            have he2 : st1.tpos - 1 + 1 = st1.tpos := by omega
            have hc4m := tk_chain hT
              (show st1.tpos - 1 + 1 < T.length by omega) h1kc
            rw [he2] at hc4m
            exact hc4m
          have hEleMid : tkE T (st.tpos - 1) ≤ tkB T st1.tpos := by
            rw [← hchainMid]
            exact tkE_le_tkE hT (by omega) (by omega)
          have hmidlen : tkB T st1.tpos < s.length := by
            have hspm := (tk_span hT hmidlt).2
            omega
          have hspMid1 : tkB T st1.tpos ≤ tkE T st1.tpos :=
            (tk_span hT hmidlt).1
          have hstep : modeAt T (st1.tpos + 1) = modeAt T st1.tpos := by
            rw [modeAt_succ T st1.tpos hmidlt, hmidK]
            exact modeAfter_neutral (by intro hx; cases hx)
              (by intro hx; cases hx) (by intro hx; cases hx)
          have h2 : Except.ok ((Expr.mk .OpGroup ⟨tok.pos.Begin, rp.End⟩
              [x] [] : Expr), stf) = Except.ok (e, st2) := h
          cases h2
          have hb1 : st2.tpos - 1 = st1.tpos := by omega
          have hbytes : sliceStr s (tkB T (st.tpos - 1) + 1)
              (tkE T (st.tpos - 1)) = [63, 58] := by
            rw [hB, hE]
            exact hval
          have hheader : sliceStr s (tkB T (st.tpos - 1))
              (tkE T (st.tpos - 1)) = strBytes "(?:" := by
            rw [slice_cons_byte (show tkB T (st.tpos - 1) <
              tkE T (st.tpos - 1) by omega) hsp2 hc1b, hbytes]
            rfl
          refine ⟨hfto, by omega, by omega, ?_, ?_, ?_, ?_, ?_, ?_, ?_, ?_⟩
          · rw [hftpos, hstep, h1mode, hm0]
          · intro hmf
            show strBytes "(?:" ++ (emitSpan s x ++ ([] : Str)) ++ [41] =
              sliceStr s (tkB T (st.tpos - 1)) (tkE T (st2.tpos - 1))
            rw [List.append_nil, hb1, h1emit, hchainMid]
            rw [← sliceStr_glue (show tkB T (st.tpos - 1) ≤ tkB T st1.tpos
                by omega) hspMid1 (show tkB T st1.tpos ≤ s.length by omega)]
            rw [hcr1b, sliceStr_single hcr2b hmidlen]
            rw [← sliceStr_glue hsp1 hEleMid hsp2]
            rw [hheader]
          · intro hmt
            rw [hm0] at hmt
            cases hmt
          · refine ⟨⟨?_, ?_, ?_⟩, h1pred, trivial⟩
            · intro hop hne2
              rcases hop with hx | hx | hx <;> cases hx
            · intro hx
              cases hx
            · intro hx
              cases hx
          · intro hx
            cases hx
          · intro hx
            cases hx
          · show rp.End = tkE T (st2.tpos - 1)
            rw [hb1, hrp, tkE]
          · show tkK T (st2.tpos - 1) ≠ .tokConcat
            rw [hb1, hmidK]
            intro hx
            cases hx
    · rw [if_neg hval] at h
      cases hres : parseGroupItem s fuel tok st with
      | error f =>
        simp only [hres] at h
        cases h
      | ok pair =>
        obtain ⟨x, st1⟩ := pair
        simp only [hres] at h
        have hgi := hPGI tok st x st1 hto hle h1le hmodeF hKprevA hres
        obtain ⟨h1to, h1ab, h1le2, h1mode, h1kc, h1emit, h1pred⟩ := hgi
        cases hek : expectKind tokenKind.tokRparen st1 with
        | error f =>
          simp only [hek] at h
          cases h
        | ok pair2 =>
          obtain ⟨rp, stf⟩ := pair2
          simp only [hek] at h
          have hdet := expectKind_ok_detail h1to (by intro hx; cases hx) hek
          obtain ⟨hmidlt, hftpos, hmidK, hrp, hfto, hfcc⟩ := hdet
          have hcr := tk_content_eta hT hmidlt
          rw [hmidK] at hcr
          obtain ⟨hcr1, hcr2⟩ := hcr
          have hcr1b : tkE T st1.tpos = tkB T st1.tpos + 1 := hcr1
          have hcr2b : byteAt s (tkB T st1.tpos) = 41 := hcr2
          have hchainMid : tkE T (st1.tpos - 1) = tkB T st1.tpos := by
            have he2 : st1.tpos - 1 + 1 = st1.tpos := by omega
            have hc4m := tk_chain hT
              (show st1.tpos - 1 + 1 < T.length by omega) h1kc
            rw [he2] at hc4m
            exact hc4m
          have hEleMid : tkE T (st.tpos - 1) ≤ tkB T st1.tpos := by
            rw [← hchainMid]
            exact tkE_le_tkE hT (by omega) (by omega)
          have hmidlen : tkB T st1.tpos < s.length := by
            have hspm := (tk_span hT hmidlt).2
            omega
          have hspMid1 : tkB T st1.tpos ≤ tkE T st1.tpos :=
            (tk_span hT hmidlt).1
          have hstep : modeAt T (st1.tpos + 1) = modeAt T st1.tpos := by
            rw [modeAt_succ T st1.tpos hmidlt, hmidK]
            exact modeAfter_neutral (by intro hx; cases hx)
              (by intro hx; cases hx) (by intro hx; cases hx)
          have h2 : Except.ok ((Expr.mk .OpGroupWithFlags
              ⟨tok.pos.Begin, rp.End⟩
              [x, .mk .OpString ⟨tok.pos.Begin + 1, u16sub tok.pos.End 1⟩
                [] []] [] : Expr), stf) = Except.ok (e, st2) := h
          cases h2
          have hb1 : st2.tpos - 1 = st1.tpos := by omega
          have hBEtk : tkB T (st.tpos - 1) + 1 < tkE T (st.tpos - 1) := by
            omega
          have h58tk : byteAt s (tkE T (st.tpos - 1) - 1) = 58 := by
            rw [hE]
            exact h58
          refine ⟨hfto, by omega, by omega, ?_, ?_, ?_, ?_, ?_, ?_, ?_, ?_⟩
          · rw [hftpos, hstep, h1mode, hm0]
          · intro hmf
            show [40] ++
                sliceStr s (tok.pos.Begin + 1) (u16sub tok.pos.End 1) ++
                [58] ++ emitSpan s x ++ [41] =
              sliceStr s (tkB T (st.tpos - 1)) (tkE T (st2.tpos - 1))
            rw [u16sub_eq (show 1 ≤ tok.pos.End by omega)
              (show tok.pos.End ≤ 65535 by omega), ← hB, ← hE]
            rw [hb1, h1emit, hchainMid]
            rw [← sliceStr_glue (show tkB T (st.tpos - 1) ≤ tkB T st1.tpos
                by omega) hspMid1 (show tkB T st1.tpos ≤ s.length by omega)]
            rw [hcr1b, sliceStr_single hcr2b hmidlen]
            rw [← sliceStr_glue hsp1 hEleMid hsp2]
            rw [flags_header hc1b hBEtk h58tk hsp2]
          · intro hmt
            rw [hm0] at hmt
            cases hmt
          · refine ⟨⟨?_, ?_, ?_⟩, h1pred, pred_empty_args _ _ _, trivial⟩
            · intro hop hne2
              rcases hop with hx | hx | hx <;> cases hx
            · intro hx
              cases hx
            · intro hx
              cases hx
          · intro hx
            cases hx
          · intro hx
            cases hx
          · show rp.End = tkE T (st2.tpos - 1)
            rw [hb1, hrp, tkE]
          · show tkK T (st2.tpos - 1) ≠ .tokConcat
            rw [hb1, hmidK]
            intro hx
            cases hx

/-- All eleven per-function contracts hold at every fuel: the assembled
span-emission induction over the whole mutual parser block. -/
theorem parserEmit_ok (s : Str) (T : List token) (hT : LexOK s T) :
    ∀ fuel, PEok s T fuel ∧ ILok s T fuel ∧ APPok s T fuel ∧
      AIPok s T fuel ∧ PMok s T fuel ∧ PCCok s T fuel ∧ CLok s T fuel ∧
      PGIok s T fuel ∧ PCok s T fuel ∧ PNCok s T fuel ∧ GWFok s T fuel := by
  intro fuel
  induction fuel with
  | zero =>
    exact ⟨PEok_zero s T, ILok_zero s T, APPok_zero s T, AIPok_zero s T,
      PMok_zero s T, PCCok_zero s T, CLok_zero s T, PGIok_zero s T,
      PCok_zero s T, PNCok_zero s T, GWFok_zero s T⟩
  | succ fuel ih =>
    obtain ⟨hPE, hIL, hAPP, hAIP, hPM, hPCC, hCL, hPGI, hPC, hPNC, hGWF⟩ := ih
    exact ⟨stepPE s T hT fuel hAPP hIL, stepIL s T hT fuel hAIP hIL,
      stepAPP s T hT fuel hPC hPNC hGWF hPCC,
      stepAIP s T hT fuel hPE hPM, stepPM s T hT fuel hPE,
      stepPCC s T hT fuel hCL, stepCL s T hT fuel hPE hCL,
      stepPGI s T hT fuel hPE, stepPC s T hT fuel hPGI,
      stepPNC s T hT fuel hPGI, stepGWF s T hT fuel hPGI⟩

/-- A successful `Parse` of a `uint16`-addressable pattern that consumed
every lexed token: the returned AST emits exactly the source, and every
node satisfies the amended sequence-position invariant. -/
theorem parse_ok_inv {s : Str} {re : Regexp} {c t : Nat}
    (hlen : s.length ≤ 65535) (h : Parse s = .ok re c t) (hct : c = t) :
    emitExpr re.Expr = s ∧ allNodes seqPosAmended re.Expr := by
  cases hraw : ParseRawSt s with
  | error f =>
    cases f with
    | err e =>
      simp only [Parse, hraw] at h
      cases h
    | panicked m =>
      simp only [Parse, hraw] at h
      cases h
    | fuelOut =>
      simp only [Parse, hraw] at h
      cases h
  | ok pr =>
    obtain ⟨re0, st1⟩ := pr
    simp only [Parse, hraw] at h
    cases h
    by_cases hs0 : s.length = 0
    · have hs : s = [] := List.length_eq_zero.mp hs0
      subst hs
      have hraw2 : Except.ok ((⟨[], Expr.mk .OpConcat ⟨0, 0⟩ [] []⟩ : Regexp),
          (⟨[], 0, []⟩ : PState)) = Except.ok (re, st1) := hraw
      cases hraw2
      exact ⟨rfl, pred_empty_args _ _ _⟩
    · simp only [ParseRawSt] at hraw
      cases hlex : lexInit s with
      | error f =>
        cases f with
        | err e =>
          simp only [hlex] at hraw
          cases hraw
        | fuelOut =>
          simp only [hlex] at hraw
          cases hraw
      | ok toks =>
        simp only [hlex] at hraw
        rw [if_neg hs0] at hraw
        cases hpe : parseExpr s (parseFuel toks.length) 0 ⟨toks, 0, []⟩ with
        | error f =>
          simp only [hpe] at hraw
          cases hraw
        | ok pr2 =>
          obtain ⟨e0, stp⟩ := pr2
          simp only [hpe] at hraw
          cases hsv : setValues s (mergeChars e0) with
          | error f =>
            simp only [hsv] at hraw
            cases hraw
          | ok e2 =>
            simp only [hsv] at hraw
            cases hraw
            have hT2 : LexOK s toks := lexOK_of_lexInit hlen hlex
            have hres := (parserEmit_ok s toks hT2 (parseFuel toks.length)).1
              0 ⟨toks, 0, []⟩ e0 st1 rfl (Nat.zero_le _) hpe
            obtain ⟨hto2, hpos2, hle2, hpost⟩ := hres
            obtain ⟨hm2, hout2, hin2, hpred2, hsh1, hsh2, hend2, hkc2⟩ := hpost
            rw [hto2] at hct
            have hlp : 0 < toks.length := by omega
            have hne : toks ≠ [] := List.length_pos.mp hlp
            have hemit := hout2 (modeAt_zero toks)
            rw [tk_first hT2 hne, hct, tk_last hT2 hne, sliceStr_full]
              at hemit
            have hmc := mergeChars_keep e0 hpred2
            have hsv2 := setValues_keep s (mergeChars e0) e2 hsv
            refine ⟨?_, hsv2.2.2.2.1 hmc.2.1⟩
            show emitExpr e2 = s
            rw [hsv2.2.2.2.2, hmc.2.2 s, hemit]

/-- C1 (amended): for every pattern of `uint16`-addressable length that
`Parse` accepts with all lexed tokens consumed (`consumed = total`),
re-emitting the returned AST surface form (leaf values in order with
each non-leaf node structural tokens reproduced from its op) yields
exactly the original pattern bytes.  The full-consumption hypothesis is
necessary: `Parse` also accepts patterns while consuming only a prefix
of the tokens, and there re-emission yields only that prefix. -/
theorem C1_roundtrip_amended :
    ∀ (s : Str) (re : Regexp) (c t : Nat), s.length ≤ 65535 →
      Parse s = .ok re c t → c = t → emitExpr re.Expr = s :=
  fun _ _ _ _ hlen h hct => (parse_ok_inv hlen h hct).1

/-- C1 (witness for the amended theorem): the round trip at the concrete
pattern `[ab]`, which `Parse` accepts consuming all four tokens. -/
theorem C1_roundtrip_witness :
    emitExpr (Regexp.mk (strBytes "[ab]")
      (.mk .OpCharClass ⟨0, 4⟩
        [.mk .OpChar ⟨1, 2⟩ [] [97], .mk .OpChar ⟨2, 3⟩ [] [98]]
        [91, 97, 98, 93])).Expr = strBytes "[ab]" :=
  C1_roundtrip_amended (strBytes "[ab]")
    (Regexp.mk (strBytes "[ab]")
      (.mk .OpCharClass ⟨0, 4⟩
        [.mk .OpChar ⟨1, 2⟩ [] [97], .mk .OpChar ⟨2, 3⟩ [] [98]]
        [91, 97, 98, 93])) 4 4 (by decide) rfl rfl

end RegexFE
